import Mathlib

/-!
# Line of sight for roguelike maps (`los.go`)

A shallow embedding of the Go package `los` and a verification of its
visibility refresh.

Modelling conventions.

* The `Map` interface is split in two.  Its two queries `OOB` and
  `CantSeeThrough` are pure predicates of the tile.  Every call on the
  interface, queries included, is recorded in order in a trace of `Call`s; the
  four mutators `Activate`, `Discover`, `Lit`, `UnLit` have no other effect in
  the model.  A `Grid` gives the mutators their per-tile flag meaning.
* The code is embedded twice.
  * Namespace `Los`: exact arithmetic.  Go `int` values are mathematical
    integers and the test `abs(c)/dist < 0.5` with `dist = sqrt(dx*dx + dy*dy)`
    is read as `4*c*c < dx*dx + dy*dy`.  The `for` loop of `los` gets the fuel
    `|dx| + |dy|`, which is proved to be enough.
  * Namespace `Los.Go`: machine arithmetic.  Go `int` is taken 64 bits wide,
    every `+`, `-`, `*` and unary `-` of the source wraps in two's complement
    (`wrap`), and the distance test is the `float64` one (`Go.near`).  The loops
    of the source have no counter; `los` takes a fuel and gives `none` when the
    fuel does not end its loop, and `fov` gives `none` for the radius at which
    the test `j <= radius` cannot fail.
* The two agree for coordinates up to `2^62` in size and radii or ray lengths up
  to `2^23` (`Go.los_inRange`, `Go.CalcVisibility_inRange`); outside, machine
  arithmetic departs from the exact one (`Go.los_wrapped_dist`,
  `Go.los_wrapped_target`).
-/

namespace Los

/-- A call on the `Map` interface, with its coordinate arguments. -/
inductive Call where
  | OOB (x y : Int)
  | Activate (x y : Int)
  | Discover (x y : Int)
  | Lit (x y : Int)
  | UnLit (x y : Int)
  | CantSeeThrough (x y : Int)
  deriving DecidableEq, Repr

/-- The tile a call is made on. -/
def Call.tile : Call → Int × Int
  | .OOB x y => (x, y)
  | .Activate x y => (x, y)
  | .Discover x y => (x, y)
  | .Lit x y => (x, y)
  | .UnLit x y => (x, y)
  | .CantSeeThrough x y => (x, y)

/-- The calls by which the ray caster changes a tile: `Lit`, `Discover`, `Activate`. -/
def Call.isMark : Call → Bool
  | .Activate _ _ => true
  | .Discover _ _ => true
  | .Lit _ _ => true
  | _ => false

/-- The read-only part of the `Map` interface.  `CantSeeThrough x y = true` means
that the tile blocks sight: this is how `los` uses the method (its comment in
the interface, "Can you see through x, y?", reads the other way). -/
structure Map where
  OOB : Int → Int → Bool
  CantSeeThrough : Int → Int → Bool

/-- The values of `x` taken by `for x := lo; x < hi; x++`. -/
def intRange (lo hi : Int) : List Int :=
  (List.range (hi - lo).toNat).map fun (k : Nat) => lo + (k : Int)

/-- Go `clearlight` in exact arithmetic: the `UnLit` calls of the two nested
loops, in order. -/
def clearlight (_m : Map) (px py light : Int) : List Call :=
  (intRange (px - light - 1) (px + light + 1)).flatMap fun x =>
    (intRange (py - light - 1) (py + light + 1)).map fun y => Call.UnLit x y

/-- The test `abs(c)/dist < 0.5` where `dist = sqrt(n)`, read exactly. -/
def near (c n : Int) : Bool := decide (4 * (c * c) < n)

/-- The body of the walk of `los` after the two guards, in exact arithmetic: the
next position. -/
def losStep (x0 y0 dx dy sx sy xnext ynext : Int) : Int × Int :=
  if near (dy * (xnext - x0 + sx) - dx * (ynext - y0)) (dx * dx + dy * dy) then
    (xnext + sx, ynext)
  else if near (dy * (xnext - x0) - dx * (ynext - y0 + sy)) (dx * dx + dy * dy) then
    (xnext, ynext + sy)
  else
    (xnext + sx, ynext + sy)

/-- The statements of `los` after its loop. -/
def losFinish (m : Map) (x1 y1 : Int) : List Call :=
  [Call.Lit x1 y1, Call.Discover x1 y1, Call.OOB x1 y1] ++
    if m.OOB x1 y1 then [] else [Call.Activate x1 y1]

/-- The loop of `los` from position `(xnext, ynext)`, then the statements after
it.  `none` when the fuel runs out. -/
def losLoop (m : Map) (x0 y0 x1 y1 dx dy sx sy : Int) : Nat → Int → Int → Option (List Call)
  | 0, xnext, ynext =>
    if xnext ≠ x1 ∨ ynext ≠ y1 then none else some (losFinish m x1 y1)
  | fuel + 1, xnext, ynext =>
    if xnext ≠ x1 ∨ ynext ≠ y1 then
      if m.OOB xnext ynext then
        some [Call.OOB xnext ynext]
      else if m.CantSeeThrough xnext ynext then
        some [Call.OOB xnext ynext, Call.CantSeeThrough xnext ynext, Call.Discover xnext ynext]
      else
        let p := losStep x0 y0 dx dy sx sy xnext ynext
        (losLoop m x0 y0 x1 y1 dx dy sx sy fuel p.1 p.2).map fun t =>
          Call.OOB xnext ynext :: Call.CantSeeThrough xnext ynext :: t
    else some (losFinish m x1 y1)

/-- Go `los` in exact arithmetic: the trace of the ray from observer `(x0, y0)`
to target `(x1, y1)`. -/
def los (m : Map) (x0 y0 x1 y1 : Int) : Option (List Call) :=
  let dx := x1 - x0
  let dy := y1 - y0
  let sx : Int := if x0 < x1 then 1 else -1
  let sy : Int := if y0 < y1 then 1 else -1
  losLoop m x0 y0 x1 y1 dx dy sx sy (dx.natAbs + dy.natAbs) x0 y0

/-- The positions the loop of `los` goes through before `(x1, y1)` when no guard
stops it. -/
def walkLoop (x0 y0 x1 y1 dx dy sx sy : Int) : Nat → Int → Int → Option (List (Int × Int))
  | 0, xnext, ynext => if xnext ≠ x1 ∨ ynext ≠ y1 then none else some []
  | fuel + 1, xnext, ynext =>
    if xnext ≠ x1 ∨ ynext ≠ y1 then
      let p := losStep x0 y0 dx dy sx sy xnext ynext
      (walkLoop x0 y0 x1 y1 dx dy sx sy fuel p.1 p.2).map fun w => (xnext, ynext) :: w
    else some []

/-- The walk of `los`: the tiles from the observer on, the target excluded, that
the loop tests when no guard stops it. -/
def walk (x0 y0 x1 y1 : Int) : Option (List (Int × Int)) :=
  let dx := x1 - x0
  let dy := y1 - y0
  let sx : Int := if x0 < x1 then 1 else -1
  let sy : Int := if y0 < y1 then 1 else -1
  walkLoop x0 y0 x1 y1 dx dy sx sy (dx.natAbs + dy.natAbs) x0 y0

/-- An invocation `los(m, x0, y0, x1, y1)`. -/
structure Ray where
  x0 : Int
  y0 : Int
  x1 : Int
  y1 : Int
  deriving DecidableEq, Repr

/-- The invocations of `los` made by the two nested loops of `fov`, in order, in
exact arithmetic. -/
def fovRays (x y radius : Int) : List Ray :=
  (intRange (-radius) (radius + 1)).flatMap fun i =>
    (intRange (-radius) (radius + 1)).flatMap fun j =>
      if i * i + j * j < radius * radius then [Ray.mk x y (x + i) (y + j)] else []

/-- Runs traces one after the other; `none` as soon as one of them is. -/
def seqTraces : List (Option (List Call)) → Option (List Call)
  | [] => some []
  | o :: os => o.bind fun t => (seqTraces os).map fun ts => t ++ ts

/-- Go `fov` in exact arithmetic: the trace of all rays cast from `(x, y)`. -/
def fov (m : Map) (x y radius : Int) : Option (List Call) :=
  seqTraces ((fovRays x y radius).map fun r => los m r.x0 r.y0 r.x1 r.y1)

/-- Go `CalcVisibility` in exact arithmetic: `clearlight` then `fov`. -/
def CalcVisibility (m : Map) (px py radius : Int) : Option (List Call) :=
  (fov m px py radius).map fun t => clearlight m px py radius ++ t

/-- The per-tile flags kept by a grid behind the `Map` interface. -/
structure Grid where
  lit : Int → Int → Bool
  discovered : Int → Int → Bool

/-- A grid with no tile lit or discovered. -/
def Grid.dark : Grid := ⟨fun _ _ => false, fun _ _ => false⟩

/-- The effect of one call: `Lit` sets and `UnLit` clears the lit flag of its
tile, `Discover` sets the discovered flag; the other calls change no flag. -/
def Grid.step (g : Grid) : Call → Grid
  | .Lit x y => { g with lit := fun a b => if a = x ∧ b = y then true else g.lit a b }
  | .UnLit x y => { g with lit := fun a b => if a = x ∧ b = y then false else g.lit a b }
  | .Discover x y =>
    { g with discovered := fun a b => if a = x ∧ b = y then true else g.discovered a b }
  | _ => g

/-- The grid after a trace of calls. -/
def Grid.run (g : Grid) (t : List Call) : Grid := t.foldl Grid.step g

/-- The four mutators of the interface: every call but the two queries. -/
def Call.isMutator : Call → Bool
  | .OOB _ _ => false
  | .CantSeeThrough _ _ => false
  | _ => true

/-- The trace of `los` when its loop goes through the positions `w` (as far as
the guards allow) towards the target `(x1, y1)`. -/
def losAlong (m : Map) (x1 y1 : Int) : List (Int × Int) → List Call
  | [] => losFinish m x1 y1
  | p :: w =>
    if m.OOB p.1 p.2 then
      [Call.OOB p.1 p.2]
    else if m.CantSeeThrough p.1 p.2 then
      [Call.OOB p.1 p.2, Call.CantSeeThrough p.1 p.2, Call.Discover p.1 p.2]
    else
      Call.OOB p.1 p.2 :: Call.CantSeeThrough p.1 p.2 :: losAlong m x1 y1 w

/-- The trace of one invocation of `los`, along its walk. -/
def rayTrace (m : Map) (r : Ray) : List Call :=
  losAlong m r.x1 r.y1 ((walk r.x0 r.y0 r.x1 r.y1).getD [])

/-- The loop invariant of `los` at position `(x, y)`: the position lies between
observer and target in both coordinates and passes the distance test. -/
def OnRay (x0 y0 x1 y1 sx sy x y : Int) : Prop :=
  0 ≤ sx * (x - x0) ∧ 0 ≤ sx * (x1 - x) ∧ 0 ≤ sy * (y - y0) ∧ 0 ≤ sy * (y1 - y) ∧
  4 * (((y1 - y0) * (x - x0) - (x1 - x0) * (y - y0)) *
      ((y1 - y0) * (x - x0) - (x1 - x0) * (y - y0))) <
    (x1 - x0) * (x1 - x0) + (y1 - y0) * (y1 - y0)

/-- A map with no bound and no obstacle. -/
def openMap : Map := ⟨fun _ _ => false, fun _ _ => false⟩

/-- A map whose tiles with `x ≥ 2` are out of bounds, with no obstacle. -/
def edgeMap : Map := ⟨fun x _ => decide (2 ≤ x), fun _ _ => false⟩

/-- A corridor along `y = 0` with no bound and one obstacle, at `(3, 0)`. -/
def corridor : Map := ⟨fun _ _ => false, fun x y => decide (x = 3 ∧ y = 0)⟩

/-- A map whose every tile is out of bounds and blocks sight. -/
def wallMap : Map := ⟨fun _ _ => true, fun _ _ => true⟩

/-- The `OOB` queries: one opens every iteration of the loop of `los`, one more
follows the loop when the target is reached. -/
def Call.isOOB : Call → Bool
  | .OOB _ _ => true
  | _ => false

/-- A grid on which only `(7, 7)` is discovered and nothing is lit. -/
def seenGrid : Grid := ⟨fun _ _ => false, fun x y => decide (x = 7 ∧ y = 7)⟩

/-- A move of the origin by at most one tile in each coordinate. -/
def oneTileMove (o o' : Int × Int) : Prop := |o'.1 - o.1| ≤ 1 ∧ |o'.2 - o.2| ≤ 1

/-- The calls `CalcVisibility` at the given origins in turn, all with the same
radius, from grid `g`: for each call the grid after it and its trace. -/
def refreshLog (m : Map) (radius : Int) : Grid → List (Int × Int) →
    Option (List (Grid × List Call))
  | _, [] => some []
  | g, o :: os =>
    (CalcVisibility m o.1 o.2 radius).bind fun t =>
      (refreshLog m radius (g.run t) os).map fun log => (g.run t, t) :: log

namespace Go

/-- The greatest value of a Go `int`, taken 64 bits wide: `2^63 - 1`. -/
def maxInt : Int := 9223372036854775807

/-- The least value of a Go `int`, taken 64 bits wide: `-2^63`. -/
def minInt : Int := -9223372036854775808

/-- Two's complement wrap-around of an integer into the range of `int`. -/
def wrap (z : Int) : Int :=
  (z + 9223372036854775808) % 18446744073709551616 - 9223372036854775808

/-- Go `a + b` on `int`. -/
def add64 (a b : Int) : Int := wrap (a + b)

/-- Go `a - b` on `int`. -/
def sub64 (a b : Int) : Int := wrap (a - b)

/-- Go `a * b` on `int`. -/
def mul64 (a b : Int) : Int := wrap (a * b)

/-- Go `-a` on `int`. -/
def neg64 (a : Int) : Int := wrap (-a)

/-- The test `abs(c)/dist < 0.5` of `los` in `float64`, where `dist` is
`sqrt(n)` for the `int` values `c` and `n`.

* `n ≤ 0`: `dist` is `0` or `NaN`, the quotient is `+Inf` or `NaN` and the
  comparison is false.
* `0 < n ≤ c*c`: the quotient, rounded three times with relative error `2^-53`,
  is at least `1 - 2^-50`; false.
* `|c| ≤ 2^24` and `n ≤ 2^53`: `c` and `n` convert exactly.  If `n ≤ 4*c*c` then
  `sqrt(n) ≤ 2|c|`, a `float64`, so the rounded root is at most `2|c|` and the
  quotient at least `0.5`.  If `4*c*c < n` then `(2|c| + u)^2 ≤ 4*c*c + 1 ≤ n`
  for `u` the unit in the last place of `2|c|`, so the rounded root is at least
  `2|c| + u` and the quotient is below `0.5 - 2^-55`, which rounds below `0.5`.
  The test is `4*c*c < n` exactly.
* otherwise the value is that of the `float64` operations of the Go runtime,
  which are not part of the repository: the parameter `fl`. -/
def near (fl : Int → Int → Bool) (c n : Int) : Bool :=
  if n ≤ 0 then false
  else if n ≤ c * c then false
  else if c.natAbs ≤ 16777216 ∧ n ≤ 9007199254740992 then decide (4 * (c * c) < n)
  else fl c n

/-- The body of the walk of `los` after the two guards, in `int` arithmetic:
the next position. -/
def losStep (fl : Int → Int → Bool) (x0 y0 dx dy sx sy xnext ynext : Int) : Int × Int :=
  if near fl (sub64 (mul64 dy (add64 (sub64 xnext x0) sx)) (mul64 dx (sub64 ynext y0)))
      (add64 (mul64 dx dx) (mul64 dy dy)) then
    (add64 xnext sx, ynext)
  else if near fl (sub64 (mul64 dy (sub64 xnext x0)) (mul64 dx (add64 (sub64 ynext y0) sy)))
      (add64 (mul64 dx dx) (mul64 dy dy)) then
    (xnext, add64 ynext sy)
  else
    (add64 xnext sx, add64 ynext sy)

/-- The loop of `los` from position `(xnext, ynext)`, then the statements after
it, in `int` arithmetic.  `none` when `fuel` iterations do not end the loop. -/
def losLoop (fl : Int → Int → Bool) (m : Map) (x0 y0 x1 y1 dx dy sx sy : Int) :
    Nat → Int → Int → Option (List Call)
  | 0, xnext, ynext =>
    if xnext ≠ x1 ∨ ynext ≠ y1 then none else some (losFinish m x1 y1)
  | fuel + 1, xnext, ynext =>
    if xnext ≠ x1 ∨ ynext ≠ y1 then
      if m.OOB xnext ynext then
        some [Call.OOB xnext ynext]
      else if m.CantSeeThrough xnext ynext then
        some [Call.OOB xnext ynext, Call.CantSeeThrough xnext ynext, Call.Discover xnext ynext]
      else
        let p := losStep fl x0 y0 dx dy sx sy xnext ynext
        (losLoop fl m x0 y0 x1 y1 dx dy sx sy fuel p.1 p.2).map fun t =>
          Call.OOB xnext ynext :: Call.CantSeeThrough xnext ynext :: t
    else some (losFinish m x1 y1)

/-- Go `los` in `int` arithmetic: the trace of the ray from `(x0, y0)` to
`(x1, y1)` when its loop ends within `fuel` iterations, `none` otherwise.  The
call returns with trace `t` exactly when some fuel gives `some t`. -/
def los (fl : Int → Int → Bool) (fuel : Nat) (m : Map) (x0 y0 x1 y1 : Int) :
    Option (List Call) :=
  let dx := sub64 x1 x0
  let dy := sub64 y1 y0
  let sx : Int := if x0 < x1 then 1 else -1
  let sy : Int := if y0 < y1 then 1 else -1
  losLoop fl m x0 y0 x1 y1 dx dy sx sy fuel x0 y0

/-- The positions the loop of `los` goes through before `(x1, y1)` when no guard
stops it, in `int` arithmetic. -/
def walkLoop (fl : Int → Int → Bool) (x0 y0 x1 y1 dx dy sx sy : Int) :
    Nat → Int → Int → Option (List (Int × Int))
  | 0, xnext, ynext => if xnext ≠ x1 ∨ ynext ≠ y1 then none else some []
  | fuel + 1, xnext, ynext =>
    if xnext ≠ x1 ∨ ynext ≠ y1 then
      let p := losStep fl x0 y0 dx dy sx sy xnext ynext
      (walkLoop fl x0 y0 x1 y1 dx dy sx sy fuel p.1 p.2).map fun w => (xnext, ynext) :: w
    else some []

/-- The walk of `los` in `int` arithmetic: the tiles from the observer on, the
target excluded, that the loop tests when no guard stops it; `none` when the
target is not reached within `fuel` iterations. -/
def walk (fl : Int → Int → Bool) (fuel : Nat) (x0 y0 x1 y1 : Int) :
    Option (List (Int × Int)) :=
  let dx := sub64 x1 x0
  let dy := sub64 y1 y0
  let sx : Int := if x0 < x1 then 1 else -1
  let sy : Int := if y0 < y1 then 1 else -1
  walkLoop fl x0 y0 x1 y1 dx dy sx sy fuel x0 y0

/-- Go `clearlight` in `int` arithmetic.  The loop variables never wrap: each
stays below its bound. -/
def clearlight (_m : Map) (px py light : Int) : List Call :=
  (intRange (sub64 (sub64 px light) 1) (add64 (add64 px light) 1)).flatMap fun x =>
    (intRange (sub64 (sub64 py light) 1) (add64 (add64 py light) 1)).map fun y =>
      Call.UnLit x y

/-- The invocations of `los` made by the two nested loops of `fov`, in order, in
`int` arithmetic.  `none` for `radius = maxInt`: the test `j <= radius` never
fails and the inner loop never ends.  For every other radius the loop variables
run from `-radius` up to `radius` without wrapping. -/
def fovRays (x y radius : Int) : Option (List Ray) :=
  if radius = maxInt then none
  else
    some ((intRange (neg64 radius) (radius + 1)).flatMap fun i =>
      (intRange (neg64 radius) (radius + 1)).flatMap fun j =>
        if add64 (mul64 i i) (mul64 j j) < mul64 radius radius then
          [Ray.mk x y (add64 x i) (add64 y j)]
        else [])

/-- Go `fov` in `int` arithmetic, every ray with the same fuel. -/
def fov (fl : Int → Int → Bool) (fuel : Nat) (m : Map) (x y radius : Int) :
    Option (List Call) :=
  (fovRays x y radius).bind fun rays =>
    seqTraces (rays.map fun r => los fl fuel m r.x0 r.y0 r.x1 r.y1)

/-- Go `CalcVisibility` in `int` arithmetic: `clearlight` then `fov`.  The call
returns with trace `t` exactly when some fuel gives `some t`. -/
def CalcVisibility (fl : Int → Int → Bool) (fuel : Nat) (m : Map) (px py radius : Int) :
    Option (List Call) :=
  (fov fl fuel m px py radius).map fun t => clearlight m px py radius ++ t

/-- An observer within `2^62` of the axes and a target within `2^23` of the
observer in each coordinate: no `int` operation of `los` wraps and its
`float64` test is exact. -/
@[reducible]
def RayInRange (x0 y0 x1 y1 : Int) : Prop :=
  -4611686018427387904 ≤ x0 ∧ x0 ≤ 4611686018427387904 ∧
  -4611686018427387904 ≤ y0 ∧ y0 ≤ 4611686018427387904 ∧
  -8388608 ≤ x1 - x0 ∧ x1 - x0 ≤ 8388608 ∧ -8388608 ≤ y1 - y0 ∧ y1 - y0 ≤ 8388608

/-- An origin within `2^62` of the axes and a radius from `0` to `2^23`: no
`int` operation of `CalcVisibility` wraps and the `float64` test is exact. -/
@[reducible]
def InRange (px py r : Int) : Prop :=
  -4611686018427387904 ≤ px ∧ px ≤ 4611686018427387904 ∧
  -4611686018427387904 ≤ py ∧ py ≤ 4611686018427387904 ∧ 0 ≤ r ∧ r ≤ 8388608

end Go

/-- A map with no obstacle whose one out-of-bounds tile is `(1, -1)`. -/
def holeMap : Map := ⟨fun x y => decide (x = 1 ∧ y = -1), fun _ _ => false⟩

/-- A map with no bound whose one obstacle is `(1, -1)`. -/
def pillarMap : Map := ⟨fun _ _ => false, fun x y => decide (x = 1 ∧ y = -1)⟩

/-- A map with no obstacle whose tiles with `x ≤ 2^63 - 3` are out of bounds. -/
def leftEdge : Map := ⟨fun x _ => decide (x ≤ 9223372036854775805), fun _ _ => false⟩

/-- A map with no bound on which every tile blocks sight. -/
def blockAll : Map := ⟨fun _ _ => false, fun _ _ => true⟩

namespace Go

/-- The calls `CalcVisibility` at the given origins in turn, in `int`
arithmetic, all with the same radius and fuel, from grid `g`: for each call the
grid after it and its trace. -/
def refreshLog (fl : Int → Int → Bool) (fuel : Nat) (m : Map) (radius : Int) :
    Grid → List (Int × Int) → Option (List (Grid × List Call))
  | _, [] => some []
  | g, o :: os =>
    (CalcVisibility fl fuel m o.1 o.2 radius).bind fun t =>
      (refreshLog fl fuel m radius (g.run t) os).map fun log => (g.run t, t) :: log

end Go

/-! ## The distance test -/

/-- The exact reading of the distance test: for a ray of positive length the
integer test of `near` is the comparison `|c| / sqrt n < 0.5` over the reals. -/
theorem near_iff_real (c n : Int) (hn : 0 < n) :
    near c n = true ↔ |(c : ℝ)| / Real.sqrt (n : ℝ) < 0.5 := by
  have hn' : (0 : ℝ) < (n : ℝ) := by exact_mod_cast hn
  have hs : 0 < Real.sqrt (n : ℝ) := Real.sqrt_pos.mpr hn'
  unfold near
  rw [decide_eq_true_eq, div_lt_iff₀ hs]
  have h2 : (0 : ℝ) ≤ 2 * |(c : ℝ)| := by positivity
  have key : 2 * |(c : ℝ)| < Real.sqrt (n : ℝ) ↔ (2 * |(c : ℝ)|) ^ 2 < (n : ℝ) :=
    Real.lt_sqrt h2
  have e : (2 * |(c : ℝ)|) ^ 2 = ((4 * (c * c) : Int) : ℝ) := by
    push_cast
    rw [mul_pow, sq_abs]
    ring
  rw [e] at key
  constructor
  · intro h
    have : ((4 * (c * c) : Int) : ℝ) < (n : ℝ) := by exact_mod_cast h
    have := key.mpr this
    linarith
  · intro h
    have : 2 * |(c : ℝ)| < Real.sqrt (n : ℝ) := by linarith
    exact_mod_cast key.mp this

/-! ## Arithmetic of one step of the walk -/

theorem four_le_sq_add (X Y n : Int) (hX : 0 ≤ X) (hY : 0 ≤ Y) (hn : 0 ≤ n)
    (h1 : n ≤ X * X) (h2 : n ≤ Y * Y) : 4 * n ≤ (X + Y) * (X + Y) := by
  have hXY : n ≤ X * Y := by
    by_contra hcon
    have hlt : X * Y < n := not_le.mp hcon
    have h3 : n * n ≤ (X * X) * (Y * Y) := mul_le_mul h1 h2 hn (le_trans hn h1)
    have h4 : (X * Y) * (X * Y) < n * n :=
      mul_self_lt_mul_self (mul_nonneg hX hY) hlt
    nlinarith
  nlinarith

/-- Both straight steps fail their test and the current deviation passes it:
the diagonal step passes it too. -/
theorem diagonal_dev (a b D : Int) (ha : 0 < a) (hb : 0 < b)
    (hD : 4 * (D * D) < a * a + b * b)
    (hx : a * a + b * b ≤ 4 * ((D + b) * (D + b)))
    (hy : a * a + b * b ≤ 4 * ((D - a) * (D - a))) :
    4 * ((D + b - a) * (D + b - a)) < a * a + b * b := by
  have hn : 0 ≤ a * a + b * b := by nlinarith
  have hP : 0 ≤ D + b := by
    by_contra hcon
    have hneg : D + b < 0 := not_le.mp hcon
    have h2 : (-(D + b)) * (-(D + b)) ≤ (-D) * (-D) :=
      mul_self_le_mul_self (by linarith) (by linarith)
    linarith
  have hQ : 0 ≤ a - D := by
    by_contra hcon
    have hneg : a - D < 0 := not_le.mp hcon
    have h2 : (-(a - D)) * (-(a - D)) ≤ D * D :=
      mul_self_le_mul_self (by linarith) (by linarith)
    linarith
  by_contra hcon
  have hd := not_lt.mp hcon
  rcases le_total 0 (D + b - a) with hs | hs
  · have h4 := four_le_sq_add (2 * (D + b - a)) (2 * (a - D)) (a * a + b * b)
      (by linarith) (by linarith) hn (by linarith) (by linarith)
    have h5 : (2 * (D + b - a) + 2 * (a - D)) * (2 * (D + b - a) + 2 * (a - D)) = 4 * (b * b) := by
      ring
    rw [h5] at h4
    nlinarith
  · have h4 := four_le_sq_add (2 * (-(D + b - a))) (2 * (D + b)) (a * a + b * b)
      (by linarith) (by linarith) hn (by linarith) (by linarith)
    have h5 : (2 * (-(D + b - a)) + 2 * (D + b)) * (2 * (-(D + b - a)) + 2 * (D + b))
        = 4 * (a * a) := by ring
    rw [h5] at h4
    nlinarith

/-- On the far edge `u = a` of the quadrant the step in `x` fails its test. -/
theorem edge_x (a b v : Int) (ha : 0 ≤ a) (hv : v < b) (hb : 0 ≤ b) :
    a * a + b * b ≤ 4 * ((b * a - a * v + b) * (b * a - a * v + b)) := by
  have hk : 0 ≤ a * (b - v - 1) := mul_nonneg ha (by linarith)
  have h1 : (a + b) * (a + b) ≤ (b * a - a * v + b) * (b * a - a * v + b) :=
    mul_self_le_mul_self (by linarith) (by linarith)
  nlinarith [mul_nonneg ha hb]

/-- On the far edge `u = a` the step in `y` brings the walk nearer the line. -/
theorem edge_x_y (a b v : Int) (ha : 0 ≤ a) (hv : v < b) :
    (b * a - a * v - a) * (b * a - a * v - a) ≤ (b * a - a * v) * (b * a - a * v) := by
  have hk : 0 ≤ a * (b - v - 1) := mul_nonneg ha (by linarith)
  exact mul_self_le_mul_self (by linarith) (by linarith)

/-- On the far edge `v = b` of the quadrant the step in `y` fails its test. -/
theorem edge_y (a b u : Int) (hb : 0 ≤ b) (hu : u < a) (ha : 0 ≤ a) :
    a * a + b * b ≤ 4 * ((b * u - a * b - a) * (b * u - a * b - a)) := by
  have hk : 0 ≤ b * (a - u - 1) := mul_nonneg hb (by linarith)
  have h1 : (a + b) * (a + b) ≤ (-(b * u - a * b - a)) * (-(b * u - a * b - a)) :=
    mul_self_le_mul_self (by linarith) (by linarith)
  nlinarith [mul_nonneg ha hb]

/-- On the far edge `v = b` the step in `x` brings the walk nearer the line. -/
theorem edge_y_x (a b u : Int) (hb : 0 ≤ b) (hu : u < a) :
    (b * u - a * b + b) * (b * u - a * b + b) ≤ (b * u - a * b) * (b * u - a * b) := by
  have hk : 0 ≤ b * (a - u - 1) := mul_nonneg hb (by linarith)
  have h1 : (-(b * u - a * b + b)) * (-(b * u - a * b + b))
      ≤ (-(b * u - a * b)) * (-(b * u - a * b)) :=
    mul_self_le_mul_self (by linarith) (by linarith)
  linarith

/-- In the quadrant of the ray: the arithmetic at the heart of one step. -/
theorem quadrant_step (a b u v : Int) (ha : 0 ≤ a) (hb : 0 ≤ b) (hu : 0 ≤ u) (hua : u ≤ a)
    (hv : 0 ≤ v) (hvb : v ≤ b) (hne : u ≠ a ∨ v ≠ b)
    (hD : 4 * ((b * u - a * v) * (b * u - a * v)) < a * a + b * b) :
    (4 * ((b * u - a * v + b) * (b * u - a * v + b)) < a * a + b * b → u < a) ∧
    (4 * ((b * u - a * v - a) * (b * u - a * v - a)) < a * a + b * b → v < b) ∧
    (¬ 4 * ((b * u - a * v + b) * (b * u - a * v + b)) < a * a + b * b →
      ¬ 4 * ((b * u - a * v - a) * (b * u - a * v - a)) < a * a + b * b →
      u < a ∧ v < b ∧
        4 * ((b * u - a * v + b - a) * (b * u - a * v + b - a)) < a * a + b * b) := by
  have hedge_u : u = a → v < b := fun h =>
    lt_of_le_of_ne hvb (by rcases hne with h' | h'; exact absurd h h'; exact h')
  have hedge_v : v = b → u < a := fun h =>
    lt_of_le_of_ne hua (by rcases hne with h' | h'; exact h'; exact absurd h h')
  refine ⟨?_, ?_, ?_⟩
  · intro hx
    by_contra hcon
    have hua' : u = a := le_antisymm hua (not_lt.mp hcon)
    have := edge_x a b v ha (hedge_u hua') hb
    rw [hua'] at hx
    linarith
  · intro hy
    by_contra hcon
    have hvb' : v = b := le_antisymm hvb (not_lt.mp hcon)
    have := edge_y a b u hb (hedge_v hvb') ha
    rw [hvb'] at hy
    linarith
  · intro hx hy
    have hx' := not_lt.mp hx
    have hy' := not_lt.mp hy
    have hu' : u < a := by
      by_contra hcon
      have hua' : u = a := le_antisymm hua (not_lt.mp hcon)
      have := edge_x_y a b v ha (hedge_u hua')
      rw [hua'] at hy' hD
      linarith
    have hv' : v < b := by
      by_contra hcon
      have hvb' : v = b := le_antisymm hvb (not_lt.mp hcon)
      have := edge_y_x a b u hb (hedge_v hvb')
      rw [hvb'] at hx' hD
      linarith
    exact ⟨hu', hv', diagonal_dev a b _ (by linarith) (by linarith) hD hx' hy'⟩

/-! ## The loop invariant and termination of the walk -/

theorem losStep_onRay (x0 y0 x1 y1 sx sy x y : Int) (hsx : sx = 1 ∨ sx = -1)
    (hsy : sy = 1 ∨ sy = -1) (hne : x ≠ x1 ∨ y ≠ y1)
    (hI : OnRay x0 y0 x1 y1 sx sy x y) :
    OnRay x0 y0 x1 y1 sx sy (losStep x0 y0 (x1 - x0) (y1 - y0) sx sy x y).1
        (losStep x0 y0 (x1 - x0) (y1 - y0) sx sy x y).2 ∧
      sx * (x1 - (losStep x0 y0 (x1 - x0) (y1 - y0) sx sy x y).1) +
        sy * (y1 - (losStep x0 y0 (x1 - x0) (y1 - y0) sx sy x y).2) <
      sx * (x1 - x) + sy * (y1 - y) := by
  obtain ⟨h1, h2, h3, h4, h5⟩ := hI
  have Q := quadrant_step (sx * (x1 - x0)) (sy * (y1 - y0)) (sx * (x - x0)) (sy * (y - y0))
  have hne' : sx * (x - x0) ≠ sx * (x1 - x0) ∨ sy * (y - y0) ≠ sy * (y1 - y0) := by
    rcases hsx with rfl | rfl <;> rcases hsy with rfl | rfl <;> rcases hne with h | h <;>
      first
        | (left; intro e; apply h; linarith)
        | (right; intro e; apply h; linarith)
  unfold OnRay losStep
  split_ifs with hx hy <;> dsimp only
  · simp only [near, decide_eq_true_eq] at hx
    rcases hsx with rfl | rfl <;> rcases hsy with rfl | rfl <;>
      (obtain ⟨Qx, _, _⟩ := Q (by linarith) (by linarith) h1 (by linarith) h3 (by linarith) hne'
        (by linarith)
       have := Qx (by linarith)
       refine ⟨⟨?_, ?_, ?_, ?_, ?_⟩, ?_⟩ <;> linarith)
  · simp only [near, decide_eq_true_eq] at hx hy
    rcases hsx with rfl | rfl <;> rcases hsy with rfl | rfl <;>
      (obtain ⟨_, Qy, _⟩ := Q (by linarith) (by linarith) h1 (by linarith) h3 (by linarith) hne'
        (by linarith)
       have := Qy (by linarith)
       refine ⟨⟨?_, ?_, ?_, ?_, ?_⟩, ?_⟩ <;> linarith)
  · simp only [near, decide_eq_true_eq] at hx hy
    rcases hsx with rfl | rfl <;> rcases hsy with rfl | rfl <;>
      (obtain ⟨_, _, Qd⟩ := Q (by linarith) (by linarith) h1 (by linarith) h3 (by linarith) hne'
        (by linarith)
       obtain ⟨_, _, _⟩ := Qd (by intro hc; apply hx; linarith) (by intro hc; apply hy; linarith)
       refine ⟨⟨?_, ?_, ?_, ?_, ?_⟩, ?_⟩ <;> linarith)

/-- With fuel for the remaining distance the walk ends; its positions are
short of the target, satisfy the loop invariant, are no further from the target
than the start, and are pairwise different. -/
theorem walkLoop_spec (x0 y0 x1 y1 sx sy : Int) (hsx : sx = 1 ∨ sx = -1)
    (hsy : sy = 1 ∨ sy = -1) :
    ∀ (fuel : Nat) (x y : Int),
      ((x ≠ x1 ∨ y ≠ y1) → OnRay x0 y0 x1 y1 sx sy x y) →
      sx * (x1 - x) + sy * (y1 - y) ≤ (fuel : Int) →
      ∃ w, walkLoop x0 y0 x1 y1 (x1 - x0) (y1 - y0) sx sy fuel x y = some w ∧
        (∀ p ∈ w, (p.1 ≠ x1 ∨ p.2 ≠ y1) ∧ OnRay x0 y0 x1 y1 sx sy p.1 p.2 ∧
          sx * (x1 - p.1) + sy * (y1 - p.2) ≤ sx * (x1 - x) + sy * (y1 - y)) ∧
        w.Nodup := by
  intro fuel
  induction fuel with
  | zero =>
    intro x y hI hf
    by_cases hne : x ≠ x1 ∨ y ≠ y1
    · exfalso
      obtain ⟨_, h2, _, h4, _⟩ := hI hne
      have hx : x = x1 := by
        rcases hsx with rfl | rfl <;> rcases hsy with rfl | rfl <;>
          simp only [Nat.cast_zero] at hf <;> linarith
      have hy : y = y1 := by
        rcases hsx with rfl | rfl <;> rcases hsy with rfl | rfl <;>
          simp only [Nat.cast_zero] at hf <;> linarith
      rcases hne with h | h
      · exact h hx
      · exact h hy
    · exact ⟨[], by simp only [walkLoop, if_neg hne], fun p hp => (by cases hp),
        List.nodup_nil⟩
  | succ n ih =>
    intro x y hI hf
    by_cases hne : x ≠ x1 ∨ y ≠ y1
    · obtain ⟨hI', hlt⟩ := losStep_onRay x0 y0 x1 y1 sx sy x y hsx hsy hne (hI hne)
      obtain ⟨w, hw, hall, hnd⟩ := ih _ _ (fun _ => hI') (by push_cast at hf; linarith)
      refine ⟨(x, y) :: w, ?_, ?_, ?_⟩
      · simp only [walkLoop, if_pos hne, hw, Option.map_some']
      · intro p hp
        rcases List.mem_cons.mp hp with rfl | hp
        · exact ⟨hne, hI hne, le_refl _⟩
        · obtain ⟨h1, h2, h3⟩ := hall p hp
          exact ⟨h1, h2, by linarith⟩
      · refine List.nodup_cons.mpr ⟨?_, hnd⟩
        intro hmem
        have := (hall (x, y) hmem).2.2
        simp only at this
        linarith
    · exact ⟨[], by simp only [walkLoop, if_neg hne], fun p hp => (by cases hp),
        List.nodup_nil⟩

theorem sign_cases (p q : Int) : (if p < q then (1 : Int) else -1) = 1 ∨
    (if p < q then (1 : Int) else -1) = -1 := by
  split_ifs
  · exact Or.inl rfl
  · exact Or.inr rfl

theorem sign_mul_sub (p q : Int) :
    (if p < q then (1 : Int) else -1) * (q - p) = ((q - p).natAbs : Int) := by
  split_ifs with h
  · rw [one_mul, Int.natAbs_of_nonneg (by linarith)]
  · rw [Int.ofNat_natAbs_of_nonpos (by linarith)]; ring

/-- The walk of `los` ends for every observer and target; its positions are
short of the target, satisfy the loop invariant and are pairwise different. -/
theorem walk_spec (x0 y0 x1 y1 : Int) :
    ∃ w, walk x0 y0 x1 y1 = some w ∧
      (∀ p ∈ w, (p.1 ≠ x1 ∨ p.2 ≠ y1) ∧
        OnRay x0 y0 x1 y1 (if x0 < x1 then 1 else -1) (if y0 < y1 then 1 else -1) p.1 p.2) ∧
      w.Nodup := by
  have key : ∃ w, walk x0 y0 x1 y1 = some w ∧
      (∀ p ∈ w, (p.1 ≠ x1 ∨ p.2 ≠ y1) ∧
        OnRay x0 y0 x1 y1 (if x0 < x1 then 1 else -1) (if y0 < y1 then 1 else -1) p.1 p.2 ∧
        (if x0 < x1 then (1 : Int) else -1) * (x1 - p.1) +
            (if y0 < y1 then (1 : Int) else -1) * (y1 - p.2) ≤
          (if x0 < x1 then (1 : Int) else -1) * (x1 - x0) +
            (if y0 < y1 then (1 : Int) else -1) * (y1 - y0)) ∧
      w.Nodup := by
    unfold walk
    apply walkLoop_spec x0 y0 x1 y1 _ _ (sign_cases x0 x1) (sign_cases y0 y1)
    · intro hne
      have hx := sign_mul_sub x0 x1
      have hy := sign_mul_sub y0 y1
      refine ⟨by simp, ?_, by simp, ?_, ?_⟩
      · rw [hx]; exact Int.ofNat_nonneg _
      · rw [hy]; exact Int.ofNat_nonneg _
      · have e : (y1 - y0) * (x0 - x0) - (x1 - x0) * (y0 - y0) = 0 := by ring
        rw [e]
        rcases hne with h | h
        · have : x1 - x0 ≠ 0 := fun e => h (by linarith)
          nlinarith [mul_self_pos.mpr this, mul_self_nonneg (y1 - y0)]
        · have : y1 - y0 ≠ 0 := fun e => h (by linarith)
          nlinarith [mul_self_pos.mpr this, mul_self_nonneg (x1 - x0)]
    · rw [sign_mul_sub, sign_mul_sub]; push_cast; exact le_refl _
  obtain ⟨w, hw, hall, hnd⟩ := key
  exact ⟨w, hw, fun p hp => ⟨(hall p hp).1, (hall p hp).2.1⟩, hnd⟩

/-- The walk of `los` ends for every observer and target. -/
theorem walk_isSome (x0 y0 x1 y1 : Int) : ∃ w, walk x0 y0 x1 y1 = some w :=
  (walk_spec x0 y0 x1 y1).imp fun _ h => h.1

theorem losLoop_of_walkLoop (m : Map) (x0 y0 x1 y1 dx dy sx sy : Int) :
    ∀ (fuel : Nat) (x y : Int) (w : List (Int × Int)),
      walkLoop x0 y0 x1 y1 dx dy sx sy fuel x y = some w →
      losLoop m x0 y0 x1 y1 dx dy sx sy fuel x y = some (losAlong m x1 y1 w) := by
  intro fuel
  induction fuel with
  | zero =>
    intro x y w hw
    by_cases hne : x ≠ x1 ∨ y ≠ y1
    · simp [walkLoop, hne] at hw
    · simp only [walkLoop, if_neg hne, Option.some.injEq] at hw
      subst hw
      simp only [losLoop, if_neg hne, losAlong]
  | succ n ih =>
    intro x y w hw
    by_cases hne : x ≠ x1 ∨ y ≠ y1
    · simp only [walkLoop, if_pos hne, Option.map_eq_some'] at hw
      obtain ⟨w', hw', rfl⟩ := hw
      have := ih _ _ _ hw'
      simp only [losLoop, if_pos hne, this, Option.map_some', losAlong]
      split_ifs <;> rfl
    · simp only [walkLoop, if_neg hne, Option.some.injEq] at hw
      subst hw
      simp only [losLoop, if_neg hne, losAlong]

/-- The ray caster returns for every map, observer and target, with the trace
along its walk. -/
theorem los_eq_rayTrace (m : Map) (x0 y0 x1 y1 : Int) :
    los m x0 y0 x1 y1 = some (rayTrace m ⟨x0, y0, x1, y1⟩) := by
  obtain ⟨w, hw⟩ := walk_isSome x0 y0 x1 y1
  unfold rayTrace
  simp only [hw, Option.getD_some]
  unfold walk at hw
  exact losLoop_of_walkLoop m _ _ _ _ _ _ _ _ _ _ _ _ hw

theorem seqTraces_map (f : Ray → Option (List Call)) (g : Ray → List Call) :
    ∀ l : List Ray, (∀ r ∈ l, f r = some (g r)) →
      seqTraces (l.map f) = some (l.flatMap g) := by
  intro l
  induction l with
  | nil => intro _; rfl
  | cons a l ih =>
    intro h
    have h1 := h a (List.mem_cons_self _ _)
    have h2 := ih fun r hr => h r (List.mem_cons_of_mem _ hr)
    simp only [List.map_cons, seqTraces, h1, h2, List.flatMap_cons, Option.some_bind,
      Option.map_some']

/-- The enumerator returns for every map, origin and radius: the trace of `fov`
is the traces of its rays one after the other. -/
theorem fov_eq (m : Map) (x y radius : Int) :
    fov m x y radius = some ((fovRays x y radius).flatMap (rayTrace m)) := by
  unfold fov
  exact seqTraces_map _ _ _ fun r _ => los_eq_rayTrace m r.x0 r.y0 r.x1 r.y1

theorem CalcVisibility_eq (m : Map) (px py radius : Int) :
    CalcVisibility m px py radius =
      some (clearlight m px py radius ++ (fovRays px py radius).flatMap (rayTrace m)) := by
  unfold CalcVisibility
  rw [fov_eq]
  rfl

/-! ## The loops of `clearlight` and `fov` -/

theorem mem_intRange (lo hi x : Int) : x ∈ intRange lo hi ↔ lo ≤ x ∧ x < hi := by
  unfold intRange
  simp only [List.mem_map, List.mem_range]
  constructor
  · rintro ⟨k, hk, rfl⟩
    omega
  · rintro ⟨h1, h2⟩
    exact ⟨(x - lo).toNat, by omega, by omega⟩

theorem nodup_intRange (lo hi : Int) : (intRange lo hi).Nodup := by
  unfold intRange
  refine List.Nodup.map ?_ (List.nodup_range _)
  intro a b h
  simp only at h
  omega

theorem mem_clearlight (m : Map) (px py light : Int) (c : Call) :
    c ∈ clearlight m px py light ↔
      ∃ x y, c = Call.UnLit x y ∧ px - light - 1 ≤ x ∧ x ≤ px + light ∧
        py - light - 1 ≤ y ∧ y ≤ py + light := by
  unfold clearlight
  simp only [List.mem_flatMap, List.mem_map, mem_intRange]
  constructor
  · rintro ⟨x, ⟨hx1, hx2⟩, y, ⟨hy1, hy2⟩, rfl⟩
    exact ⟨x, y, rfl, hx1, by omega, hy1, by omega⟩
  · rintro ⟨x, y, rfl, hx1, hx2, hy1, hy2⟩
    exact ⟨x, ⟨hx1, by omega⟩, y, ⟨hy1, by omega⟩, rfl⟩

theorem nodup_clearlight (m : Map) (px py light : Int) : (clearlight m px py light).Nodup := by
  unfold clearlight
  rw [List.nodup_flatMap]
  constructor
  · intro x _
    refine List.Nodup.map ?_ (nodup_intRange _ _)
    intro a b h
    simpa using h
  · refine (nodup_intRange _ _).pairwise_of_forall_ne ?_
    intro a _ b _ hab
    simp only [Function.onFun, List.Disjoint, List.mem_map]
    rintro c ⟨y, _, rfl⟩ ⟨y', _, h⟩
    apply hab
    simp only [Call.UnLit.injEq] at h
    exact h.1.symm

theorem mem_fovRays (x y radius : Int) (r : Ray) :
    r ∈ fovRays x y radius ↔
      r.x0 = x ∧ r.y0 = y ∧ -radius ≤ r.x1 - x ∧ r.x1 - x ≤ radius ∧
        -radius ≤ r.y1 - y ∧ r.y1 - y ≤ radius ∧
        (r.x1 - x) * (r.x1 - x) + (r.y1 - y) * (r.y1 - y) < radius * radius := by
  unfold fovRays
  simp only [List.mem_flatMap, mem_intRange]
  constructor
  · rintro ⟨i, ⟨hi1, hi2⟩, j, ⟨hj1, hj2⟩, h⟩
    split_ifs at h with hc
    · simp only [List.mem_singleton] at h
      subst h
      simp only [add_sub_cancel_left]
      exact ⟨trivial, trivial, hi1, by omega, hj1, by omega, hc⟩
    · cases h
  · rintro ⟨rfl, rfl, hi1, hi2, hj1, hj2, hc⟩
    refine ⟨r.x1 - r.x0, ⟨hi1, by omega⟩, r.y1 - r.y0, ⟨hj1, by omega⟩, ?_⟩
    rw [if_pos hc]
    simp only [List.mem_singleton]
    cases r
    simp

theorem nodup_fovRays (x y radius : Int) : (fovRays x y radius).Nodup := by
  unfold fovRays
  rw [List.nodup_flatMap]
  constructor
  · intro i _
    rw [List.nodup_flatMap]
    constructor
    · intro j _
      split_ifs
      · exact List.nodup_singleton _
      · exact List.nodup_nil
    · refine (nodup_intRange _ _).pairwise_of_forall_ne ?_
      intro a _ b _ hab
      simp only [Function.onFun, List.Disjoint]
      intro r h1 h2
      split_ifs at h1 h2 <;> simp only [List.mem_singleton, List.not_mem_nil] at h1 h2
      apply hab
      rw [h1] at h2
      simp only [Ray.mk.injEq, true_and] at h2
      omega
  · refine (nodup_intRange _ _).pairwise_of_forall_ne ?_
    intro a _ b _ hab
    simp only [Function.onFun, List.Disjoint, List.mem_flatMap]
    rintro r ⟨j, _, h1⟩ ⟨j', _, h2⟩
    split_ifs at h1 h2 <;> simp only [List.mem_singleton, List.not_mem_nil] at h1 h2
    apply hab
    rw [h1] at h2
    simp only [Ray.mk.injEq, true_and] at h2
    omega

/-! ## The trace of one ray -/

/-- The two queries made on a tile the walk passes. -/
theorem losAlong_clear (m : Map) (x1 y1 : Int) (pre rest : List (Int × Int))
    (hpre : ∀ p ∈ pre, m.OOB p.1 p.2 = false ∧ m.CantSeeThrough p.1 p.2 = false) :
    losAlong m x1 y1 (pre ++ rest) =
      (pre.flatMap fun p => [Call.OOB p.1 p.2, Call.CantSeeThrough p.1 p.2]) ++
        losAlong m x1 y1 rest := by
  induction pre with
  | nil => rfl
  | cons a pre ih =>
    have ha := hpre a (List.mem_cons_self _ _)
    have := ih fun p hp => hpre p (List.mem_cons_of_mem _ hp)
    simp [losAlong, ha.1, ha.2, this]

theorem filter_queries (pre : List (Int × Int)) :
    (pre.flatMap fun p => [Call.OOB p.1 p.2, Call.CantSeeThrough p.1 p.2]).filter
      Call.isMutator = [] := by
  rw [List.filter_eq_nil_iff]
  intro c hc
  simp only [List.mem_flatMap, List.mem_cons, List.mem_singleton] at hc
  obtain ⟨p, _, rfl | rfl | h⟩ := hc
  · simp [Call.isMutator]
  · simp [Call.isMutator]
  · cases h

theorem mem_losFinish (m : Map) (x1 y1 : Int) (c : Call) :
    c ∈ losFinish m x1 y1 ↔
      c = Call.Lit x1 y1 ∨ c = Call.Discover x1 y1 ∨ c = Call.OOB x1 y1 ∨
        (c = Call.Activate x1 y1 ∧ m.OOB x1 y1 = false) := by
  unfold losFinish
  cases h : m.OOB x1 y1 <;> simp

/-- Every call of a ray is either one of the closing calls on the target, made
when no tile of the walk stopped the ray, or a query or `Discover` on a tile of
the walk. -/
theorem mem_losAlong (m : Map) (x1 y1 : Int) (w : List (Int × Int)) (c : Call)
    (hc : c ∈ losAlong m x1 y1 w) :
    (c ∈ losFinish m x1 y1 ∧
        ∀ p ∈ w, m.OOB p.1 p.2 = false ∧ m.CantSeeThrough p.1 p.2 = false) ∨
      ∃ p ∈ w, c = Call.OOB p.1 p.2 ∨ (c = Call.CantSeeThrough p.1 p.2 ∧ m.OOB p.1 p.2 = false) ∨
        (c = Call.Discover p.1 p.2 ∧ m.OOB p.1 p.2 = false ∧
          m.CantSeeThrough p.1 p.2 = true) := by
  induction w with
  | nil =>
    left
    exact ⟨hc, by intro p hp; cases hp⟩
  | cons a w ih =>
    unfold losAlong at hc
    cases ho : m.OOB a.1 a.2
    · cases hb : m.CantSeeThrough a.1 a.2
      · simp only [ho, hb, Bool.false_eq_true, if_false, List.mem_cons] at hc
        rcases hc with rfl | rfl | hc
        · exact Or.inr ⟨a, List.mem_cons_self _ _, Or.inl rfl⟩
        · exact Or.inr ⟨a, List.mem_cons_self _ _, Or.inr (Or.inl ⟨rfl, ho⟩)⟩
        · rcases ih hc with ⟨h1, h2⟩ | ⟨p, hp, h⟩
          · left
            refine ⟨h1, ?_⟩
            intro p hp
            rcases List.mem_cons.mp hp with rfl | hp
            · exact ⟨ho, hb⟩
            · exact h2 p hp
          · exact Or.inr ⟨p, List.mem_cons_of_mem _ hp, h⟩
      · simp only [ho, hb, Bool.false_eq_true, if_false, if_true, List.mem_cons,
          List.mem_singleton, List.not_mem_nil, or_false] at hc
        rcases hc with rfl | rfl | rfl
        · exact Or.inr ⟨a, List.mem_cons_self _ _, Or.inl rfl⟩
        · exact Or.inr ⟨a, List.mem_cons_self _ _, Or.inr (Or.inl ⟨rfl, ho⟩)⟩
        · exact Or.inr ⟨a, List.mem_cons_self _ _, Or.inr (Or.inr ⟨rfl, ho, hb⟩)⟩
    · simp only [ho, if_true, List.mem_singleton] at hc
      subst hc
      exact Or.inr ⟨a, List.mem_cons_self _ _, Or.inl rfl⟩

theorem rayTrace_eq (m : Map) (x0 y0 x1 y1 : Int) (w : List (Int × Int))
    (hw : walk x0 y0 x1 y1 = some w) :
    rayTrace m ⟨x0, y0, x1, y1⟩ = losAlong m x1 y1 w := by
  unfold rayTrace
  simp only [hw, Option.getD_some]

theorem not_mem_queries (pre : List (Int × Int)) (c : Call) (hc : c.isMutator = true) :
    c ∉ pre.flatMap fun p => [Call.OOB p.1 p.2, Call.CantSeeThrough p.1 p.2] := by
  intro h
  have := List.mem_filter.mpr ⟨h, hc⟩
  rw [filter_queries] at this
  cases this

/-! ## Membership in the trace of a ray and of `fov` -/

theorem lit_mem_rayTrace (m : Map) (r : Ray) (x y : Int) :
    Call.Lit x y ∈ rayTrace m r ↔
      x = r.x1 ∧ y = r.y1 ∧ ∀ w, walk r.x0 r.y0 r.x1 r.y1 = some w →
        ∀ p ∈ w, m.OOB p.1 p.2 = false ∧ m.CantSeeThrough p.1 p.2 = false := by
  obtain ⟨w, hw⟩ := walk_isSome r.x0 r.y0 r.x1 r.y1
  rw [show r = ⟨r.x0, r.y0, r.x1, r.y1⟩ from rfl, rayTrace_eq m _ _ _ _ w hw]
  constructor
  · intro h
    rcases mem_losAlong m _ _ w _ h with ⟨h1, h2⟩ | ⟨p, _, h1 | h1 | h1⟩
    · rcases (mem_losFinish m _ _ _).mp h1 with h3 | h3 | h3 | h3
      · simp only [Call.Lit.injEq] at h3
        refine ⟨h3.1, h3.2, ?_⟩
        intro w' hw'
        rw [hw] at hw'
        cases hw'
        exact h2
      · cases h3
      · cases h3
      · cases h3.1
    · cases h1
    · cases h1.1
    · cases h1.1
  · rintro ⟨rfl, rfl, h⟩
    have e := losAlong_clear m r.x1 r.y1 w [] (h w hw)
    rw [List.append_nil] at e
    rw [e]
    exact List.mem_append.mpr (Or.inr ((mem_losFinish m _ _ _).mpr (Or.inl rfl)))

theorem discover_mem_rayTrace (m : Map) (r : Ray) (x y : Int)
    (h : Call.Discover x y ∈ rayTrace m r) :
    (x = r.x1 ∧ y = r.y1 ∧ ∀ w, walk r.x0 r.y0 r.x1 r.y1 = some w →
        ∀ p ∈ w, m.OOB p.1 p.2 = false ∧ m.CantSeeThrough p.1 p.2 = false) ∨
      (m.OOB x y = false ∧ m.CantSeeThrough x y = true) := by
  obtain ⟨w, hw⟩ := walk_isSome r.x0 r.y0 r.x1 r.y1
  rw [show r = ⟨r.x0, r.y0, r.x1, r.y1⟩ from rfl, rayTrace_eq m _ _ _ _ w hw] at h
  rcases mem_losAlong m _ _ w _ h with ⟨h1, h2⟩ | ⟨p, _, h1 | h1 | h1⟩
  · rcases (mem_losFinish m _ _ _).mp h1 with h3 | h3 | h3 | h3
    · cases h3
    · simp only [Call.Discover.injEq] at h3
      left
      refine ⟨h3.1, h3.2, ?_⟩
      intro w' hw'
      rw [hw] at hw'
      cases hw'
      exact h2
    · cases h3
    · cases h3.1
  · cases h1
  · cases h1.1
  · obtain ⟨h3, h4, h5⟩ := h1
    simp only [Call.Discover.injEq] at h3
    rw [h3.1, h3.2]
    exact Or.inr ⟨h4, h5⟩

theorem discover_target_mem_rayTrace (m : Map) (r : Ray)
    (h : ∀ w, walk r.x0 r.y0 r.x1 r.y1 = some w →
        ∀ p ∈ w, m.OOB p.1 p.2 = false ∧ m.CantSeeThrough p.1 p.2 = false) :
    Call.Discover r.x1 r.y1 ∈ rayTrace m r := by
  obtain ⟨w, hw⟩ := walk_isSome r.x0 r.y0 r.x1 r.y1
  rw [show r = ⟨r.x0, r.y0, r.x1, r.y1⟩ from rfl, rayTrace_eq m _ _ _ _ w hw]
  have e := losAlong_clear m r.x1 r.y1 w [] (h w hw)
  rw [List.append_nil] at e
  rw [e]
  exact List.mem_append.mpr (Or.inr ((mem_losFinish m _ _ _).mpr (Or.inr (Or.inl rfl))))

theorem activate_mem_rayTrace (m : Map) (r : Ray) (x y : Int)
    (h : Call.Activate x y ∈ rayTrace m r) :
    x = r.x1 ∧ y = r.y1 ∧ m.OOB x y = false ∧
      ∀ w, walk r.x0 r.y0 r.x1 r.y1 = some w →
        ∀ p ∈ w, m.OOB p.1 p.2 = false ∧ m.CantSeeThrough p.1 p.2 = false := by
  obtain ⟨w, hw⟩ := walk_isSome r.x0 r.y0 r.x1 r.y1
  rw [show r = ⟨r.x0, r.y0, r.x1, r.y1⟩ from rfl, rayTrace_eq m _ _ _ _ w hw] at h
  rcases mem_losAlong m _ _ w _ h with ⟨h1, h2⟩ | ⟨p, _, h1 | h1 | h1⟩
  · rcases (mem_losFinish m _ _ _).mp h1 with h3 | h3 | h3 | h3
    · cases h3
    · cases h3
    · cases h3
    · obtain ⟨h4, h5⟩ := h3
      simp only [Call.Activate.injEq] at h4
      rw [h4.1, h4.2]
      refine ⟨rfl, rfl, h5, ?_⟩
      intro w' hw'
      rw [hw] at hw'
      cases hw'
      exact h2
  · cases h1
  · cases h1.1
  · cases h1.1

theorem unlit_not_mem_rayTrace (m : Map) (r : Ray) (x y : Int) :
    Call.UnLit x y ∉ rayTrace m r := by
  intro h
  obtain ⟨w, hw⟩ := walk_isSome r.x0 r.y0 r.x1 r.y1
  rw [show r = ⟨r.x0, r.y0, r.x1, r.y1⟩ from rfl, rayTrace_eq m _ _ _ _ w hw] at h
  rcases mem_losAlong m _ _ w _ h with ⟨h1, _⟩ | ⟨p, _, h1 | h1 | h1⟩
  · rcases (mem_losFinish m _ _ _).mp h1 with h3 | h3 | h3 | h3
    · cases h3
    · cases h3
    · cases h3
    · cases h3.1
  · cases h1
  · cases h1.1
  · cases h1.1

/-- Every call of a ray is on its target or on a tile of its walk. -/
theorem tile_mem_rayTrace (m : Map) (r : Ray) (c : Call) (h : c ∈ rayTrace m r) :
    c.tile = (r.x1, r.y1) ∨ c.tile ∈ (walk r.x0 r.y0 r.x1 r.y1).getD [] := by
  unfold rayTrace at h
  rcases mem_losAlong m _ _ _ _ h with ⟨h1, _⟩ | ⟨p, hp, h1 | h1 | h1⟩
  · left
    rcases (mem_losFinish m _ _ _).mp h1 with h3 | h3 | h3 | h3
    · rw [h3]; rfl
    · rw [h3]; rfl
    · rw [h3]; rfl
    · rw [h3.1]; rfl
  · right; rw [h1]; exact hp
  · right; rw [h1.1]; exact hp
  · right; rw [h1.1]; exact hp

/-! ## Grids -/

theorem Grid.run_append (g : Grid) (s t : List Call) : g.run (s ++ t) = (g.run s).run t := by
  unfold Grid.run
  rw [List.foldl_append]

theorem Grid.run_cons (g : Grid) (c : Call) (t : List Call) :
    g.run (c :: t) = (g.step c).run t := rfl

/-- A tile is discovered after a trace when it was before or the trace calls
`Discover` on it. -/
theorem discovered_run (t : List Call) : ∀ (g : Grid) (x y : Int),
    (g.run t).discovered x y = true ↔ g.discovered x y = true ∨ Call.Discover x y ∈ t := by
  induction t with
  | nil => intro g x y; simp [Grid.run]
  | cons c t ih =>
    intro g x y
    rw [Grid.run_cons, ih]
    cases c <;> simp only [Grid.step, List.mem_cons, Call.Discover.injEq, false_or, reduceCtorEq]
    rename_i a b
    by_cases hab : x = a ∧ y = b
    · simp [hab]
    · simp [hab]

/-- After a trace with no `UnLit`, a tile is lit when it was before or the trace
calls `Lit` on it. -/
theorem lit_run_of_no_unlit (t : List Call) : ∀ (g : Grid) (x y : Int),
    (∀ a b, Call.UnLit a b ∉ t) →
    ((g.run t).lit x y = true ↔ g.lit x y = true ∨ Call.Lit x y ∈ t) := by
  induction t with
  | nil => intro g x y _; simp [Grid.run]
  | cons c t ih =>
    intro g x y hno
    rw [Grid.run_cons, ih _ _ _ fun a b h => hno a b (List.mem_cons_of_mem _ h)]
    cases c <;> simp only [Grid.step, List.mem_cons, Call.Lit.injEq, false_or, reduceCtorEq]
    · rename_i a b
      by_cases hab : x = a ∧ y = b
      · simp [hab]
      · simp [hab]
    · rename_i a b
      exact absurd (List.mem_cons_self _ _) (hno a b)

/-- After a trace of `UnLit` calls only, a tile is lit when it was before and the
trace has no `UnLit` on it. -/
theorem lit_run_of_only_unlit (t : List Call) : ∀ (g : Grid) (x y : Int),
    (∀ c ∈ t, ∃ a b, c = Call.UnLit a b) →
    ((g.run t).lit x y = true ↔ g.lit x y = true ∧ Call.UnLit x y ∉ t) := by
  induction t with
  | nil => intro g x y _; simp [Grid.run]
  | cons c t ih =>
    intro g x y hall
    rw [Grid.run_cons, ih _ _ _ fun c h => hall c (List.mem_cons_of_mem _ h)]
    obtain ⟨a, b, rfl⟩ := hall c (List.mem_cons_self _ _)
    simp only [Grid.step, List.mem_cons, Call.UnLit.injEq, not_or]
    by_cases hab : x = a ∧ y = b
    · simp [hab]
    · simp [hab]

/-! ## The refresh: `clearlight` then `fov` -/

/-- The lit flag after a refresh from grid `g`: lit by one of the rays of this
refresh, or lit before and outside the square swept by `clearlight`. -/
theorem lit_run_refresh (m : Map) (g : Grid) (px py radius x y : Int) :
    (g.run (clearlight m px py radius ++ (fovRays px py radius).flatMap (rayTrace m))).lit x y
        = true ↔
      Call.Lit x y ∈ (fovRays px py radius).flatMap (rayTrace m) ∨
        (g.lit x y = true ∧ ¬ (px - radius - 1 ≤ x ∧ x ≤ px + radius ∧
          py - radius - 1 ≤ y ∧ y ≤ py + radius)) := by
  rw [Grid.run_append, lit_run_of_no_unlit, lit_run_of_only_unlit]
  · have e : Call.UnLit x y ∈ clearlight m px py radius ↔
        (px - radius - 1 ≤ x ∧ x ≤ px + radius ∧ py - radius - 1 ≤ y ∧ y ≤ py + radius) := by
      rw [mem_clearlight]
      constructor
      · rintro ⟨a, b, h, hh⟩
        simp only [Call.UnLit.injEq] at h
        rw [h.1, h.2]
        exact hh
      · intro hh
        exact ⟨x, y, rfl, hh⟩
    rw [e]
    tauto
  · intro c hc
    obtain ⟨a, b, h, _⟩ := (mem_clearlight m px py radius c).mp hc
    exact ⟨a, b, h⟩
  · intro a b h
    obtain ⟨r, _, hr⟩ := List.mem_flatMap.mp h
    exact unlit_not_mem_rayTrace m r a b hr

theorem lit_mem_CalcVisibility_trace (m : Map) (px py radius x y : Int) :
    Call.Lit x y ∈ clearlight m px py radius ++ (fovRays px py radius).flatMap (rayTrace m) ↔
      Call.Lit x y ∈ (fovRays px py radius).flatMap (rayTrace m) := by
  rw [List.mem_append]
  constructor
  · rintro (h | h)
    · obtain ⟨a, b, h', _⟩ := (mem_clearlight m px py radius _).mp h
      cases h'
    · exact h
  · exact Or.inr

/-- The ray to a target inside the circle, on the map without obstacles, lights
the target. -/
theorem lit_mem_fov_openMap (px py radius x y : Int)
    (h : Ray.mk px py x y ∈ fovRays px py radius) :
    Call.Lit x y ∈ (fovRays px py radius).flatMap (rayTrace openMap) :=
  List.mem_flatMap.mpr ⟨_, h,
    (lit_mem_rayTrace openMap _ x y).mpr ⟨rfl, rfl, fun _ _ _ _ => ⟨rfl, rfl⟩⟩⟩

/-- The ray from a tile to itself has an empty walk. -/
theorem walk_self (x y : Int) : walk x y x y = some [] := by
  simp [walk, walkLoop]

/-- A tile that does not block sight and whose own ray is stopped on the way
receives no `Lit`, `Discover` or `Activate` in the whole refresh. -/
theorem no_mark_of_stopped (m : Map) (px py r x y : Int) (w : List (Int × Int))
    (hopen : m.CantSeeThrough x y = false) (hw : walk px py x y = some w)
    (p : Int × Int) (hp : p ∈ w)
    (hstop : ¬ (m.OOB p.1 p.2 = false ∧ m.CantSeeThrough p.1 p.2 = false)) :
    ∀ c ∈ clearlight m px py r ++ (fovRays px py r).flatMap (rayTrace m),
      c.isMark = true → c.tile ≠ (x, y) := by
  intro c hc hmark htile
  rcases List.mem_append.mp hc with hc | hc
  · obtain ⟨a, b, h', _⟩ := (mem_clearlight m px py r _).mp hc
    rw [h'] at hmark
    cases hmark
  · obtain ⟨q, hq, hcq⟩ := List.mem_flatMap.mp hc
    have hq' := (mem_fovRays px py r q).mp hq
    have stopped : ¬ (x = q.x1 ∧ y = q.y1 ∧ ∀ w, walk q.x0 q.y0 q.x1 q.y1 = some w →
        ∀ p ∈ w, m.OOB p.1 p.2 = false ∧ m.CantSeeThrough p.1 p.2 = false) := by
      rintro ⟨h1, h2, h3⟩
      apply hstop
      apply h3 w _ p hp
      rw [hq'.1, hq'.2.1, ← h1, ← h2]
      exact hw
    cases c with
    | OOB a b => cases hmark
    | CantSeeThrough a b => cases hmark
    | UnLit a b => cases hmark
    | Lit a b =>
      simp only [Call.tile, Prod.mk.injEq] at htile
      rw [htile.1, htile.2] at hcq
      exact stopped ((lit_mem_rayTrace m q x y).mp hcq)
    | Activate a b =>
      simp only [Call.tile, Prod.mk.injEq] at htile
      rw [htile.1, htile.2] at hcq
      have := activate_mem_rayTrace m q x y hcq
      exact stopped ⟨this.1, this.2.1, this.2.2.2⟩
    | Discover a b =>
      simp only [Call.tile, Prod.mk.injEq] at htile
      rw [htile.1, htile.2] at hcq
      rcases discover_mem_rayTrace m q x y hcq with h | h
      · exact stopped h
      · rw [hopen] at h
        cases h.2

/-! ## Length of the walk and of the trace -/

theorem walkLoop_length (x0 y0 x1 y1 dx dy sx sy : Int) :
    ∀ (fuel : Nat) (x y : Int) (w : List (Int × Int)),
      walkLoop x0 y0 x1 y1 dx dy sx sy fuel x y = some w → w.length ≤ fuel := by
  intro fuel
  induction fuel with
  | zero =>
    intro x y w hw
    by_cases hne : x ≠ x1 ∨ y ≠ y1
    · simp [walkLoop, hne] at hw
    · simp only [walkLoop, if_neg hne, Option.some.injEq] at hw
      subst hw
      exact le_refl _
  | succ n ih =>
    intro x y w hw
    by_cases hne : x ≠ x1 ∨ y ≠ y1
    · simp only [walkLoop, if_pos hne, Option.map_eq_some'] at hw
      obtain ⟨w', hw', rfl⟩ := hw
      have := ih _ _ _ hw'
      simp only [List.length_cons]
      omega
    · simp only [walkLoop, if_neg hne, Option.some.injEq] at hw
      subst hw
      exact Nat.zero_le _

theorem walk_length (x0 y0 x1 y1 : Int) (w : List (Int × Int))
    (hw : walk x0 y0 x1 y1 = some w) :
    w.length ≤ (x1 - x0).natAbs + (y1 - y0).natAbs :=
  walkLoop_length _ _ _ _ _ _ _ _ _ _ _ _ hw

theorem losFinish_oob_length (m : Map) (x1 y1 : Int) :
    ((losFinish m x1 y1).filter Call.isOOB).length = 1 := by
  unfold losFinish
  cases m.OOB x1 y1 <;> simp [Call.isOOB]

theorem losAlong_oob_length (m : Map) (x1 y1 : Int) (w : List (Int × Int)) :
    ((losAlong m x1 y1 w).filter Call.isOOB).length ≤ w.length + 1 := by
  induction w with
  | nil =>
    rw [losAlong, losFinish_oob_length]
    exact le_refl _
  | cons a w ih =>
    unfold losAlong
    cases m.OOB a.1 a.2 <;> cases m.CantSeeThrough a.1 a.2 <;>
      (simp [Call.isOOB]; try omega)

theorem not_isMark_of_mem_clearlight (m : Map) (px py r : Int) (c : Call)
    (hc : c ∈ clearlight m px py r) : c.isMark = false := by
  obtain ⟨a, b, h, _⟩ := (mem_clearlight m px py r c).mp hc
  rw [h]
  rfl

theorem fovRays_zero (px py : Int) : fovRays px py 0 = [] := by
  rw [List.eq_nil_iff_forall_not_mem]
  intro q hq
  have := (mem_fovRays px py 0 q).mp hq
  nlinarith [mul_self_nonneg (q.x1 - px), mul_self_nonneg (q.y1 - py), this.2.2.2.2.2.2]

/-- Within one ray a `Lit` comes with a `Discover` on the same tile. -/
theorem discover_of_lit_rayTrace (m : Map) (q : Ray) (x y : Int)
    (h : Call.Lit x y ∈ rayTrace m q) : Call.Discover x y ∈ rayTrace m q := by
  obtain ⟨h1, h2, h3⟩ := (lit_mem_rayTrace m q x y).mp h
  rw [h1, h2]
  exact discover_target_mem_rayTrace m q h3

/-! ## Counting calls -/

/-- When at most one element of a duplicate-free list maps to a list holding
`a`, and that list holds `a` at most once, the concatenation holds `a` at most
once. -/
theorem count_flatMap_le_one {α β : Type} [DecidableEq β] (f : α → List β) (a : β) :
    ∀ l : List α, l.Nodup →
      (∀ q ∈ l, ∀ q' ∈ l, a ∈ f q → a ∈ f q' → q = q') →
      (∀ q ∈ l, (f q).count a ≤ 1) → (l.flatMap f).count a ≤ 1 := by
  intro l
  induction l with
  | nil => intro _ _ _; simp
  | cons q l ih =>
    intro hnd huniq hone
    rw [List.flatMap_cons, List.count_append]
    obtain ⟨hq, hnd'⟩ := List.nodup_cons.mp hnd
    by_cases hmem : a ∈ f q
    · have hzero : (l.flatMap f).count a = 0 := by
        apply List.count_eq_zero_of_not_mem
        intro h
        obtain ⟨q', hq', ha⟩ := List.mem_flatMap.mp h
        have := huniq q (List.mem_cons_self _ _) q' (List.mem_cons_of_mem _ hq') hmem ha
        exact hq (this ▸ hq')
      have := hone q (List.mem_cons_self _ _)
      omega
    · have hzero : (f q).count a = 0 := List.count_eq_zero_of_not_mem hmem
      have := ih hnd'
        (fun q1 h1 q2 h2 => huniq q1 (List.mem_cons_of_mem _ h1) q2 (List.mem_cons_of_mem _ h2))
        (fun q1 h1 => hone q1 (List.mem_cons_of_mem _ h1))
      omega

theorem losFinish_count_activate (m : Map) (x1 y1 x y : Int) :
    (losFinish m x1 y1).count (Call.Activate x y) ≤ 1 := by
  unfold losFinish
  cases m.OOB x1 y1
  · by_cases h : Call.Activate x1 y1 = Call.Activate x y
    · simp [List.count_cons, h]
    · simp [List.count_cons, h]
  · simp [List.count_cons]

theorem losAlong_count_activate (m : Map) (x1 y1 x y : Int) (w : List (Int × Int)) :
    (losAlong m x1 y1 w).count (Call.Activate x y) ≤ 1 := by
  induction w with
  | nil => exact losFinish_count_activate m x1 y1 x y
  | cons a w ih =>
    unfold losAlong
    cases m.OOB a.1 a.2 <;> cases m.CantSeeThrough a.1 a.2 <;>
      simp [List.count_cons]
    exact ih

theorem activate_target_mem_rayTrace (m : Map) (r : Ray)
    (h : ∀ w, walk r.x0 r.y0 r.x1 r.y1 = some w →
        ∀ p ∈ w, m.OOB p.1 p.2 = false ∧ m.CantSeeThrough p.1 p.2 = false)
    (hin : m.OOB r.x1 r.y1 = false) :
    Call.Activate r.x1 r.y1 ∈ rayTrace m r := by
  obtain ⟨w, hw⟩ := walk_isSome r.x0 r.y0 r.x1 r.y1
  rw [show r = ⟨r.x0, r.y0, r.x1, r.y1⟩ from rfl, rayTrace_eq m _ _ _ _ w hw]
  have e := losAlong_clear m r.x1 r.y1 w [] (h w hw)
  rw [List.append_nil] at e
  rw [e]
  exact List.mem_append.mpr
    (Or.inr ((mem_losFinish m _ _ _).mpr (Or.inr (Or.inr (Or.inr ⟨rfl, hin⟩)))))

/-- A ray of `fov` is determined by its target. -/
theorem ray_of_target (px py r : Int) (q : Ray) (hq : q ∈ fovRays px py r) (x y : Int)
    (h1 : x = q.x1) (h2 : y = q.y1) : q = Ray.mk px py x y := by
  have := (mem_fovRays px py r q).mp hq
  cases q
  simp only at h1 h2 this
  simp only [Ray.mk.injEq]
  exact ⟨this.1, this.2.1, h1.symm, h2.symm⟩

/-! ## The footprint of a ray -/

/-- A position satisfying the loop invariant lies in the rectangle spanned by
observer and target. -/
theorem OnRay.rect {x0 y0 x1 y1 x y : Int}
    (h : OnRay x0 y0 x1 y1 (if x0 < x1 then 1 else -1) (if y0 < y1 then 1 else -1) x y) :
    min x0 x1 ≤ x ∧ x ≤ max x0 x1 ∧ min y0 y1 ≤ y ∧ y ≤ max y0 y1 := by
  obtain ⟨h1, h2, h3, h4, _⟩ := h
  split_ifs at h1 h2 h3 h4 <;> omega

theorem sq_le_of_rect (a b x : Int) (h1 : min a b ≤ x) (h2 : x ≤ max a b) :
    (x - a) * (x - a) ≤ (b - a) * (b - a) := by
  rcases le_total a b with hab | hab
  · rw [min_eq_left hab] at h1
    rw [max_eq_right hab] at h2
    exact mul_self_le_mul_self (by omega) (by omega)
  · rw [min_eq_right hab] at h1
    rw [max_eq_left hab] at h2
    have := mul_self_le_mul_self (by omega : (0 : Int) ≤ a - x) (by omega : a - x ≤ a - b)
    nlinarith

/-! ## Axis-aligned rays -/

theorem range_succ_map_shift (n : Nat) (f : Int → Int × Int) (y s : Int) :
    (List.range (n + 1)).map (fun (k : Nat) => f (y + s * (k : Int))) =
      f y :: (List.range n).map (fun (k : Nat) => f (y + s + s * (k : Int))) := by
  rw [List.range_succ_eq_map, List.map_cons, List.map_map]
  congr 1
  · simp
  · apply List.map_congr_left
    intro k _
    simp only [Function.comp, Nat.cast_succ]
    congr 1
    ring

/-- The loop on a vertical ray steps in `y` only. -/
theorem walkLoop_vertical (x0 y0 y1 sx sy : Int) (hsx : sx = 1 ∨ sx = -1)
    (hsy : sy = 1 ∨ sy = -1) (hdy : y1 - y0 ≠ 0) :
    ∀ (n : Nat) (y : Int), sy * (y1 - y) = (n : Int) →
      walkLoop x0 y0 x0 y1 (x0 - x0) (y1 - y0) sx sy n x0 y =
        some ((List.range n).map fun (k : Nat) => (x0, y + sy * (k : Int))) := by
  intro n
  induction n with
  | zero =>
    intro y hy
    have : y = y1 := by
      rcases hsy with rfl | rfl <;> simp only [Nat.cast_zero] at hy <;> omega
    simp [walkLoop, this]
  | succ n ih =>
    intro y hy
    have hne : x0 ≠ x0 ∨ y ≠ y1 := by
      right
      intro e
      rw [e] at hy
      push_cast at hy
      simp at hy
      omega
    have hpos : 0 < (y1 - y0) * (y1 - y0) := mul_self_pos.mpr hdy
    have hstep : losStep x0 y0 (x0 - x0) (y1 - y0) sx sy x0 y = (x0, y + sy) := by
      unfold losStep near
      have h1 : ¬ (4 * (((y1 - y0) * (x0 - x0 + sx) - (x0 - x0) * (y - y0)) *
          ((y1 - y0) * (x0 - x0 + sx) - (x0 - x0) * (y - y0))) <
          (x0 - x0) * (x0 - x0) + (y1 - y0) * (y1 - y0)) := by
        rcases hsx with rfl | rfl <;> nlinarith
      have h2 : 4 * (((y1 - y0) * (x0 - x0) - (x0 - x0) * (y - y0 + sy)) *
          ((y1 - y0) * (x0 - x0) - (x0 - x0) * (y - y0 + sy))) <
          (x0 - x0) * (x0 - x0) + (y1 - y0) * (y1 - y0) := by
        nlinarith
      simp only [h1, h2, decide_False, decide_True, if_true, if_false, Bool.false_eq_true]
    have hrec := ih (y + sy) (by
      rcases hsy with rfl | rfl <;> push_cast at hy ⊢ <;> linarith)
    rw [range_succ_map_shift n (fun v => (x0, v)) y sy]
    simp only [walkLoop, if_pos hne, hstep, hrec, Option.map_some']

/-- The loop on a horizontal ray steps in `x` only. -/
theorem walkLoop_horizontal (x0 y0 x1 sx sy : Int) (hsx : sx = 1 ∨ sx = -1)
    (hdx : x1 - x0 ≠ 0) :
    ∀ (n : Nat) (x : Int), sx * (x1 - x) = (n : Int) →
      walkLoop x0 y0 x1 y0 (x1 - x0) (y0 - y0) sx sy n x y0 =
        some ((List.range n).map fun (k : Nat) => (x + sx * (k : Int), y0)) := by
  intro n
  induction n with
  | zero =>
    intro x hx
    have : x = x1 := by
      rcases hsx with rfl | rfl <;> simp only [Nat.cast_zero] at hx <;> omega
    simp [walkLoop, this]
  | succ n ih =>
    intro x hx
    have hne : x ≠ x1 ∨ y0 ≠ y0 := by
      left
      intro e
      rw [e] at hx
      push_cast at hx
      simp at hx
      omega
    have hpos : 0 < (x1 - x0) * (x1 - x0) := mul_self_pos.mpr hdx
    have hstep : losStep x0 y0 (x1 - x0) (y0 - y0) sx sy x y0 = (x + sx, y0) := by
      unfold losStep near
      have h1 : 4 * (((y0 - y0) * (x - x0 + sx) - (x1 - x0) * (y0 - y0)) *
          ((y0 - y0) * (x - x0 + sx) - (x1 - x0) * (y0 - y0))) <
          (x1 - x0) * (x1 - x0) + (y0 - y0) * (y0 - y0) := by
        nlinarith
      simp only [h1, decide_True, if_true]
    have hrec := ih (x + sx) (by
      rcases hsx with rfl | rfl <;> push_cast at hx ⊢ <;> linarith)
    rw [range_succ_map_shift n (fun v => (v, y0)) x sx]
    simp only [walkLoop, if_pos hne, hstep, hrec, Option.map_some']

/-! ## Sequences of refreshes -/

/-- A tile lit by a ray of `fov` is less than `r` away from the origin in each
coordinate. -/
theorem lit_fov_bounds (m : Map) (px py r x y : Int)
    (h : Call.Lit x y ∈ (fovRays px py r).flatMap (rayTrace m)) :
    px - r + 1 ≤ x ∧ x ≤ px + r - 1 ∧ py - r + 1 ≤ y ∧ y ≤ py + r - 1 := by
  obtain ⟨q, hq, hl⟩ := List.mem_flatMap.mp h
  obtain ⟨_, _, h1, h2, h3, h4, hc⟩ := (mem_fovRays px py r q).mp hq
  obtain ⟨e1, e2, _⟩ := (lit_mem_rayTrace m q x y).mp hl
  subst e1
  subst e2
  have hr : 0 ≤ r := by omega
  have hx1 : q.x1 - px < r := by
    by_contra hcon
    have := mul_self_le_mul_self hr (not_lt.mp hcon)
    nlinarith [mul_self_nonneg (q.y1 - py)]
  have hx2 : -r < q.x1 - px := by
    by_contra hcon
    have := mul_self_le_mul_self hr (by omega : r ≤ -(q.x1 - px))
    nlinarith [mul_self_nonneg (q.y1 - py)]
  have hy1 : q.y1 - py < r := by
    by_contra hcon
    have := mul_self_le_mul_self hr (not_lt.mp hcon)
    nlinarith [mul_self_nonneg (q.x1 - px)]
  have hy2 : -r < q.y1 - py := by
    by_contra hcon
    have := mul_self_le_mul_self hr (by omega : r ≤ -(q.y1 - py))
    nlinarith [mul_self_nonneg (q.x1 - px)]
  omega

/-- One refresh from a grid whose light lies in the square it resets: the lit
tiles afterwards are those its rays lit, all less than `r` from the origin. -/
theorem refresh_step (m : Map) (r : Int) (o : Int × Int) (g : Grid)
    (hg : ∀ x y, g.lit x y = true →
      o.1 - r - 1 ≤ x ∧ x ≤ o.1 + r ∧ o.2 - r - 1 ≤ y ∧ y ≤ o.2 + r) :
    ∃ t, CalcVisibility m o.1 o.2 r = some t ∧
      (∀ x y, (g.run t).lit x y = true ↔ Call.Lit x y ∈ t) ∧
      ∀ x y, Call.Lit x y ∈ t →
        o.1 - r + 1 ≤ x ∧ x ≤ o.1 + r - 1 ∧ o.2 - r + 1 ≤ y ∧ y ≤ o.2 + r - 1 := by
  refine ⟨_, CalcVisibility_eq m o.1 o.2 r, ?_, ?_⟩
  · intro x y
    rw [lit_run_refresh, lit_mem_CalcVisibility_trace]
    constructor
    · rintro (h | h)
      · exact h
      · exact absurd (hg x y h.1) h.2
    · exact Or.inl
  · intro x y h
    exact lit_fov_bounds m o.1 o.2 r x y ((lit_mem_CalcVisibility_trace m o.1 o.2 r x y).mp h)

/-- When all light of the grid lies in the square reset by the first call and
the origins move by one tile at most, after each call the lit tiles are those
its rays lit. -/
theorem refreshLog_spec (m : Map) (r : Int) :
    ∀ (os : List (Int × Int)) (o : Int × Int) (g : Grid),
      (∀ x y, g.lit x y = true →
        o.1 - r - 1 ≤ x ∧ x ≤ o.1 + r ∧ o.2 - r - 1 ≤ y ∧ y ≤ o.2 + r) →
      List.Chain oneTileMove o os →
      ∃ log, refreshLog m r g (o :: os) = some log ∧
        (o :: os).map (fun p => CalcVisibility m p.1 p.2 r) = log.map (fun e => some e.2) ∧
        ∀ e ∈ log, ∀ x y, e.1.lit x y = true ↔ Call.Lit x y ∈ e.2 := by
  intro os
  induction os with
  | nil =>
    intro o g hg _
    obtain ⟨t, ht, hlit, _⟩ := refresh_step m r o g hg
    refine ⟨[(g.run t, t)], ?_, ?_, ?_⟩
    · simp only [refreshLog, ht, Option.some_bind, Option.map_some']
    · simp only [List.map_cons, List.map_nil, ht]
    · intro e he x y
      simp only [List.mem_singleton] at he
      subst he
      exact hlit x y
  | cons o' os ih =>
    intro o g hg hchain
    obtain ⟨hmove, hchain'⟩ := List.chain_cons.mp hchain
    obtain ⟨t, ht, hlit, hb⟩ := refresh_step m r o g hg
    obtain ⟨log, hlog, htr, hall⟩ := ih o' (g.run t)
      (by
        intro x y h
        have hb' := hb x y ((hlit x y).mp h)
        obtain ⟨m1, m2⟩ := hmove
        rw [abs_le] at m1 m2
        omega)
      hchain'
    refine ⟨(g.run t, t) :: log, ?_, ?_, ?_⟩
    · rw [refreshLog]
      simp only [ht, Option.some_bind, hlog, Option.map_some']
    · rw [List.map_cons, htr]
      simp only [List.map_cons, ht]
    · intro e he x y
      rcases List.mem_cons.mp he with rfl | he
      · exact hlit x y
      · exact hall e he x y

/-! ## The properties in exact arithmetic -/

/-- In exact arithmetic (candidate enumeration): `fov` is the sequence of the `los` invocations
`fovRays`; every one of them has the origin as observer; the target
`(x+i, y+j)` is invoked once when `-r ≤ i, j ≤ r` and `i*i + j*j < r*r`, and not
at all otherwise.  For origin `(0, 0)` and radius 3, `(3, 0)` is not a target and
no call of any ray is on it, on any map, while `(2, 2)` is a target. -/
theorem fov_candidates_exact (x y r : Int) :
    (∀ m, fov m x y r = seqTraces ((fovRays x y r).map fun q => los m q.x0 q.y0 q.x1 q.y1)) ∧
    (∀ q ∈ fovRays x y r, q.x0 = x ∧ q.y0 = y) ∧
    (∀ i j, (fovRays x y r).count (Ray.mk x y (x + i) (y + j)) =
      if -r ≤ i ∧ i ≤ r ∧ -r ≤ j ∧ j ≤ r ∧ i * i + j * j < r * r then 1 else 0) ∧
    Ray.mk 0 0 3 0 ∉ fovRays 0 0 3 ∧ Ray.mk 0 0 2 2 ∈ fovRays 0 0 3 ∧
    ∀ m, ∃ t, fov m 0 0 3 = some t ∧ ∀ c ∈ t, c.tile ≠ (3, 0) := by
  refine ⟨fun _ => rfl, ?_, ?_, by decide, by decide, ?_⟩
  · intro q hq
    have := (mem_fovRays x y r q).mp hq
    exact ⟨this.1, this.2.1⟩
  · intro i j
    have e : Ray.mk x y (x + i) (y + j) ∈ fovRays x y r ↔
        (-r ≤ i ∧ i ≤ r ∧ -r ≤ j ∧ j ≤ r ∧ i * i + j * j < r * r) := by
      rw [mem_fovRays]
      simp only [add_sub_cancel_left, true_and]
    split_ifs with h
    · exact List.count_eq_one_of_mem (nodup_fovRays x y r) (e.mpr h)
    · exact List.count_eq_zero_of_not_mem fun hc => h (e.mp hc)
  · intro m
    refine ⟨_, fov_eq m 0 0 3, ?_⟩
    intro c hc
    obtain ⟨q, hq, hcq⟩ := List.mem_flatMap.mp hc
    have key : ∀ q ∈ fovRays 0 0 3,
        ((3, 0) : Int × Int) ≠ (q.x1, q.y1) ∧
          ((3, 0) : Int × Int) ∉ (walk q.x0 q.y0 q.x1 q.y1).getD [] := by
      decide
    intro e
    rcases tile_mem_rayTrace m q c hcq with h | h
    · exact (key q hq).1 (e ▸ h)
    · exact (key q hq).2 (e ▸ h)

/-- In exact arithmetic (target reached): when no tile of the walk of `los` before the target is
out of bounds or blocks sight, `los` returns and has called `Lit` and `Discover`
on the target, and `Activate` on it exactly when the target is in bounds; the
target's own `OOB` and `CantSeeThrough` values play no part in reaching it. -/
theorem los_target_reached_exact (m : Map) (x0 y0 x1 y1 : Int)
    (hclear : ∀ w, walk x0 y0 x1 y1 = some w →
      ∀ p ∈ w, m.OOB p.1 p.2 = false ∧ m.CantSeeThrough p.1 p.2 = false) :
    ∃ t, los m x0 y0 x1 y1 = some t ∧ Call.Lit x1 y1 ∈ t ∧ Call.Discover x1 y1 ∈ t ∧
      (Call.Activate x1 y1 ∈ t ↔ m.OOB x1 y1 = false) := by
  obtain ⟨w, hw⟩ := walk_isSome x0 y0 x1 y1
  refine ⟨_, los_eq_rayTrace m x0 y0 x1 y1, ?_⟩
  rw [rayTrace_eq m x0 y0 x1 y1 w hw]
  have h := losAlong_clear m x1 y1 w [] (hclear w hw)
  rw [List.append_nil] at h
  rw [h]
  simp only [losAlong]
  refine ⟨List.mem_append.mpr (Or.inr ((mem_losFinish m x1 y1 _).mpr (Or.inl rfl))),
    List.mem_append.mpr (Or.inr ((mem_losFinish m x1 y1 _).mpr (Or.inr (Or.inl rfl)))), ?_⟩
  constructor
  · intro h1
    rcases List.mem_append.mp h1 with h1 | h1
    · exact absurd h1 (not_mem_queries w _ rfl)
    · rcases (mem_losFinish m x1 y1 _).mp h1 with h2 | h2 | h2 | h2
      · cases h2
      · cases h2
      · cases h2
      · exact h2.2
  · intro ho
    exact List.mem_append.mpr
      (Or.inr ((mem_losFinish m x1 y1 _).mpr (Or.inr (Or.inr (Or.inr ⟨rfl, ho⟩)))))

/-- In exact arithmetic (self-visibility): for every map, grid state, origin and radius at least
1, `CalcVisibility` returns and leaves the origin tile lit and discovered,
whatever the `OOB` and `CantSeeThrough` values of the origin tile. -/
theorem self_visibility_exact (m : Map) (g : Grid) (px py r : Int) (hr : 1 ≤ r) :
    ∃ t, CalcVisibility m px py r = some t ∧
      (g.run t).lit px py = true ∧ (g.run t).discovered px py = true := by
  have hray : Ray.mk px py px py ∈ fovRays px py r := by
    rw [mem_fovRays]
    simp only [sub_self, mul_zero, add_zero, true_and]
    refine ⟨by omega, by omega, by omega, by omega, by nlinarith⟩
  have hclear : ∀ w, walk px py px py = some w →
      ∀ p ∈ w, m.OOB p.1 p.2 = false ∧ m.CantSeeThrough p.1 p.2 = false := by
    intro w hw p hp
    rw [walk_self] at hw
    cases hw
    cases hp
  refine ⟨_, CalcVisibility_eq m px py r, ?_, ?_⟩
  · rw [lit_run_refresh]
    exact Or.inl (List.mem_flatMap.mpr ⟨_, hray,
      (lit_mem_rayTrace m _ px py).mpr ⟨rfl, rfl, hclear⟩⟩)
  · rw [discovered_run]
    exact Or.inr (List.mem_append.mpr (Or.inr (List.mem_flatMap.mpr ⟨_, hray,
      discover_target_mem_rayTrace m ⟨px, py, px, py⟩ hclear⟩)))

/-- In exact arithmetic (bounded ray): for every observer and target the walk of `los` has at
most `|x1-x0| + |y1-y0|` positions; on every map `los` returns within that many
iterations of its loop, making at most one `OOB` query more than that; and
`CalcVisibility` returns for every map, origin and radius. -/
theorem los_bounded_exact (x0 y0 x1 y1 : Int) :
    (∃ w, walk x0 y0 x1 y1 = some w ∧ w.length ≤ (x1 - x0).natAbs + (y1 - y0).natAbs) ∧
    (∀ m, ∃ t, losLoop m x0 y0 x1 y1 (x1 - x0) (y1 - y0) (if x0 < x1 then 1 else -1)
        (if y0 < y1 then 1 else -1) ((x1 - x0).natAbs + (y1 - y0).natAbs) x0 y0 = some t ∧
      los m x0 y0 x1 y1 = some t ∧
      (t.filter Call.isOOB).length ≤ (x1 - x0).natAbs + (y1 - y0).natAbs + 1) ∧
    ∀ m px py r, ∃ t, CalcVisibility m px py r = some t := by
  obtain ⟨w, hw⟩ := walk_isSome x0 y0 x1 y1
  have hlen := walk_length x0 y0 x1 y1 w hw
  refine ⟨⟨w, hw, hlen⟩, ?_, fun m px py r => ⟨_, CalcVisibility_eq m px py r⟩⟩
  intro m
  refine ⟨_, los_eq_rayTrace m x0 y0 x1 y1, los_eq_rayTrace m x0 y0 x1 y1, ?_⟩
  rw [rayTrace_eq m x0 y0 x1 y1 w hw]
  have := losAlong_oob_length m x1 y1 w
  omega

/-- In exact arithmetic (no stale light after a one-tile move): from a grid with no tile lit,
for every radius and every sequence of origins moving by at most one tile in
each coordinate, all the `CalcVisibility` calls return, and after each of them
the lit tiles are exactly the tiles on which that call called `Lit`. -/
theorem no_stale_light_one_tile_exact (m : Map) (g : Grid) (r : Int) (origins : List (Int × Int))
    (hdark : ∀ x y, g.lit x y = false) (hmove : List.Chain' oneTileMove origins) :
    ∃ log, refreshLog m r g origins = some log ∧
      origins.map (fun p => CalcVisibility m p.1 p.2 r) = log.map (fun e => some e.2) ∧
      ∀ e ∈ log, ∀ x y, e.1.lit x y = true ↔ Call.Lit x y ∈ e.2 := by
  cases origins with
  | nil => exact ⟨[], rfl, rfl, fun e he => by cases he⟩
  | cons o os =>
    apply refreshLog_spec m r os o g
    · intro x y h
      rw [hdark] at h
      cases h
    · exact hmove

/-- In exact arithmetic (footprint inside the circle): the walk of every ray stays in the
rectangle spanned by observer and target; `CalcVisibility` returns, and every
call of its trace other than the `UnLit` calls of the reset, so every `Lit`,
`Discover`, `Activate`, `OOB` and `CantSeeThrough`, is on a tile with
`(x-px)^2 + (y-py)^2 < r^2`. -/
theorem footprint_in_circle_exact (m : Map) (px py r : Int) :
    (∀ x0 y0 x1 y1, ∃ w, walk x0 y0 x1 y1 = some w ∧
      ∀ p ∈ w, min x0 x1 ≤ p.1 ∧ p.1 ≤ max x0 x1 ∧ min y0 y1 ≤ p.2 ∧ p.2 ≤ max y0 y1) ∧
    ∃ t, CalcVisibility m px py r = some t ∧
      ∀ c ∈ t, (∀ a b, c ≠ Call.UnLit a b) →
        (c.tile.1 - px) ^ 2 + (c.tile.2 - py) ^ 2 < r ^ 2 := by
  have rect : ∀ x0 y0 x1 y1, ∃ w, walk x0 y0 x1 y1 = some w ∧
      ∀ p ∈ w, min x0 x1 ≤ p.1 ∧ p.1 ≤ max x0 x1 ∧ min y0 y1 ≤ p.2 ∧ p.2 ≤ max y0 y1 := by
    intro x0 y0 x1 y1
    obtain ⟨w, hw, hall, _⟩ := walk_spec x0 y0 x1 y1
    exact ⟨w, hw, fun p hp => (hall p hp).2.rect⟩
  refine ⟨rect, _, CalcVisibility_eq m px py r, ?_⟩
  intro c hc hnot
  rcases List.mem_append.mp hc with hc | hc
  · obtain ⟨a, b, h', _⟩ := (mem_clearlight m px py r _).mp hc
    exact absurd h' (hnot a b)
  · obtain ⟨q, hq, hcq⟩ := List.mem_flatMap.mp hc
    obtain ⟨e0, e1, _, _, _, _, hcirc⟩ := (mem_fovRays px py r q).mp hq
    have inside : ∀ p : Int × Int,
        min q.x0 q.x1 ≤ p.1 ∧ p.1 ≤ max q.x0 q.x1 ∧ min q.y0 q.y1 ≤ p.2 ∧ p.2 ≤ max q.y0 q.y1 →
        (p.1 - px) ^ 2 + (p.2 - py) ^ 2 < r ^ 2 := by
      intro p hp
      have hx := sq_le_of_rect q.x0 q.x1 p.1 hp.1 hp.2.1
      have hy := sq_le_of_rect q.y0 q.y1 p.2 hp.2.2.1 hp.2.2.2
      rw [e0] at hx
      rw [e1] at hy
      simp only [sq]
      linarith
    rcases tile_mem_rayTrace m q c hcq with h | h
    · rw [h]
      simp only [sq]
      exact hcirc
    · obtain ⟨w, hw, hall⟩ := rect q.x0 q.y0 q.x1 q.y1
      rw [hw, Option.getD_some] at h
      exact inside _ (hall _ h)

/-- In exact arithmetic (deviation bound): for observer different from target, the walk of
`los` ends, and each of its tiles, the target included and whichever step led
to it, satisfies `4*(dy*(x-x0) - dx*(y-y0))^2 < dx^2 + dy^2`. -/
theorem deviation_bound_exact (x0 y0 x1 y1 : Int) (hne : x0 ≠ x1 ∨ y0 ≠ y1) :
    ∃ w, walk x0 y0 x1 y1 = some w ∧
      ∀ p ∈ w ++ [(x1, y1)],
        4 * ((y1 - y0) * (p.1 - x0) - (x1 - x0) * (p.2 - y0)) ^ 2 <
          (x1 - x0) ^ 2 + (y1 - y0) ^ 2 := by
  obtain ⟨w, hw, hall, _⟩ := walk_spec x0 y0 x1 y1
  refine ⟨w, hw, ?_⟩
  intro p hp
  rcases List.mem_append.mp hp with hp | hp
  · have := (hall p hp).2.2.2.2.2
    simp only [sq]
    exact this
  · simp only [List.mem_singleton] at hp
    subst hp
    have e : (y1 - y0) * (x1 - x0) - (x1 - x0) * (y1 - y0) = 0 := by ring
    simp only [e, sq, mul_zero]
    rcases hne with h | h
    · have : x1 - x0 ≠ 0 := fun e => h (by omega)
      nlinarith [mul_self_pos.mpr this, mul_self_nonneg (y1 - y0)]
    · have : y1 - y0 ≠ 0 := fun e => h (by omega)
      nlinarith [mul_self_pos.mpr this, mul_self_nonneg (x1 - x0)]

/-- In exact arithmetic (axis-aligned rays walk straight): the walk of a ray with `x0 = x1` is
the column `(x0, y0), (x0, y0 ± 1), ...` and the walk of a ray with `y0 = y1` is
the row `(x0, y0), (x0 ± 1, y0), ...`, in order, each ending one step short of
the target, which is the next tile of the column or row; the coincident
coordinate never changes, so its step sign `-1` is never applied. -/
theorem axis_aligned_straight_exact (x0 y0 x1 y1 : Int) :
    (walk x0 y0 x0 y1 = some ((List.range (y1 - y0).natAbs).map fun (k : Nat) =>
        (x0, y0 + (if y0 < y1 then 1 else -1) * (k : Int))) ∧
      y0 + (if y0 < y1 then 1 else -1) * ((y1 - y0).natAbs : Int) = y1) ∧
    (walk x0 y0 x1 y0 = some ((List.range (x1 - x0).natAbs).map fun (k : Nat) =>
        (x0 + (if x0 < x1 then 1 else -1) * (k : Int), y0)) ∧
      x0 + (if x0 < x1 then 1 else -1) * ((x1 - x0).natAbs : Int) = x1) := by
  refine ⟨⟨?_, ?_⟩, ⟨?_, ?_⟩⟩
  · by_cases hy : y1 - y0 = 0
    · have e : y1 = y0 := by omega
      subst e
      simp [walk_self]
    · have h := walkLoop_vertical x0 y0 y1 (if x0 < x0 then 1 else -1)
        (if y0 < y1 then 1 else -1) (sign_cases x0 x0) (sign_cases y0 y1) hy
        (y1 - y0).natAbs y0 (sign_mul_sub y0 y1)
      unfold walk
      simpa using h
  · have h := sign_mul_sub y0 y1
    split_ifs at h ⊢ <;> linarith
  · by_cases hx : x1 - x0 = 0
    · have e : x1 = x0 := by omega
      subst e
      simp [walk_self]
    · have h := walkLoop_horizontal x0 y0 x1 (if x0 < x1 then 1 else -1)
        (if y0 < y0 then 1 else -1) (sign_cases x0 x1) hx
        (x1 - x0).natAbs x0 (sign_mul_sub x0 x1)
      unfold walk
      simpa using h
  · have h := sign_mul_sub x0 x1
    split_ifs at h ⊢ <;> linarith

/-- In exact arithmetic (blockers only shrink the light): the walk of a ray is the same on
every map; for two maps with the same `OOB` where every tile blocking sight in
`m1` blocks sight in `m2`, both refreshes return, every tile on which the one on
`m2` calls `Lit` receives `Lit` on `m1`, and from a common grid every tile lit
after the refresh on `m2` is lit after the refresh on `m1`. -/
theorem blockers_shrink_light_exact (m1 m2 : Map) (g : Grid) (px py r : Int)
    (hoob : ∀ x y, m1.OOB x y = m2.OOB x y)
    (hcst : ∀ x y, m1.CantSeeThrough x y = true → m2.CantSeeThrough x y = true) :
    (∀ x0 y0 x1 y1, ∃ w, walk x0 y0 x1 y1 = some w ∧
      los m1 x0 y0 x1 y1 = some (losAlong m1 x1 y1 w) ∧
      los m2 x0 y0 x1 y1 = some (losAlong m2 x1 y1 w)) ∧
    ∃ t1 t2, CalcVisibility m1 px py r = some t1 ∧ CalcVisibility m2 px py r = some t2 ∧
      (∀ x y, Call.Lit x y ∈ t2 → Call.Lit x y ∈ t1) ∧
      ∀ x y, (g.run t2).lit x y = true → (g.run t1).lit x y = true := by
  have key : ∀ x y, Call.Lit x y ∈ (fovRays px py r).flatMap (rayTrace m2) →
      Call.Lit x y ∈ (fovRays px py r).flatMap (rayTrace m1) := by
    intro x y h
    obtain ⟨q, hq, hl⟩ := List.mem_flatMap.mp h
    obtain ⟨h1, h2, h3⟩ := (lit_mem_rayTrace m2 q x y).mp hl
    refine List.mem_flatMap.mpr ⟨q, hq, (lit_mem_rayTrace m1 q x y).mpr ⟨h1, h2, ?_⟩⟩
    intro w hw p hp
    obtain ⟨c1, c2⟩ := h3 w hw p hp
    refine ⟨by rw [hoob]; exact c1, ?_⟩
    cases hb : m1.CantSeeThrough p.1 p.2
    · rfl
    · rw [hcst _ _ hb] at c2
      cases c2
  refine ⟨?_, _, _, CalcVisibility_eq m1 px py r, CalcVisibility_eq m2 px py r, ?_, ?_⟩
  · intro x0 y0 x1 y1
    obtain ⟨w, hw⟩ := walk_isSome x0 y0 x1 y1
    refine ⟨w, hw, ?_, ?_⟩
    · rw [los_eq_rayTrace, rayTrace_eq m1 x0 y0 x1 y1 w hw]
    · rw [los_eq_rayTrace, rayTrace_eq m2 x0 y0 x1 y1 w hw]
  · intro x y h
    rw [lit_mem_CalcVisibility_trace] at h ⊢
    exact key x y h
  · intro x y h
    rw [lit_run_refresh] at h ⊢
    rcases h with h | h
    · exact Or.inl (key x y h)
    · exact Or.inr h

namespace Go

/-! ## The `int` model agrees with exact arithmetic in range -/

theorem wrap_eq (z : Int) (h1 : -9223372036854775808 ≤ z) (h2 : z ≤ 9223372036854775807) :
    wrap z = z := by
  unfold wrap
  omega

theorem mul_bound (a b A B : Int) (ha1 : -A ≤ a) (ha2 : a ≤ A) (hb1 : -B ≤ b) (hb2 : b ≤ B) :
    -(A * B) ≤ a * b ∧ a * b ≤ A * B := by
  have hA : 0 ≤ A := by omega
  have hB : 0 ≤ B := by omega
  constructor
  · nlinarith [mul_nonneg (by omega : (0 : Int) ≤ A - a) (by omega : (0 : Int) ≤ B + b),
      mul_nonneg (by omega : (0 : Int) ≤ A + a) (by omega : (0 : Int) ≤ B - b)]
  · nlinarith [mul_nonneg (by omega : (0 : Int) ≤ A - a) (by omega : (0 : Int) ≤ B - b),
      mul_nonneg (by omega : (0 : Int) ≤ A + a) (by omega : (0 : Int) ≤ B + b)]

/-- In the exact range the `float64` test is the integer test. -/
theorem near_inRange (fl : Int → Int → Bool) (c n : Int) (hn : 0 < n)
    (hn2 : n ≤ 9007199254740992) (hc1 : -16777216 ≤ c) (hc2 : c ≤ 16777216) :
    near fl c n = Los.near c n := by
  unfold near Los.near
  have hnat : c.natAbs ≤ 16777216 := by omega
  by_cases h : n ≤ c * c
  · have : ¬ 4 * (c * c) < n := by nlinarith
    simp [not_le.mpr hn, h, this]
  · simp [not_le.mpr hn, h, hnat, hn2]

/-- A deviation that passes the test of a ray in range is at most `2^23`. -/
theorem dev_bound (D n : Int) (h : 4 * (D * D) < n) (hn : n ≤ 140737488355328) :
    -8388608 ≤ D ∧ D ≤ 8388608 := by
  constructor
  · by_contra hcon
    have : 8388608 ≤ -D := by omega
    nlinarith [mul_self_le_mul_self (by norm_num : (0 : Int) ≤ 8388608) this]
  · by_contra hcon
    have : 8388608 ≤ D := by omega
    nlinarith [mul_self_le_mul_self (by norm_num : (0 : Int) ≤ 8388608) this]

end Go

namespace Go

/-- At a position satisfying the loop invariant of a ray in range, the step in
`int` arithmetic is the exact step. -/
theorem losStep_inRange (fl : Int → Int → Bool) (x0 y0 x1 y1 sx sy x y : Int)
    (hsx : sx = 1 ∨ sx = -1) (hsy : sy = 1 ∨ sy = -1) (hr : RayInRange x0 y0 x1 y1)
    (hI : OnRay x0 y0 x1 y1 sx sy x y) :
    losStep fl x0 y0 (x1 - x0) (y1 - y0) sx sy x y =
      Los.losStep x0 y0 (x1 - x0) (y1 - y0) sx sy x y := by
  obtain ⟨h1, h2, h3, h4, h5⟩ := hI
  obtain ⟨r1, r2, r3, r4, r5, r6, r7, r8⟩ := hr
  have hux : -8388608 ≤ x - x0 ∧ x - x0 ≤ 8388608 := by
    rcases hsx with rfl | rfl <;> constructor <;> linarith
  have huy : -8388608 ≤ y - y0 ∧ y - y0 ≤ 8388608 := by
    rcases hsy with rfl | rfl <;> constructor <;> linarith
  have hsxb : -1 ≤ sx ∧ sx ≤ 1 := by rcases hsx with rfl | rfl <;> constructor <;> norm_num
  have hsyb : -1 ≤ sy ∧ sy ≤ 1 := by rcases hsy with rfl | rfl <;> constructor <;> norm_num
  have p1 := mul_bound (y1 - y0) (x - x0) 8388608 8388608 r7 r8 hux.1 hux.2
  have p2 := mul_bound (x1 - x0) (y - y0) 8388608 8388608 r5 r6 huy.1 huy.2
  have p3 := mul_bound (x1 - x0) (x1 - x0) 8388608 8388608 r5 r6 r5 r6
  have p4 := mul_bound (y1 - y0) (y1 - y0) 8388608 8388608 r7 r8 r7 r8
  have p5 := mul_bound (y1 - y0) sx 8388608 1 r7 r8 hsxb.1 hsxb.2
  have p6 := mul_bound (x1 - x0) sy 8388608 1 r5 r6 hsyb.1 hsyb.2
  have hn : 0 < (x1 - x0) * (x1 - x0) + (y1 - y0) * (y1 - y0) := by
    nlinarith [mul_self_nonneg ((y1 - y0) * (x - x0) - (x1 - x0) * (y - y0))]
  have hD := dev_bound _ _ h5 (by linarith)
  have e1 : sub64 x x0 = x - x0 := wrap_eq _ (by linarith) (by linarith)
  have e2 : sub64 y y0 = y - y0 := wrap_eq _ (by linarith) (by linarith)
  have e3 : add64 (x - x0) sx = x - x0 + sx := wrap_eq _ (by linarith) (by linarith)
  have e4 : add64 (y - y0) sy = y - y0 + sy := wrap_eq _ (by linarith) (by linarith)
  have e5 : mul64 (y1 - y0) (x - x0 + sx) = (y1 - y0) * (x - x0 + sx) :=
    wrap_eq _ (by linarith) (by linarith)
  have e6 : mul64 (x1 - x0) (y - y0) = (x1 - x0) * (y - y0) :=
    wrap_eq _ (by linarith) (by linarith)
  have e7 : mul64 (y1 - y0) (x - x0) = (y1 - y0) * (x - x0) :=
    wrap_eq _ (by linarith) (by linarith)
  have e8 : mul64 (x1 - x0) (y - y0 + sy) = (x1 - x0) * (y - y0 + sy) :=
    wrap_eq _ (by linarith) (by linarith)
  have e9 : sub64 ((y1 - y0) * (x - x0 + sx)) ((x1 - x0) * (y - y0)) =
      (y1 - y0) * (x - x0 + sx) - (x1 - x0) * (y - y0) :=
    wrap_eq _ (by linarith) (by linarith)
  have e10 : sub64 ((y1 - y0) * (x - x0)) ((x1 - x0) * (y - y0 + sy)) =
      (y1 - y0) * (x - x0) - (x1 - x0) * (y - y0 + sy) :=
    wrap_eq _ (by linarith) (by linarith)
  have e11 : mul64 (x1 - x0) (x1 - x0) = (x1 - x0) * (x1 - x0) :=
    wrap_eq _ (by linarith) (by linarith)
  have e12 : mul64 (y1 - y0) (y1 - y0) = (y1 - y0) * (y1 - y0) :=
    wrap_eq _ (by linarith) (by linarith)
  have e13 : add64 ((x1 - x0) * (x1 - x0)) ((y1 - y0) * (y1 - y0)) =
      (x1 - x0) * (x1 - x0) + (y1 - y0) * (y1 - y0) :=
    wrap_eq _ (by linarith) (by linarith)
  have e14 : add64 x sx = x + sx := wrap_eq _ (by linarith) (by linarith)
  have e15 : add64 y sy = y + sy := wrap_eq _ (by linarith) (by linarith)
  have n1 := near_inRange fl ((y1 - y0) * (x - x0 + sx) - (x1 - x0) * (y - y0))
    ((x1 - x0) * (x1 - x0) + (y1 - y0) * (y1 - y0)) hn (by linarith) (by linarith)
    (by linarith)
  have n2 := near_inRange fl ((y1 - y0) * (x - x0) - (x1 - x0) * (y - y0 + sy))
    ((x1 - x0) * (x1 - x0) + (y1 - y0) * (y1 - y0)) hn (by linarith) (by linarith)
    (by linarith)
  unfold losStep Los.losStep
  simp only [e1, e2, e3, e4, e5, e6, e7, e8, e9, e10, e11, e12, e13, e14, e15, n1, n2]

end Go

/-! ## Fuel -/

/-- One more unit of fuel does not change a walk that ended. -/
theorem walkLoop_succ (x0 y0 x1 y1 dx dy sx sy : Int) :
    ∀ (fuel : Nat) (x y : Int) (w : List (Int × Int)),
      walkLoop x0 y0 x1 y1 dx dy sx sy fuel x y = some w →
      walkLoop x0 y0 x1 y1 dx dy sx sy (fuel + 1) x y = some w := by
  intro fuel
  induction fuel with
  | zero =>
    intro x y w hw
    by_cases hne : x ≠ x1 ∨ y ≠ y1
    · simp [walkLoop, hne] at hw
    · simp only [walkLoop, if_neg hne] at hw ⊢
      exact hw
  | succ n ih =>
    intro x y w hw
    by_cases hne : x ≠ x1 ∨ y ≠ y1
    · rw [walkLoop, if_pos hne] at hw
      simp only [Option.map_eq_some'] at hw
      obtain ⟨w', hw', rfl⟩ := hw
      rw [walkLoop, if_pos hne]
      simp only [ih _ _ _ hw', Option.map_some']
    · simp only [walkLoop, if_neg hne] at hw ⊢
      exact hw

theorem walkLoop_le (x0 y0 x1 y1 dx dy sx sy : Int) (fuel : Nat) (x y : Int)
    (w : List (Int × Int)) (hw : walkLoop x0 y0 x1 y1 dx dy sx sy fuel x y = some w) :
    ∀ k : Nat, walkLoop x0 y0 x1 y1 dx dy sx sy (fuel + k) x y = some w := by
  intro k
  induction k with
  | zero => exact hw
  | succ k ih => exact walkLoop_succ _ _ _ _ _ _ _ _ _ _ _ _ ih

/-- The invariant holds at the observer of a ray with a target elsewhere. -/
theorem onRay_start (x0 y0 x1 y1 : Int) (hne : x0 ≠ x1 ∨ y0 ≠ y1) :
    OnRay x0 y0 x1 y1 (if x0 < x1 then 1 else -1) (if y0 < y1 then 1 else -1) x0 y0 := by
  have hx := sign_mul_sub x0 x1
  have hy := sign_mul_sub y0 y1
  refine ⟨by simp, ?_, by simp, ?_, ?_⟩
  · rw [hx]; exact Int.ofNat_nonneg _
  · rw [hy]; exact Int.ofNat_nonneg _
  · have e : (y1 - y0) * (x0 - x0) - (x1 - x0) * (y0 - y0) = 0 := by ring
    rw [e]
    rcases hne with h | h
    · have : x1 - x0 ≠ 0 := fun e => h (by linarith)
      nlinarith [mul_self_pos.mpr this, mul_self_nonneg (y1 - y0)]
    · have : y1 - y0 ≠ 0 := fun e => h (by linarith)
      nlinarith [mul_self_pos.mpr this, mul_self_nonneg (x1 - x0)]

/-- With any fuel from `|dx| + |dy|` on, the exact loop of `los` gives the trace
along the walk. -/
theorem losLoop_fuel (m : Map) (x0 y0 x1 y1 : Int) (fuel : Nat)
    (hF : (x1 - x0).natAbs + (y1 - y0).natAbs ≤ fuel) :
    losLoop m x0 y0 x1 y1 (x1 - x0) (y1 - y0) (if x0 < x1 then 1 else -1)
        (if y0 < y1 then 1 else -1) fuel x0 y0 = some (rayTrace m ⟨x0, y0, x1, y1⟩) ∧
      walkLoop x0 y0 x1 y1 (x1 - x0) (y1 - y0) (if x0 < x1 then 1 else -1)
        (if y0 < y1 then 1 else -1) fuel x0 y0 = walk x0 y0 x1 y1 := by
  obtain ⟨w, hw⟩ := walk_isSome x0 y0 x1 y1
  have hw' := hw
  unfold walk at hw'
  have h := walkLoop_le _ _ _ _ _ _ _ _ _ _ _ _ hw' (fuel - ((x1 - x0).natAbs + (y1 - y0).natAbs))
  rw [Nat.add_sub_cancel' hF] at h
  refine ⟨?_, by rw [h, hw]⟩
  rw [rayTrace_eq m x0 y0 x1 y1 w hw]
  exact losLoop_of_walkLoop m _ _ _ _ _ _ _ _ _ _ _ _ h

namespace Go

theorem losLoop_inRange (fl : Int → Int → Bool) (m : Map) (x0 y0 x1 y1 sx sy : Int)
    (hsx : sx = 1 ∨ sx = -1) (hsy : sy = 1 ∨ sy = -1) (hr : RayInRange x0 y0 x1 y1) :
    ∀ (fuel : Nat) (x y : Int),
      ((x ≠ x1 ∨ y ≠ y1) → OnRay x0 y0 x1 y1 sx sy x y) →
      losLoop fl m x0 y0 x1 y1 (x1 - x0) (y1 - y0) sx sy fuel x y =
        Los.losLoop m x0 y0 x1 y1 (x1 - x0) (y1 - y0) sx sy fuel x y := by
  intro fuel
  induction fuel with
  | zero => intro x y _; rfl
  | succ n ih =>
    intro x y hI
    by_cases hne : x ≠ x1 ∨ y ≠ y1
    · have hstep := losStep_inRange fl x0 y0 x1 y1 sx sy x y hsx hsy hr (hI hne)
      have hnext := (losStep_onRay x0 y0 x1 y1 sx sy x y hsx hsy hne (hI hne)).1
      have := ih _ _ (fun _ => hnext)
      rw [losLoop, Los.losLoop]
      simp only [if_pos hne, hstep, this]
    · rw [losLoop, Los.losLoop]
      simp only [if_neg hne]

theorem walkLoop_inRange (fl : Int → Int → Bool) (x0 y0 x1 y1 sx sy : Int)
    (hsx : sx = 1 ∨ sx = -1) (hsy : sy = 1 ∨ sy = -1) (hr : RayInRange x0 y0 x1 y1) :
    ∀ (fuel : Nat) (x y : Int),
      ((x ≠ x1 ∨ y ≠ y1) → OnRay x0 y0 x1 y1 sx sy x y) →
      walkLoop fl x0 y0 x1 y1 (x1 - x0) (y1 - y0) sx sy fuel x y =
        Los.walkLoop x0 y0 x1 y1 (x1 - x0) (y1 - y0) sx sy fuel x y := by
  intro fuel
  induction fuel with
  | zero => intro x y _; rfl
  | succ n ih =>
    intro x y hI
    by_cases hne : x ≠ x1 ∨ y ≠ y1
    · have hstep := losStep_inRange fl x0 y0 x1 y1 sx sy x y hsx hsy hr (hI hne)
      have hnext := (losStep_onRay x0 y0 x1 y1 sx sy x y hsx hsy hne (hI hne)).1
      have := ih _ _ (fun _ => hnext)
      rw [walkLoop, Los.walkLoop]
      simp only [if_pos hne, hstep, this]
    · rw [walkLoop, Los.walkLoop]
      simp only [if_neg hne]

theorem sub64_delta (x0 x1 : Int) (h3 : -8388608 ≤ x1 - x0) (h4 : x1 - x0 ≤ 8388608) :
    sub64 x1 x0 = x1 - x0 :=
  wrap_eq _ (by omega) (by omega)

/-- In range, with fuel from `|dx| + |dy|` on, `los` in `int` arithmetic returns
the trace along the exact walk. -/
theorem los_inRange (fl : Int → Int → Bool) (fuel : Nat) (m : Map) (x0 y0 x1 y1 : Int)
    (hr : RayInRange x0 y0 x1 y1)
    (hF : (x1 - x0).natAbs + (y1 - y0).natAbs ≤ fuel) :
    los fl fuel m x0 y0 x1 y1 = some (rayTrace m ⟨x0, y0, x1, y1⟩) := by
  unfold los
  simp only [sub64_delta x0 x1 hr.2.2.2.2.1 hr.2.2.2.2.2.1,
    sub64_delta y0 y1 hr.2.2.2.2.2.2.1 hr.2.2.2.2.2.2.2]
  rw [losLoop_inRange fl m x0 y0 x1 y1 _ _ (sign_cases x0 x1) (sign_cases y0 y1) hr fuel x0 y0
    (onRay_start x0 y0 x1 y1)]
  exact (losLoop_fuel m x0 y0 x1 y1 fuel hF).1

/-- In range, with fuel from `|dx| + |dy|` on, the walk in `int` arithmetic is
the exact walk. -/
theorem walk_inRange (fl : Int → Int → Bool) (fuel : Nat) (x0 y0 x1 y1 : Int)
    (hr : RayInRange x0 y0 x1 y1)
    (hF : (x1 - x0).natAbs + (y1 - y0).natAbs ≤ fuel) :
    walk fl fuel x0 y0 x1 y1 = Los.walk x0 y0 x1 y1 := by
  unfold walk
  simp only [sub64_delta x0 x1 hr.2.2.2.2.1 hr.2.2.2.2.2.1,
    sub64_delta y0 y1 hr.2.2.2.2.2.2.1 hr.2.2.2.2.2.2.2]
  rw [walkLoop_inRange fl x0 y0 x1 y1 _ _ (sign_cases x0 x1) (sign_cases y0 y1) hr fuel x0 y0
    (onRay_start x0 y0 x1 y1)]
  exact (losLoop_fuel openMap x0 y0 x1 y1 fuel hF).2

/-- In range `clearlight` in `int` arithmetic is the exact one. -/
theorem clearlight_inRange (m : Map) (px py r : Int) (hr : InRange px py r) :
    clearlight m px py r = Los.clearlight m px py r := by
  obtain ⟨h1, h2, h3, h4, h5, h6⟩ := hr
  unfold clearlight Los.clearlight sub64 add64
  rw [wrap_eq (px - r) (by omega) (by omega), wrap_eq (px - r - 1) (by omega) (by omega),
    wrap_eq (px + r) (by omega) (by omega), wrap_eq (px + r + 1) (by omega) (by omega),
    wrap_eq (py - r) (by omega) (by omega), wrap_eq (py - r - 1) (by omega) (by omega),
    wrap_eq (py + r) (by omega) (by omega), wrap_eq (py + r + 1) (by omega) (by omega)]

/-- In range the rays of `fov` in `int` arithmetic are the exact ones. -/
theorem fovRays_inRange (x y r : Int) (hr : InRange x y r) :
    fovRays x y r = some (Los.fovRays x y r) := by
  obtain ⟨h1, h2, h3, h4, h5, h6⟩ := hr
  unfold fovRays Los.fovRays
  have hmax : r ≠ maxInt := by unfold maxInt; omega
  have hneg : neg64 r = -r := wrap_eq _ (by omega) (by omega)
  have hrr := mul_bound r r 8388608 8388608 (by omega) h6 (by omega) h6
  have err : mul64 r r = r * r := wrap_eq _ (by linarith) (by linarith)
  rw [if_neg hmax, hneg]
  congr 1
  apply List.flatMap_congr
  intro i hi
  obtain ⟨hi1, hi2⟩ := (mem_intRange _ _ _).mp hi
  apply List.flatMap_congr
  intro j hj
  obtain ⟨hj1, hj2⟩ := (mem_intRange _ _ _).mp hj
  have hii := mul_bound i i 8388608 8388608 (by omega) (by omega) (by omega) (by omega)
  have hjj := mul_bound j j 8388608 8388608 (by omega) (by omega) (by omega) (by omega)
  have e1 : mul64 i i = i * i := wrap_eq _ (by linarith) (by linarith)
  have e2 : mul64 j j = j * j := wrap_eq _ (by linarith) (by linarith)
  have e3 : add64 (i * i) (j * j) = i * i + j * j := wrap_eq _ (by linarith) (by linarith)
  have e4 : add64 x i = x + i := wrap_eq _ (by omega) (by omega)
  have e5 : add64 y j = y + j := wrap_eq _ (by omega) (by omega)
  simp only [e1, e2, e3, e4, e5, err]

/-- In range, with fuel from `2r` on, `fov` in `int` arithmetic returns the
traces of the exact rays one after the other. -/
theorem fov_inRange (fl : Int → Int → Bool) (fuel : Nat) (m : Map) (px py r : Int)
    (hr : InRange px py r) (hF : 2 * r ≤ (fuel : Int)) :
    fov fl fuel m px py r = some ((Los.fovRays px py r).flatMap (rayTrace m)) := by
  unfold fov
  rw [fovRays_inRange px py r hr, Option.some_bind]
  apply seqTraces_map (fun q => los fl fuel m q.x0 q.y0 q.x1 q.y1) (rayTrace m)
  intro q hq
  obtain ⟨e0, e1, b1, b2, b3, b4, _⟩ := (mem_fovRays px py r q).mp hq
  obtain ⟨h1, h2, h3, h4, h5, h6⟩ := hr
  apply los_inRange
  · rw [e0, e1]
    exact ⟨h1, h2, h3, h4, by omega, by omega, by omega, by omega⟩
  · rw [e0, e1]
    omega

/-- In range, with fuel from `2r` on, `CalcVisibility` in `int` arithmetic
returns the exact trace: the reset, then the rays one after the other. -/
theorem CalcVisibility_inRange (fl : Int → Int → Bool) (fuel : Nat) (m : Map)
    (px py r : Int) (hr : InRange px py r) (hF : 2 * r ≤ (fuel : Int)) :
    CalcVisibility fl fuel m px py r =
      some (Los.clearlight m px py r ++ (Los.fovRays px py r).flatMap (rayTrace m)) := by
  unfold CalcVisibility
  rw [fov_inRange fl fuel m px py r hr hF, clearlight_inRange m px py r hr]
  rfl

/-- The fuel `2r` written as a natural number. -/
theorem fuel_two_r (r : Int) (h : 0 ≤ r) : 2 * r ≤ ((2 * r).toNat : Int) := by
  omega

end Go

namespace Go

/-! ## Runs outside the range -/

theorem near_zero (fl : Int → Int → Bool) (c : Int) : near fl c 0 = false := by
  simp [near]

/-- With `dist = sqrt(2)` an odd cross product fails the test. -/
theorem near_two_odd (fl : Int → Int → Bool) (c : Int) (hodd : c % 2 = 1) :
    near fl c 2 = false := by
  unfold near
  by_cases h : (2 : Int) ≤ c * c
  · simp [h]
  · have hc : c ≠ 0 := by
      intro e
      rw [e] at hodd
      simp at hodd
    have h1 : 0 < c * c := mul_self_pos.mpr hc
    have h2 : ¬ 4 * (c * c) < 2 := by omega
    have h3 : -1 ≤ c ∧ c ≤ 1 := by
      constructor
      · by_contra hcon
        nlinarith
      · by_contra hcon
        nlinarith
    have h4 : c.natAbs ≤ 16777216 := by omega
    simp [h, h2, h4]

/-- The ray from `(0, 0)` to `(2^32, 0)`: `dx*dx` wraps to `0`, both tests fail
and every step is diagonal, so `x + y` stays `0` modulo `2^64` and the target is
never met. -/
theorem losLoop_wrapped_dist (fl : Int → Int → Bool) :
    ∀ (fuel : Nat) (x y : Int), (x + y) % 18446744073709551616 = 0 →
      losLoop fl openMap 0 0 4294967296 0 4294967296 0 1 (-1) fuel x y = none := by
  have hn : add64 (mul64 4294967296 4294967296) (mul64 0 0) = 0 := by decide
  intro fuel
  induction fuel with
  | zero =>
    intro x y h
    have hne : x ≠ 4294967296 ∨ y ≠ 0 := by omega
    simp only [losLoop, if_pos hne]
  | succ n ih =>
    intro x y h
    have hne : x ≠ 4294967296 ∨ y ≠ 0 := by omega
    have hstep : losStep fl 0 0 4294967296 0 1 (-1) x y = (add64 x 1, add64 y (-1)) := by
      simp only [losStep, hn, near_zero, Bool.false_eq_true, if_false]
    have hnext : (add64 x 1 + add64 y (-1)) % 18446744073709551616 = 0 := by
      unfold add64 wrap
      omega
    have ho : openMap.OOB x y = false := rfl
    have hb : openMap.CantSeeThrough x y = false := rfl
    rw [losLoop, if_pos hne]
    simp only [ho, hb, Bool.false_eq_true, if_false, hstep, ih _ _ hnext, Option.map_none']

theorem los_wrapped_dist (fl : Int → Int → Bool) (fuel : Nat) :
    los fl fuel openMap 0 0 4294967296 0 = none := by
  have h := losLoop_wrapped_dist fl fuel 0 0 (by decide)
  unfold los
  have e1 : sub64 4294967296 0 = 4294967296 := by decide
  have e2 : sub64 0 0 = 0 := by decide
  simp only [e1, e2]
  exact h

/-- The ray from `(-2^63, 0)` to the wrapped target `(2^63 - 1, -1)`: `dx` wraps
to `-1`, the cross products stay odd, both tests fail and every step is
diagonal away from the target. -/
theorem losLoop_wrapped_target (fl : Int → Int → Bool) :
    ∀ (fuel : Nat) (x y : Int), (x + y + 9223372036854775808) % 18446744073709551616 = 0 →
      losLoop fl openMap (-9223372036854775808) 0 9223372036854775807 (-1) (-1) (-1) 1 (-1)
        fuel x y = none := by
  have hn : add64 (mul64 (-1) (-1)) (mul64 (-1) (-1)) = 2 := by decide
  intro fuel
  induction fuel with
  | zero =>
    intro x y h
    have hne : x ≠ 9223372036854775807 ∨ y ≠ -1 := by omega
    simp only [losLoop, if_pos hne]
  | succ n ih =>
    intro x y h
    have hne : x ≠ 9223372036854775807 ∨ y ≠ -1 := by omega
    have c1 : (sub64 (mul64 (-1) (add64 (sub64 x (-9223372036854775808)) 1))
        (mul64 (-1) (sub64 y 0))) % 2 = 1 := by
      unfold sub64 mul64 add64 wrap
      omega
    have c2 : (sub64 (mul64 (-1) (sub64 x (-9223372036854775808)))
        (mul64 (-1) (add64 (sub64 y 0) (-1)))) % 2 = 1 := by
      unfold sub64 mul64 add64 wrap
      omega
    have hstep : losStep fl (-9223372036854775808) 0 (-1) (-1) 1 (-1) x y =
        (add64 x 1, add64 y (-1)) := by
      simp only [losStep, hn, near_two_odd fl _ c1, near_two_odd fl _ c2, Bool.false_eq_true,
        if_false]
    have hnext : (add64 x 1 + add64 y (-1) + 9223372036854775808) % 18446744073709551616 = 0 := by
      unfold add64 wrap
      omega
    have ho : openMap.OOB x y = false := rfl
    have hb : openMap.CantSeeThrough x y = false := rfl
    rw [losLoop, if_pos hne]
    simp only [ho, hb, Bool.false_eq_true, if_false, hstep, ih _ _ hnext, Option.map_none']

theorem los_wrapped_target (fl : Int → Int → Bool) (fuel : Nat) :
    los fl fuel openMap (-9223372036854775808) 0 9223372036854775807 (-1) = none := by
  have h := losLoop_wrapped_target fl fuel (-9223372036854775808) 0 (by decide)
  unfold los
  have e1 : sub64 9223372036854775807 (-9223372036854775808) = -1 := by decide
  have e2 : sub64 (-1) 0 = -1 := by decide
  have e3 : ((-9223372036854775808 : Int) < 9223372036854775807) := by decide
  have e4 : ¬ ((0 : Int) < -1) := by decide
  simp only [e1, e2, if_pos e3, if_neg e4]
  exact h

end Go

namespace Go

/-! ## Further facts of the `int` model -/

/-- In range `CalcVisibility` in `int` arithmetic is the exact one. -/
theorem CalcVisibility_exact (fl : Int → Int → Bool) (m : Map) (px py r : Int)
    (hr : InRange px py r) :
    CalcVisibility fl (2 * r).toNat m px py r = Los.CalcVisibility m px py r := by
  rw [CalcVisibility_inRange fl _ m px py r hr (fuel_two_r r hr.2.2.2.2.1),
    Los.CalcVisibility_eq]

/-- The rays of `fov` in `int` arithmetic, for a radius other than `maxInt`. -/
theorem mem_fovRays_int (x y r : Int) (rays : List Ray) (h : fovRays x y r = some rays)
    (q : Ray) :
    q ∈ rays ↔ ∃ i j, neg64 r ≤ i ∧ i ≤ r ∧ neg64 r ≤ j ∧ j ≤ r ∧
      add64 (mul64 i i) (mul64 j j) < mul64 r r ∧ q = Ray.mk x y (add64 x i) (add64 y j) := by
  unfold fovRays at h
  split_ifs at h
  simp only [Option.some.injEq] at h
  subst h
  simp only [List.mem_flatMap, mem_intRange]
  constructor
  · rintro ⟨i, ⟨hi1, hi2⟩, j, ⟨hj1, hj2⟩, hq⟩
    split_ifs at hq with hc
    · simp only [List.mem_singleton] at hq
      exact ⟨i, j, hi1, by omega, hj1, by omega, hc, hq⟩
    · cases hq
  · rintro ⟨i, j, hi1, hi2, hj1, hj2, hc, rfl⟩
    refine ⟨i, ⟨hi1, by omega⟩, j, ⟨hj1, by omega⟩, ?_⟩
    rw [if_pos hc]
    exact List.mem_singleton.mpr rfl

/-- In range the log of refreshes in `int` arithmetic is the exact one. -/
theorem refreshLog_exact (fl : Int → Int → Bool) (m : Map) (r : Int) :
    ∀ (os : List (Int × Int)) (g : Grid), (∀ o ∈ os, InRange o.1 o.2 r) →
      refreshLog fl (2 * r).toNat m r g os = Los.refreshLog m r g os := by
  intro os
  induction os with
  | nil => intro g _; rfl
  | cons o os ih =>
    intro g h
    rw [refreshLog, Los.refreshLog, CalcVisibility_exact fl m o.1 o.2 r (h o (List.mem_cons_self _ _))]
    congr 1
    funext t
    rw [ih (g.run t) (fun o' ho' => h o' (List.mem_cons_of_mem _ ho'))]

/-- On the map with no bound and no obstacle, `CalcVisibility` at origin
`(-2^63, 0)` with radius 2 never returns: its first ray goes to the wrapped
target `(2^63 - 1, -1)`. -/
theorem CalcVisibility_wrapped_target (fl : Int → Int → Bool) (fuel : Nat) :
    CalcVisibility fl fuel openMap minInt 0 2 = none := by
  have hrays : ∃ rest, fovRays minInt 0 2 = some (Ray.mk minInt 0 maxInt (-1) :: rest) :=
    ⟨_, rfl⟩
  obtain ⟨rest, hrest⟩ := hrays
  have hlos : los fl fuel openMap minInt 0 maxInt (-1) = none := los_wrapped_target fl fuel
  unfold CalcVisibility fov
  rw [hrest]
  simp only [Option.some_bind, List.map_cons, seqTraces, hlos, Option.none_bind, Option.map_none']

end Go

/-! ## The claims of the specification -/

/-- C1, counterexample: in the corridor with its one obstacle at `(3, 0)`, the
refresh at `(0, 0)` with radius 10 from the dark grid leaves `(3, 0)` lit. -/
theorem occlusion_cutoff_counterexample :
    (∀ k ∈ ([0, 1, 2, 3, 4, 5] : List Int), corridor.OOB k 0 = false) ∧
    (∀ k ∈ ([0, 1, 2, 4, 5] : List Int), corridor.CantSeeThrough k 0 = false) ∧
    corridor.CantSeeThrough 3 0 = true ∧
    ∃ t, CalcVisibility corridor 0 0 10 = some t ∧ (Grid.dark.run t).lit 3 0 = true := by
  refine ⟨by decide, by decide, by decide, _, CalcVisibility_eq corridor 0 0 10, ?_⟩
  rw [lit_run_refresh]
  left
  refine List.mem_flatMap.mpr ⟨Ray.mk 0 0 3 0, (mem_fovRays 0 0 10 _).mpr (by decide), ?_⟩
  refine (lit_mem_rayTrace corridor _ 3 0).mpr ⟨rfl, rfl, ?_⟩
  intro w hw
  have e : walk 0 0 3 0 = some [(0, 0), (1, 0), (2, 0)] := by decide
  simp only [e, Option.some.injEq] at hw
  subst hw
  decide

/-- C1, amended (occlusion cutoff): on every map whose tiles `(0,0)`..`(5,0)` are
in bounds and of which only `(3,0)` blocks sight, the refresh at `(0, 0)` with
radius 10 from the dark grid returns; afterwards `(0,0)`..`(3,0)` are
discovered, `(3,0)` is lit as well, by the ray whose target it is, and no
`Lit`, `Discover` or `Activate` call is on `(4,0)` or `(5,0)`. -/
theorem occlusion_cutoff (m : Map)
    (hin : ∀ k ∈ ([0, 1, 2, 3, 4, 5] : List Int), m.OOB k 0 = false)
    (hopen : ∀ k ∈ ([0, 1, 2, 4, 5] : List Int), m.CantSeeThrough k 0 = false)
    (hwall : m.CantSeeThrough 3 0 = true) :
    ∃ t, CalcVisibility m 0 0 10 = some t ∧
      (∀ k ∈ ([0, 1, 2, 3] : List Int), (Grid.dark.run t).discovered k 0 = true) ∧
      (Grid.dark.run t).lit 3 0 = true ∧
      ∀ c ∈ t, c.isMark = true → c.tile ≠ (4, 0) ∧ c.tile ≠ (5, 0) := by
  have c0 : m.OOB 0 0 = false ∧ m.CantSeeThrough 0 0 = false :=
    ⟨hin 0 (by decide), hopen 0 (by decide)⟩
  have c1 : m.OOB 1 0 = false ∧ m.CantSeeThrough 1 0 = false :=
    ⟨hin 1 (by decide), hopen 1 (by decide)⟩
  have c2 : m.OOB 2 0 = false ∧ m.CantSeeThrough 2 0 = false :=
    ⟨hin 2 (by decide), hopen 2 (by decide)⟩
  have w0 : ∀ w, walk 0 0 0 0 = some w →
      ∀ p ∈ w, m.OOB p.1 p.2 = false ∧ m.CantSeeThrough p.1 p.2 = false := by
    intro w hw p hp
    have e : walk 0 0 0 0 = some [] := by decide
    simp only [e, Option.some.injEq] at hw
    subst hw
    cases hp
  have w1 : ∀ w, walk 0 0 1 0 = some w →
      ∀ p ∈ w, m.OOB p.1 p.2 = false ∧ m.CantSeeThrough p.1 p.2 = false := by
    intro w hw p hp
    have e : walk 0 0 1 0 = some [(0, 0)] := by decide
    simp only [e, Option.some.injEq] at hw
    subst hw
    simp only [List.mem_singleton] at hp
    subst hp
    exact c0
  have w2 : ∀ w, walk 0 0 2 0 = some w →
      ∀ p ∈ w, m.OOB p.1 p.2 = false ∧ m.CantSeeThrough p.1 p.2 = false := by
    intro w hw p hp
    have e : walk 0 0 2 0 = some [(0, 0), (1, 0)] := by decide
    simp only [e, Option.some.injEq] at hw
    subst hw
    simp only [List.mem_cons, List.mem_singleton, List.not_mem_nil, or_false] at hp
    rcases hp with rfl | rfl
    · exact c0
    · exact c1
  have w3 : ∀ w, walk 0 0 3 0 = some w →
      ∀ p ∈ w, m.OOB p.1 p.2 = false ∧ m.CantSeeThrough p.1 p.2 = false := by
    intro w hw p hp
    have e : walk 0 0 3 0 = some [(0, 0), (1, 0), (2, 0)] := by decide
    simp only [e, Option.some.injEq] at hw
    subst hw
    simp only [List.mem_cons, List.mem_singleton, List.not_mem_nil, or_false] at hp
    rcases hp with rfl | rfl | rfl
    · exact c0
    · exact c1
    · exact c2
  have disc : ∀ k : Int, Ray.mk 0 0 k 0 ∈ fovRays 0 0 10 →
      (∀ w, walk 0 0 k 0 = some w →
        ∀ p ∈ w, m.OOB p.1 p.2 = false ∧ m.CantSeeThrough p.1 p.2 = false) →
      (Grid.dark.run (clearlight m 0 0 10 ++ (fovRays 0 0 10).flatMap (rayTrace m))).discovered
        k 0 = true := by
    intro k hk hclear
    rw [discovered_run]
    exact Or.inr (List.mem_append.mpr (Or.inr (List.mem_flatMap.mpr ⟨_, hk,
      discover_target_mem_rayTrace m ⟨0, 0, k, 0⟩ hclear⟩)))
  have stop : ¬ (m.OOB ((3, 0) : Int × Int).1 ((3, 0) : Int × Int).2 = false ∧
      m.CantSeeThrough ((3, 0) : Int × Int).1 ((3, 0) : Int × Int).2 = false) := by
    intro h
    rw [hwall] at h
    cases h.2
  refine ⟨_, CalcVisibility_eq m 0 0 10, ?_, ?_, ?_⟩
  · intro k hk
    simp only [List.mem_cons, List.mem_singleton, List.not_mem_nil, or_false] at hk
    rcases hk with rfl | rfl | rfl | rfl
    · exact disc 0 ((mem_fovRays 0 0 10 _).mpr (by decide)) w0
    · exact disc 1 ((mem_fovRays 0 0 10 _).mpr (by decide)) w1
    · exact disc 2 ((mem_fovRays 0 0 10 _).mpr (by decide)) w2
    · exact disc 3 ((mem_fovRays 0 0 10 _).mpr (by decide)) w3
  · rw [lit_run_refresh]
    exact Or.inl (List.mem_flatMap.mpr ⟨Ray.mk 0 0 3 0, (mem_fovRays 0 0 10 _).mpr (by decide),
      (lit_mem_rayTrace m _ 3 0).mpr ⟨rfl, rfl, w3⟩⟩)
  · intro c hc hmark
    exact ⟨no_mark_of_stopped m 0 0 10 4 0 [(0, 0), (1, 0), (2, 0), (3, 0)]
        (hopen 4 (by decide)) (by decide) (3, 0) (by decide) stop c hc hmark,
      no_mark_of_stopped m 0 0 10 5 0 [(0, 0), (1, 0), (2, 0), (3, 0), (4, 0)]
        (hopen 5 (by decide)) (by decide) (3, 0) (by decide) stop c hc hmark⟩

/-- Witness of C1: the corridor satisfies the three conditions on the map. -/
theorem occlusion_cutoff_witness :
    ((∀ k ∈ ([0, 1, 2, 3, 4, 5] : List Int), corridor.OOB k 0 = false) ∧
      (∀ k ∈ ([0, 1, 2, 4, 5] : List Int), corridor.CantSeeThrough k 0 = false) ∧
      corridor.CantSeeThrough 3 0 = true) ∧
    ∃ t, CalcVisibility corridor 0 0 10 = some t ∧
      (∀ k ∈ ([0, 1, 2, 3] : List Int), (Grid.dark.run t).discovered k 0 = true) ∧
      (Grid.dark.run t).lit 3 0 = true ∧
      ∀ c ∈ t, c.isMark = true → c.tile ≠ (4, 0) ∧ c.tile ≠ (5, 0) :=
  ⟨⟨by decide, by decide, by decide⟩,
    occlusion_cutoff corridor (by decide) (by decide) (by decide)⟩

namespace Go

/-- C2, counterexample: on the map without obstacles, a refresh at `(0, 0)` with
radius 5 followed by one at the same origin with radius 2 leaves `(4, 0)` lit,
though no ray of the second call called `Lit` on it. -/
theorem stale_light_counterexample :
    ∃ t1 t2, (∀ fl, CalcVisibility fl 10 openMap 0 0 5 = some t1) ∧
      (∀ fl, CalcVisibility fl 4 openMap 0 0 2 = some t2) ∧
      ((Grid.dark.run t1).run t2).lit 4 0 = true ∧ Call.Lit 4 0 ∉ t2 := by
  refine ⟨_, _, fun fl => CalcVisibility_inRange fl 10 openMap 0 0 5 (by decide) (by decide),
    fun fl => CalcVisibility_inRange fl 4 openMap 0 0 2 (by decide) (by decide), ?_, ?_⟩
  · rw [lit_run_refresh]
    right
    refine ⟨?_, by decide⟩
    rw [lit_run_refresh]
    left
    exact lit_mem_fov_openMap 0 0 5 4 0 ((mem_fovRays 0 0 5 _).mpr (by decide))
  · rw [lit_mem_CalcVisibility_trace]
    intro h
    obtain ⟨r, hr, hl⟩ := List.mem_flatMap.mp h
    have h1 := (mem_fovRays 0 0 2 r).mp hr
    have h2 := (lit_mem_rayTrace openMap r 4 0).mp hl
    rw [← h2.1] at h1
    omega

/-- C2, amended (light after a refresh): for an origin within `2^62` of the axes
and a radius from `0` to `2^23`, from any grid state, `CalcVisibility` returns
within fuel `2r`, and afterwards a tile is lit exactly when a ray of that call
called `Lit` on it, or it was lit before the call and lies outside the square
`px-r-1 ≤ x ≤ px+r`, `py-r-1 ≤ y ≤ py+r` that the call resets. -/
theorem lit_after_CalcVisibility (fl : Int → Int → Bool) (m : Map) (g : Grid)
    (px py r : Int) (hr : InRange px py r) :
    ∃ t, CalcVisibility fl (2 * r).toNat m px py r = some t ∧
      ∀ x y, (g.run t).lit x y = true ↔
        Call.Lit x y ∈ t ∨
          (g.lit x y = true ∧ ¬ (px - r - 1 ≤ x ∧ x ≤ px + r ∧
            py - r - 1 ≤ y ∧ y ≤ py + r)) := by
  refine ⟨_, CalcVisibility_inRange fl _ m px py r hr (fuel_two_r r hr.2.2.2.2.1), ?_⟩
  intro x y
  rw [lit_run_refresh, lit_mem_CalcVisibility_trace]

/-- Witness of C2: the corridor, origin `(0, 0)`, radius 5, from the grid on
which only `(7, 7)` is discovered. -/
theorem lit_after_CalcVisibility_witness :
    InRange 0 0 5 ∧
    ∃ t, CalcVisibility (fun _ _ => false) (2 * 5 : Int).toNat corridor 0 0 5 = some t ∧
      ∀ x y, (seenGrid.run t).lit x y = true ↔
        Call.Lit x y ∈ t ∨
          (seenGrid.lit x y = true ∧ ¬ (0 - 5 - 1 ≤ x ∧ x ≤ 0 + 5 ∧
            0 - 5 - 1 ≤ y ∧ y ≤ 0 + 5)) :=
  ⟨by decide, lit_after_CalcVisibility (fun _ _ => false) corridor seenGrid 0 0 5 (by decide)⟩

/-- C3, counterexample: with radius 0 at `(0, 0)`, `clearlight` calls `UnLit` on
`(0, 0)`, a tile outside the half-open square `-1 ≤ x < 0`, `-1 ≤ y < 0`. -/
theorem clearlight_bounds_counterexample :
    Call.UnLit 0 0 ∈ clearlight openMap 0 0 0 ∧
      ¬ ((0 : Int) - 0 - 1 ≤ 0 ∧ (0 : Int) < 0 + 0 ∧ (0 : Int) - 0 - 1 ≤ 0 ∧ (0 : Int) < 0 + 0) := by
  decide

/-- C3, amended (light reset bounds): for an origin within `2^62` of the axes
and a radius from `0` to `2^23`, `clearlight` calls `UnLit` and nothing else,
once on each tile with `px-r-1 ≤ x ≤ px+r` and `py-r-1 ≤ y ≤ py+r` (a square of
side `2r+2`) and on no other tile. -/
theorem clearlight_bounds (m : Map) (px py r : Int) (hr : InRange px py r) :
    (∀ c ∈ clearlight m px py r, ∃ x y, c = Call.UnLit x y) ∧
      ∀ x y, (clearlight m px py r).count (Call.UnLit x y) =
        if px - r - 1 ≤ x ∧ x ≤ px + r ∧ py - r - 1 ≤ y ∧ y ≤ py + r then 1 else 0 := by
  rw [clearlight_inRange m px py r hr]
  constructor
  · intro c hc
    obtain ⟨a, b, h, _⟩ := (mem_clearlight m px py r c).mp hc
    exact ⟨a, b, h⟩
  · intro x y
    split_ifs with h
    · exact List.count_eq_one_of_mem (nodup_clearlight m px py r)
        ((mem_clearlight m px py r _).mpr ⟨x, y, rfl, h⟩)
    · apply List.count_eq_zero_of_not_mem
      intro hc
      obtain ⟨a, b, h', hh⟩ := (mem_clearlight m px py r _).mp hc
      simp only [Call.UnLit.injEq] at h'
      rw [h'.1, h'.2] at h
      exact h hh

/-- Witness of C3: origin `(4, -2)`, radius 3. -/
theorem clearlight_bounds_witness :
    InRange 4 (-2) 3 ∧
    ((∀ c ∈ clearlight openMap 4 (-2) 3, ∃ x y, c = Call.UnLit x y) ∧
      ∀ x y, (clearlight openMap 4 (-2) 3).count (Call.UnLit x y) =
        if 4 - 3 - 1 ≤ x ∧ x ≤ 4 + 3 ∧ -2 - 3 - 1 ≤ y ∧ y ≤ -2 + 3 then 1 else 0) :=
  ⟨by decide, clearlight_bounds openMap 4 (-2) 3 (by decide)⟩

/-- C4, counterexample: at origin `(2^63 - 1, 0)` with radius 1, `fov` returns
having called `Lit` on the origin, while the bound `px+light+1` of `clearlight`
wraps and `clearlight` calls `UnLit` on no tile. -/
theorem reset_coverage_counterexample :
    ∃ t, (∀ fl, fov fl 0 openMap maxInt 0 1 = some t) ∧ Call.Lit maxInt 0 ∈ t ∧
      Call.UnLit maxInt 0 ∉ clearlight openMap maxInt 0 1 ∧ clearlight openMap maxInt 0 1 = [] :=
  ⟨[Call.Lit maxInt 0, Call.Discover maxInt 0, Call.OOB maxInt 0, Call.Activate maxInt 0],
    fun _ => rfl, by decide, by decide, by decide⟩

/-- C4, amended (reset coverage): for an origin within `2^62` of the axes and a
radius from `0` to `2^23`, `fov` returns within fuel `2r`, and every tile on
which it calls `Lit` is a tile on which `clearlight` with the same origin and
radius calls `UnLit`. -/
theorem reset_coverage (fl : Int → Int → Bool) (m : Map) (px py r : Int)
    (hr : InRange px py r) :
    ∃ t, fov fl (2 * r).toNat m px py r = some t ∧
      ∀ x y, Call.Lit x y ∈ t → Call.UnLit x y ∈ clearlight m px py r := by
  refine ⟨_, fov_inRange fl _ m px py r hr (fuel_two_r r hr.2.2.2.2.1), ?_⟩
  intro x y h
  rw [clearlight_inRange m px py r hr]
  obtain ⟨ray, hq, hl⟩ := List.mem_flatMap.mp h
  have h1 := (mem_fovRays px py r ray).mp hq
  have h2 := (lit_mem_rayTrace m ray x y).mp hl
  rw [← h2.1, ← h2.2.1] at h1
  exact (mem_clearlight m px py r _).mpr ⟨x, y, rfl, by omega, by omega, by omega, by omega⟩

/-- Witness of C4: the corridor, origin `(0, 0)`, radius 4. -/
theorem reset_coverage_witness :
    InRange 0 0 4 ∧
    ∃ t, fov (fun _ _ => false) (2 * 4 : Int).toNat corridor 0 0 4 = some t ∧
      ∀ x y, Call.Lit x y ∈ t → Call.UnLit x y ∈ clearlight corridor 0 0 4 :=
  ⟨by decide, reset_coverage (fun _ _ => false) corridor 0 0 4 (by decide)⟩

/-- C5, counterexample: with radius `2^32` at origin `(0, 0)` the product
`radius*radius` wraps to `0`, so `fov` casts no ray to the origin itself,
although the offset `(0, 0)` lies within `-r ≤ i, j ≤ r` and `0*0 + 0*0 < r*r`. -/
theorem fov_candidates_counterexample :
    ∃ rays, fovRays 0 0 4294967296 = some rays ∧ Ray.mk 0 0 (0 + 0) (0 + 0) ∉ rays ∧
      (-4294967296 ≤ (0 : Int) ∧ (0 : Int) ≤ 4294967296 ∧
        (0 : Int) * 0 + 0 * 0 < 4294967296 * 4294967296) := by
  have hsome : ∃ rays, fovRays 0 0 4294967296 = some rays := by
    unfold fovRays
    rw [if_neg (by decide)]
    exact ⟨_, rfl⟩
  obtain ⟨rays, hrays⟩ := hsome
  refine ⟨rays, hrays, ?_, by decide⟩
  intro hq
  obtain ⟨i, j, hi1, hi2, hj1, hj2, hc, e⟩ := (mem_fovRays_int 0 0 _ rays hrays _).mp hq
  have hneg : neg64 4294967296 = -4294967296 := by decide
  rw [hneg] at hi1 hj1
  simp only [Ray.mk.injEq, true_and] at e
  have hi : i = 0 := by
    have := e.1
    unfold add64 wrap at this
    omega
  have hj : j = 0 := by
    have := e.2
    unfold add64 wrap at this
    omega
  subst hi
  subst hj
  revert hc
  decide

/-- C5, amended (candidate enumeration): for an origin within `2^62` of the axes
and a radius from `0` to `2^23`, `fov` is the sequence of the `los` invocations
`rays`; every one of them has the origin as observer; the target `(x+i, y+j)`
is invoked once when `-r ≤ i, j ≤ r` and `i*i + j*j < r*r`, and not at all
otherwise.  For origin `(0, 0)` and radius 3, `(3, 0)` is not a target and no
call of any ray is on it, on any map, while `(2, 2)` is a target. -/
theorem fov_candidates (x y r : Int) (hr : InRange x y r) :
    ∃ rays, fovRays x y r = some rays ∧
      (∀ fl fuel m, fov fl fuel m x y r =
        seqTraces (rays.map fun q => los fl fuel m q.x0 q.y0 q.x1 q.y1)) ∧
      (∀ q ∈ rays, q.x0 = x ∧ q.y0 = y) ∧
      (∀ i j, rays.count (Ray.mk x y (x + i) (y + j)) =
        if -r ≤ i ∧ i ≤ r ∧ -r ≤ j ∧ j ≤ r ∧ i * i + j * j < r * r then 1 else 0) ∧
      (∃ rays3, fovRays 0 0 3 = some rays3 ∧ Ray.mk 0 0 3 0 ∉ rays3 ∧
        Ray.mk 0 0 2 2 ∈ rays3) ∧
      ∀ fl m, ∃ t, fov fl 6 m 0 0 3 = some t ∧ ∀ c ∈ t, c.tile ≠ (3, 0) := by
  obtain ⟨_, h2, h3, h4, h5, h6⟩ := Los.fov_candidates_exact x y r
  refine ⟨Los.fovRays x y r, fovRays_inRange x y r hr, ?_, h2, h3,
    ⟨Los.fovRays 0 0 3, fovRays_inRange 0 0 3 (by decide), h4, h5⟩, ?_⟩
  · intro fl fuel m
    unfold fov
    rw [fovRays_inRange x y r hr, Option.some_bind]
  · intro fl m
    obtain ⟨t, ht, hall⟩ := h6 m
    refine ⟨t, ?_, hall⟩
    rw [fov_inRange fl 6 m 0 0 3 (by decide) (by decide), ← ht, Los.fov_eq]

/-- Witness of C5: origin `(5, -3)`, radius 7. -/
theorem fov_candidates_witness :
    InRange 5 (-3) 7 ∧
    ∃ rays, fovRays 5 (-3) 7 = some rays ∧
      (∀ fl fuel m, fov fl fuel m 5 (-3) 7 =
        seqTraces (rays.map fun q => los fl fuel m q.x0 q.y0 q.x1 q.y1)) ∧
      (∀ q ∈ rays, q.x0 = 5 ∧ q.y0 = -3) ∧
      (∀ i j, rays.count (Ray.mk 5 (-3) (5 + i) (-3 + j)) =
        if -7 ≤ i ∧ i ≤ 7 ∧ -7 ≤ j ∧ j ≤ 7 ∧ i * i + j * j < 7 * 7 then 1 else 0) ∧
      (∃ rays3, fovRays 0 0 3 = some rays3 ∧ Ray.mk 0 0 3 0 ∉ rays3 ∧
        Ray.mk 0 0 2 2 ∈ rays3) ∧
      ∀ fl m, ∃ t, fov fl 6 m 0 0 3 = some t ∧ ∀ c ∈ t, c.tile ≠ (3, 0) :=
  ⟨by decide, fov_candidates 5 (-3) 7 (by decide)⟩

/-- C6, counterexample: on the map with no bound and no obstacle, the ray from
`(0, 0)` to `(2^32, 0)` never reaches its target, whatever the fuel: `dx*dx`
wraps to `0` and the walk leaves the row. -/
theorem los_target_reached_counterexample :
    (∀ x y, openMap.OOB x y = false ∧ openMap.CantSeeThrough x y = false) ∧
      ∀ fl fuel, los fl fuel openMap 0 0 4294967296 0 = none :=
  ⟨fun _ _ => ⟨rfl, rfl⟩, fun fl fuel => los_wrapped_dist fl fuel⟩

/-- C6, amended (target reached): for an observer within `2^62` of the axes and
a target within `2^23` of it in each coordinate, when no tile of the walk of
`los` before the target is out of bounds or blocks sight, `los` returns within
`|dx| + |dy|` iterations and has called `Lit` and `Discover` on the target, and
`Activate` on it exactly when the target is in bounds. -/
theorem los_target_reached (fl : Int → Int → Bool) (m : Map) (x0 y0 x1 y1 : Int)
    (hr : RayInRange x0 y0 x1 y1)
    (hclear : ∀ w, walk fl ((x1 - x0).natAbs + (y1 - y0).natAbs) x0 y0 x1 y1 = some w →
      ∀ p ∈ w, m.OOB p.1 p.2 = false ∧ m.CantSeeThrough p.1 p.2 = false) :
    ∃ t, los fl ((x1 - x0).natAbs + (y1 - y0).natAbs) m x0 y0 x1 y1 = some t ∧
      Call.Lit x1 y1 ∈ t ∧ Call.Discover x1 y1 ∈ t ∧
      (Call.Activate x1 y1 ∈ t ↔ m.OOB x1 y1 = false) := by
  rw [walk_inRange fl _ x0 y0 x1 y1 hr (le_refl _)] at hclear
  obtain ⟨t, ht, rest⟩ := Los.los_target_reached_exact m x0 y0 x1 y1 hclear
  refine ⟨t, ?_, rest⟩
  rw [los_inRange fl _ m x0 y0 x1 y1 hr (le_refl _), ← ht, Los.los_eq_rayTrace]

/-- Witness of C6: on `edgeMap` the ray from `(0, 0)` to the out-of-bounds
target `(2, 0)`. -/
theorem los_target_reached_witness :
    (RayInRange 0 0 2 0 ∧
      ∀ w, walk (fun _ _ => false) ((2 - 0 : Int).natAbs + (0 - 0 : Int).natAbs) 0 0 2 0 = some w →
        ∀ p ∈ w, edgeMap.OOB p.1 p.2 = false ∧ edgeMap.CantSeeThrough p.1 p.2 = false) ∧
    ∃ t, los (fun _ _ => false) ((2 - 0 : Int).natAbs + (0 - 0 : Int).natAbs) edgeMap 0 0 2 0
        = some t ∧
      Call.Lit 2 0 ∈ t ∧ Call.Discover 2 0 ∈ t ∧
      (Call.Activate 2 0 ∈ t ↔ edgeMap.OOB 2 0 = false) :=
  have h : ∀ w, walk (fun _ _ => false) ((2 - 0 : Int).natAbs + (0 - 0 : Int).natAbs) 0 0 2 0
      = some w →
      ∀ p ∈ w, edgeMap.OOB p.1 p.2 = false ∧ edgeMap.CantSeeThrough p.1 p.2 = false := by
    intro w hw
    have e : walk (fun _ _ => false) ((2 - 0 : Int).natAbs + (0 - 0 : Int).natAbs) 0 0 2 0 =
        some [(0, 0), (1, 0)] := by decide
    rw [e] at hw
    cases hw
    decide
  ⟨⟨by decide, h⟩, los_target_reached (fun _ _ => false) edgeMap 0 0 2 0 (by decide) h⟩

end Go

/-- C7 (occlusion stop): when the first tile `b` of the walk that is out of
bounds or blocks sight is in bounds and blocks sight, `los` returns and its only
call of a mutator is `Discover` on `b`; `b` is neither the target nor a later
tile of the walk. -/
theorem los_occlusion_stop (m : Map) (x0 y0 x1 y1 : Int) (pre post : List (Int × Int))
    (b : Int × Int) (hw : walk x0 y0 x1 y1 = some (pre ++ b :: post))
    (hpre : ∀ p ∈ pre, m.OOB p.1 p.2 = false ∧ m.CantSeeThrough p.1 p.2 = false)
    (hin : m.OOB b.1 b.2 = false) (hb : m.CantSeeThrough b.1 b.2 = true) :
    ∃ t, los m x0 y0 x1 y1 = some t ∧
      t.filter Call.isMutator = [Call.Discover b.1 b.2] ∧ b ≠ (x1, y1) ∧ b ∉ post := by
  refine ⟨_, los_eq_rayTrace m x0 y0 x1 y1, ?_, ?_, ?_⟩
  · rw [rayTrace_eq m x0 y0 x1 y1 _ hw, losAlong_clear m x1 y1 pre _ hpre, List.filter_append,
      filter_queries]
    simp [losAlong, hin, hb, Call.isMutator]
  · obtain ⟨w, hw', hall, _⟩ := walk_spec x0 y0 x1 y1
    rw [hw] at hw'
    cases hw'
    intro e
    have := (hall b (by simp)).1
    rw [e] at this
    simp at this
  · obtain ⟨w, hw', _, hnd⟩ := walk_spec x0 y0 x1 y1
    rw [hw] at hw'
    cases hw'
    have := (List.nodup_append.mp hnd).2.1
    exact (List.nodup_cons.mp this).1

/-- Witness of C7: the ray from `(0, 0)` to `(5, 0)` in the corridor stops at the
obstacle `(3, 0)`. -/
theorem los_occlusion_stop_witness :
    walk 0 0 5 0 = some ([(0, 0), (1, 0), (2, 0)] ++ (3, 0) :: [(4, 0)]) ∧
    ∃ t, los corridor 0 0 5 0 = some t ∧
      t.filter Call.isMutator = [Call.Discover 3 0] ∧ ((3, 0) : Int × Int) ≠ (5, 0) ∧
      ((3, 0) : Int × Int) ∉ [((4, 0) : Int × Int)] :=
  ⟨by decide,
    los_occlusion_stop corridor 0 0 5 0 [(0, 0), (1, 0), (2, 0)] [(4, 0)] (3, 0) (by decide)
      (by decide) (by decide) (by decide)⟩

/-- C8 (out-of-bounds abort): when the walk comes to an out-of-bounds tile `b`
short of the target, the observer's tile included, before any tile that blocks
sight, `los` returns without a single call of a mutator. -/
theorem los_oob_abort (m : Map) (x0 y0 x1 y1 : Int) (pre post : List (Int × Int))
    (b : Int × Int) (hw : walk x0 y0 x1 y1 = some (pre ++ b :: post))
    (hpre : ∀ p ∈ pre, m.OOB p.1 p.2 = false ∧ m.CantSeeThrough p.1 p.2 = false)
    (hb : m.OOB b.1 b.2 = true) :
    ∃ t, los m x0 y0 x1 y1 = some t ∧ t.filter Call.isMutator = [] := by
  refine ⟨_, los_eq_rayTrace m x0 y0 x1 y1, ?_⟩
  rw [rayTrace_eq m x0 y0 x1 y1 _ hw, losAlong_clear m x1 y1 pre _ hpre, List.filter_append,
    filter_queries]
  simp [losAlong, hb, Call.isMutator]

/-- Witness of C8: on `edgeMap` the ray from `(0, 0)` to `(4, 0)` meets the
out-of-bounds tile `(2, 0)` and changes nothing. -/
theorem los_oob_abort_witness :
    walk 0 0 4 0 = some ([(0, 0), (1, 0)] ++ (2, 0) :: [(3, 0)]) ∧
    ∃ t, los edgeMap 0 0 4 0 = some t ∧ t.filter Call.isMutator = [] :=
  ⟨by decide,
    los_oob_abort edgeMap 0 0 4 0 [(0, 0), (1, 0)] [(3, 0)] (2, 0) (by decide) (by decide)
      (by decide)⟩

/-- C9, counterexample: on `edgeMap`, where `(2, 0)` is out of bounds, the
refresh at `(0, 0)` with radius 3 calls `Lit` on `(2, 0)`. -/
theorem oob_lit_counterexample :
    ∃ t, CalcVisibility edgeMap 0 0 3 = some t ∧ edgeMap.OOB 2 0 = true ∧ Call.Lit 2 0 ∈ t := by
  refine ⟨_, CalcVisibility_eq edgeMap 0 0 3, rfl, ?_⟩
  rw [lit_mem_CalcVisibility_trace]
  refine List.mem_flatMap.mpr ⟨Ray.mk 0 0 2 0, by decide, ?_⟩
  refine (lit_mem_rayTrace edgeMap _ 2 0).mpr ⟨rfl, rfl, ?_⟩
  intro w hw
  have e : walk 0 0 2 0 = some [(0, 0), (1, 0)] := by decide
  simp only [e, Option.some.injEq] at hw
  subst hw
  decide

/-- C9, amended (out-of-bounds tiles): `CalcVisibility` returns, and an
out-of-bounds tile receives no `Activate`; it receives `Lit` or `Discover` only
as the target of a ray of the call whose walk met no out-of-bounds and no
sight-blocking tile before it. -/
theorem oob_tiles (m : Map) (px py r x y : Int) (hoob : m.OOB x y = true) :
    ∃ t, CalcVisibility m px py r = some t ∧ Call.Activate x y ∉ t ∧
      (Call.Lit x y ∈ t ∨ Call.Discover x y ∈ t →
        Ray.mk px py x y ∈ fovRays px py r ∧
          ∀ w, walk px py x y = some w →
            ∀ p ∈ w, m.OOB p.1 p.2 = false ∧ m.CantSeeThrough p.1 p.2 = false) := by
  refine ⟨_, CalcVisibility_eq m px py r, ?_, ?_⟩
  · intro h
    rcases List.mem_append.mp h with h | h
    · obtain ⟨a, b, h', _⟩ := (mem_clearlight m px py r _).mp h
      cases h'
    · obtain ⟨q, _, hq⟩ := List.mem_flatMap.mp h
      have := (activate_mem_rayTrace m q x y hq).2.2.1
      rw [hoob] at this
      cases this
  · have target : ∀ q ∈ fovRays px py r, x = q.x1 → y = q.y1 → q = Ray.mk px py x y := by
      intro q hq h1 h2
      have := (mem_fovRays px py r q).mp hq
      cases q
      simp only at h1 h2 this
      simp only [Ray.mk.injEq]
      exact ⟨this.1, this.2.1, h1.symm, h2.symm⟩
    rintro (h | h)
    · rw [lit_mem_CalcVisibility_trace] at h
      obtain ⟨q, hq, hl⟩ := List.mem_flatMap.mp h
      obtain ⟨h1, h2, h3⟩ := (lit_mem_rayTrace m q x y).mp hl
      have e := target q hq h1 h2
      subst e
      exact ⟨hq, h3⟩
    · rcases List.mem_append.mp h with h | h
      · obtain ⟨a, b, h', _⟩ := (mem_clearlight m px py r _).mp h
        cases h'
      · obtain ⟨q, hq, hl⟩ := List.mem_flatMap.mp h
        rcases discover_mem_rayTrace m q x y hl with ⟨h1, h2, h3⟩ | ⟨h1, _⟩
        · have e := target q hq h1 h2
          subst e
          exact ⟨hq, h3⟩
        · rw [hoob] at h1
          cases h1

/-- Witness of C9: the out-of-bounds tile `(2, 0)` of `edgeMap` in the refresh at
`(0, 0)` with radius 3. -/
theorem oob_tiles_witness :
    edgeMap.OOB 2 0 = true ∧
    ∃ t, CalcVisibility edgeMap 0 0 3 = some t ∧ Call.Activate 2 0 ∉ t ∧
      (Call.Lit 2 0 ∈ t ∨ Call.Discover 2 0 ∈ t →
        Ray.mk 0 0 2 0 ∈ fovRays 0 0 3 ∧
          ∀ w, walk 0 0 2 0 = some w →
            ∀ p ∈ w, edgeMap.OOB p.1 p.2 = false ∧ edgeMap.CantSeeThrough p.1 p.2 = false) :=
  ⟨rfl, oob_tiles edgeMap 0 0 3 2 0 rfl⟩

namespace Go

/-- C10, counterexample: on the map with no bound and no obstacle,
`CalcVisibility` at origin `(-2^63, 0)` with radius 2 never returns, whatever the
fuel: its first ray goes to the wrapped target `(2^63 - 1, -1)` and walks away
from it.  The origin is never lit. -/
theorem self_visibility_counterexample :
    (1 : Int) ≤ 2 ∧ ∀ fl fuel, CalcVisibility fl fuel openMap minInt 0 2 = none :=
  ⟨by decide, fun fl fuel => CalcVisibility_wrapped_target fl fuel⟩

/-- C10, amended (self-visibility): for an origin within `2^62` of the axes and
a radius from `1` to `2^23`, for every map and grid state, `CalcVisibility`
returns within fuel `2r` and leaves the origin tile lit and discovered, whatever
the `OOB` and `CantSeeThrough` values of the origin tile. -/
theorem self_visibility (fl : Int → Int → Bool) (m : Map) (g : Grid) (px py r : Int)
    (hr : InRange px py r) (h1 : 1 ≤ r) :
    ∃ t, CalcVisibility fl (2 * r).toNat m px py r = some t ∧
      (g.run t).lit px py = true ∧ (g.run t).discovered px py = true := by
  obtain ⟨t, ht, rest⟩ := Los.self_visibility_exact m g px py r h1
  exact ⟨t, by rw [CalcVisibility_exact fl m px py r hr]; exact ht, rest⟩

/-- Witness of C10: on the all-wall map, radius 1, from the dark grid. -/
theorem self_visibility_witness :
    (InRange 0 0 1 ∧ (1 : Int) ≤ 1) ∧
    ∃ t, CalcVisibility (fun _ _ => false) (2 * 1 : Int).toNat wallMap 0 0 1 = some t ∧
      (Grid.dark.run t).lit 0 0 = true ∧ (Grid.dark.run t).discovered 0 0 = true :=
  ⟨⟨by decide, by decide⟩,
    self_visibility (fun _ _ => false) wallMap Grid.dark 0 0 1 (by decide) (by decide)⟩

end Go

/-- C11 (radius zero): with radius 0 `fov` casts no ray; `CalcVisibility`
returns, its trace is that of `clearlight` alone and holds no `Lit`, `Discover`
or `Activate`; on any grid no tile becomes lit and the discovered flags are
unchanged. -/
theorem radius_zero (m : Map) (g : Grid) (px py : Int) :
    fovRays px py 0 = [] ∧
    ∃ t, CalcVisibility m px py 0 = some t ∧ t = clearlight m px py 0 ∧
      (∀ c ∈ t, c.isMark = false) ∧
      (∀ x y, (g.run t).lit x y = true → g.lit x y = true) ∧
      ∀ x y, (g.run t).discovered x y = g.discovered x y := by
  have e : clearlight m px py 0 ++ (fovRays px py 0).flatMap (rayTrace m) =
      clearlight m px py 0 := by
    rw [fovRays_zero]
    simp
  refine ⟨fovRays_zero px py, clearlight m px py 0, ?_, rfl, ?_, ?_, ?_⟩
  · rw [CalcVisibility_eq, e]
  · exact fun c hc => not_isMark_of_mem_clearlight m px py 0 c hc
  · intro x y h
    rw [lit_run_of_only_unlit] at h
    · exact h.1
    · intro c hc
      obtain ⟨a, b, h', _⟩ := (mem_clearlight m px py 0 c).mp hc
      exact ⟨a, b, h'⟩
  · intro x y
    have h := discovered_run (clearlight m px py 0) g x y
    have hno : Call.Discover x y ∉ clearlight m px py 0 := by
      intro hc
      obtain ⟨a, b, h', _⟩ := (mem_clearlight m px py 0 _).mp hc
      cases h'
    cases hd : g.discovered x y
    · cases hr : (g.run (clearlight m px py 0)).discovered x y
      · rfl
      · rcases h.mp hr with h1 | h1
        · rw [hd] at h1; cases h1
        · exact absurd h1 hno
    · exact h.mpr (Or.inl hd)

namespace Go

/-- C12, counterexample: with radius `2^63 - 1` the test `j <= radius` of the
inner loop of `fov` never fails, and `CalcVisibility` returns for no map, origin
or fuel. -/
theorem los_bounded_counterexample :
    ¬ ∃ (fl : Int → Int → Bool) (fuel : Nat) (m : Map) (px py : Int) (t : List Call),
      CalcVisibility fl fuel m px py maxInt = some t := by
  rintro ⟨fl, fuel, m, px, py, t, h⟩
  simp [CalcVisibility, fov, fovRays] at h

/-- C12, amended (bounded ray): for an observer within `2^62` of the axes and a
target within `2^23` of it in each coordinate, the walk of `los` has at most
`|x1-x0| + |y1-y0|` positions and on every map `los` returns within that many
iterations of its loop, making at most one `OOB` query more than that;
`CalcVisibility` returns, within fuel `2r` for each ray, for every map, every
origin within `2^62` of the axes and every radius from `0` to `2^23`. -/
theorem los_bounded (fl : Int → Int → Bool) (x0 y0 x1 y1 : Int)
    (hr : RayInRange x0 y0 x1 y1) :
    (∃ w, walk fl ((x1 - x0).natAbs + (y1 - y0).natAbs) x0 y0 x1 y1 = some w ∧
      w.length ≤ (x1 - x0).natAbs + (y1 - y0).natAbs) ∧
    (∀ m, ∃ t, los fl ((x1 - x0).natAbs + (y1 - y0).natAbs) m x0 y0 x1 y1 = some t ∧
      (t.filter Call.isOOB).length ≤ (x1 - x0).natAbs + (y1 - y0).natAbs + 1) ∧
    ∀ m px py r, InRange px py r →
      ∃ t, CalcVisibility fl (2 * r).toNat m px py r = some t := by
  obtain ⟨⟨w, hw, hlen⟩, h2, _⟩ := Los.los_bounded_exact x0 y0 x1 y1
  refine ⟨⟨w, ?_, hlen⟩, ?_, ?_⟩
  · rw [walk_inRange fl _ x0 y0 x1 y1 hr (le_refl _)]
    exact hw
  · intro m
    obtain ⟨t, _, ht, hcount⟩ := h2 m
    refine ⟨t, ?_, hcount⟩
    rw [los_inRange fl _ m x0 y0 x1 y1 hr (le_refl _), ← ht, Los.los_eq_rayTrace]
  · intro m px py r hpr
    exact ⟨_, CalcVisibility_inRange fl _ m px py r hpr (fuel_two_r r hpr.2.2.2.2.1)⟩

/-- Witness of C12: the ray from `(0, 0)` to `(5, 1)`. -/
theorem los_bounded_witness :
    RayInRange 0 0 5 1 ∧
    ((∃ w, walk (fun _ _ => false) ((5 - 0 : Int).natAbs + (1 - 0 : Int).natAbs) 0 0 5 1
        = some w ∧
      w.length ≤ (5 - 0 : Int).natAbs + (1 - 0 : Int).natAbs) ∧
    (∀ m, ∃ t, los (fun _ _ => false) ((5 - 0 : Int).natAbs + (1 - 0 : Int).natAbs) m 0 0 5 1
        = some t ∧
      (t.filter Call.isOOB).length ≤ (5 - 0 : Int).natAbs + (1 - 0 : Int).natAbs + 1) ∧
    ∀ m px py r, InRange px py r →
      ∃ t, CalcVisibility (fun _ _ => false) (2 * r).toNat m px py r = some t) :=
  ⟨by decide, los_bounded (fun _ _ => false) 0 0 5 1 (by decide)⟩

end Go

/-- C13 (lit implies discovered): every ray returns with each of its `Lit` calls
accompanied by a `Discover` on the same tile; so when every lit tile of the grid
is discovered before `CalcVisibility`, every lit tile is discovered after it. -/
theorem lit_implies_discovered (m : Map) (g : Grid) (px py r : Int)
    (hinv : ∀ x y, g.lit x y = true → g.discovered x y = true) :
    (∀ x0 y0 x1 y1, ∃ tr, los m x0 y0 x1 y1 = some tr ∧
      ∀ x y, Call.Lit x y ∈ tr → Call.Discover x y ∈ tr) ∧
    ∃ t, CalcVisibility m px py r = some t ∧
      (∀ x y, Call.Lit x y ∈ t → Call.Discover x y ∈ t) ∧
      ∀ x y, (g.run t).lit x y = true → (g.run t).discovered x y = true := by
  have key : ∀ x y, Call.Lit x y ∈ (fovRays px py r).flatMap (rayTrace m) →
      Call.Discover x y ∈ clearlight m px py r ++ (fovRays px py r).flatMap (rayTrace m) := by
    intro x y h
    obtain ⟨q, hq, hl⟩ := List.mem_flatMap.mp h
    exact List.mem_append.mpr (Or.inr (List.mem_flatMap.mpr
      ⟨q, hq, discover_of_lit_rayTrace m q x y hl⟩))
  refine ⟨fun x0 y0 x1 y1 => ⟨_, los_eq_rayTrace m x0 y0 x1 y1,
    fun x y h => discover_of_lit_rayTrace m _ x y h⟩, _, CalcVisibility_eq m px py r, ?_, ?_⟩
  · intro x y h
    exact key x y ((lit_mem_CalcVisibility_trace m px py r x y).mp h)
  · intro x y h
    rw [discovered_run]
    rcases (lit_run_refresh m g px py r x y).mp h with h1 | h1
    · exact Or.inr (key x y h1)
    · exact Or.inl (hinv x y h1.1)

/-- Witness of C13: the dark grid, on the corridor. -/
theorem lit_implies_discovered_witness :
    (∀ x y, Grid.dark.lit x y = true → Grid.dark.discovered x y = true) ∧
    ((∀ x0 y0 x1 y1, ∃ tr, los corridor x0 y0 x1 y1 = some tr ∧
      ∀ x y, Call.Lit x y ∈ tr → Call.Discover x y ∈ tr) ∧
    ∃ t, CalcVisibility corridor 0 0 4 = some t ∧
      (∀ x y, Call.Lit x y ∈ t → Call.Discover x y ∈ t) ∧
      ∀ x y, (Grid.dark.run t).lit x y = true → (Grid.dark.run t).discovered x y = true) :=
  have h : ∀ x y, Grid.dark.lit x y = true → Grid.dark.discovered x y = true :=
    fun _ _ hl => by cases hl
  ⟨h, lit_implies_discovered corridor Grid.dark 0 0 4 h⟩

/-- C14 (one-shot activation): `CalcVisibility` returns, and in its trace
`Activate` occurs at most once for each tile, on exactly the in-bounds tiles
that receive `Lit`; a tile that receives `Discover` but no `Lit`, an occluder,
receives no `Activate`. -/
theorem one_shot_activation (m : Map) (px py r : Int) :
    ∃ t, CalcVisibility m px py r = some t ∧
      ∀ x y, t.count (Call.Activate x y) ≤ 1 ∧
        (Call.Activate x y ∈ t ↔ Call.Lit x y ∈ t ∧ m.OOB x y = false) ∧
        (Call.Discover x y ∈ t → Call.Lit x y ∉ t → Call.Activate x y ∉ t) := by
  refine ⟨_, CalcVisibility_eq m px py r, ?_⟩
  intro x y
  have hclear : Call.Activate x y ∉ clearlight m px py r := by
    intro h
    obtain ⟨a, b, h', _⟩ := (mem_clearlight m px py r _).mp h
    cases h'
  have hiff : Call.Activate x y ∈ clearlight m px py r ++ (fovRays px py r).flatMap (rayTrace m) ↔
      Call.Lit x y ∈ clearlight m px py r ++ (fovRays px py r).flatMap (rayTrace m) ∧
        m.OOB x y = false := by
    rw [lit_mem_CalcVisibility_trace]
    constructor
    · intro h
      rcases List.mem_append.mp h with h | h
      · exact absurd h hclear
      · obtain ⟨q, hq, ha⟩ := List.mem_flatMap.mp h
        obtain ⟨h1, h2, h3, h4⟩ := activate_mem_rayTrace m q x y ha
        exact ⟨List.mem_flatMap.mpr ⟨q, hq, (lit_mem_rayTrace m q x y).mpr ⟨h1, h2, h4⟩⟩, h3⟩
    · rintro ⟨h, hin⟩
      obtain ⟨q, hq, hl⟩ := List.mem_flatMap.mp h
      obtain ⟨h1, h2, h3⟩ := (lit_mem_rayTrace m q x y).mp hl
      refine List.mem_append.mpr (Or.inr (List.mem_flatMap.mpr ⟨q, hq, ?_⟩))
      rw [h1, h2]
      rw [h1, h2] at hin
      exact activate_target_mem_rayTrace m q h3 hin
  refine ⟨?_, hiff, fun _ hl ha => hl (hiff.mp ha).1⟩
  rw [List.count_append, List.count_eq_zero_of_not_mem hclear, Nat.zero_add]
  apply count_flatMap_le_one _ _ _ (nodup_fovRays px py r)
  · intro q hq q' hq' ha ha'
    have h := activate_mem_rayTrace m q x y ha
    have h' := activate_mem_rayTrace m q' x y ha'
    rw [ray_of_target px py r q hq x y h.1 h.2.1, ray_of_target px py r q' hq' x y h'.1 h'.2.1]
  · intro q _
    exact losAlong_count_activate m _ _ x y _

/-- C15 (monotonic discovery): a tile discovered before a `CalcVisibility` call
is discovered after it, for every grid state, map, origin and radius. -/
theorem discovery_monotone (m : Map) (g : Grid) (px py r x y : Int)
    (h : g.discovered x y = true) :
    ∃ t, CalcVisibility m px py r = some t ∧ (g.run t).discovered x y = true :=
  ⟨_, CalcVisibility_eq m px py r, (discovered_run _ g x y).mpr (Or.inl h)⟩

/-- Witness of C15: the tile `(7, 7)`, far outside the refresh at `(0, 0)` with
radius 2 on the all-wall map, stays discovered. -/
theorem discovery_monotone_witness :
    seenGrid.discovered 7 7 = true ∧
    ∃ t, CalcVisibility wallMap 0 0 2 = some t ∧ (seenGrid.run t).discovered 7 7 = true :=
  ⟨rfl, discovery_monotone wallMap seenGrid 0 0 2 7 7 rfl⟩

namespace Go

/-- C16, counterexample: on the map with no bound and no obstacle, from the dark
grid, two refreshes with radius 1 at `(2^63 - 2, 0)` and then `(2^63 - 1, 0)`, a
one-tile move: the bound `px+light+1` of the reset wraps, both resets clear
nothing, and after the second call `(2^63 - 2, 0)` is lit although that call did
not call `Lit` on it. -/
theorem no_stale_light_one_tile_counterexample :
    (∀ x y, Grid.dark.lit x y = false) ∧
    List.Chain' oneTileMove [(9223372036854775806, 0), (9223372036854775807, 0)] ∧
    ∃ g1 t1 g2 t2,
      (∀ fl, refreshLog fl 2 openMap 1 Grid.dark
        [(9223372036854775806, 0), (9223372036854775807, 0)] = some [(g1, t1), (g2, t2)]) ∧
      g2.lit 9223372036854775806 0 = true ∧ Call.Lit 9223372036854775806 0 ∉ t2 := by
  refine ⟨fun _ _ => rfl, by simp [oneTileMove, abs_le], ?_⟩
  refine ⟨Grid.dark.run ((CalcVisibility (fun _ _ => false) 2 openMap 9223372036854775806 0 1).getD []),
    (CalcVisibility (fun _ _ => false) 2 openMap 9223372036854775806 0 1).getD [],
    (Grid.dark.run ((CalcVisibility (fun _ _ => false) 2 openMap 9223372036854775806 0 1).getD [])).run
      ((CalcVisibility (fun _ _ => false) 2 openMap 9223372036854775807 0 1).getD []),
    (CalcVisibility (fun _ _ => false) 2 openMap 9223372036854775807 0 1).getD [],
    fun _ => rfl, by decide, by decide⟩

/-- C16, amended (no stale light after a one-tile move): for a radius from `0`
to `2^23` and origins within `2^62` of the axes, from a grid with no tile lit,
for every sequence of origins moving by at most one tile in each coordinate, all
the `CalcVisibility` calls return within fuel `2r`, and after each of them the
lit tiles are exactly the tiles on which that call called `Lit`. -/
theorem no_stale_light_one_tile (fl : Int → Int → Bool) (m : Map) (g : Grid) (r : Int)
    (origins : List (Int × Int))
    (hdark : ∀ x y, g.lit x y = false) (hmove : List.Chain' oneTileMove origins)
    (hrange : ∀ o ∈ origins, InRange o.1 o.2 r) :
    ∃ log, refreshLog fl (2 * r).toNat m r g origins = some log ∧
      origins.map (fun p => CalcVisibility fl (2 * r).toNat m p.1 p.2 r) =
        log.map (fun e => some e.2) ∧
      ∀ e ∈ log, ∀ x y, e.1.lit x y = true ↔ Call.Lit x y ∈ e.2 := by
  obtain ⟨log, hlog, hmap, hall⟩ := Los.no_stale_light_one_tile_exact m g r origins hdark hmove
  refine ⟨log, ?_, ?_, hall⟩
  · rw [refreshLog_exact fl m r origins g hrange]
    exact hlog
  · rw [← hmap]
    apply List.map_congr_left
    intro o ho
    exact CalcVisibility_exact fl m o.1 o.2 r (hrange o ho)

/-- Witness of C16: three refreshes with radius 3 in the corridor, the origin
moving from `(0, 0)` to `(1, 1)` and on to `(2, 0)`. -/
theorem no_stale_light_one_tile_witness :
    ((∀ x y, Grid.dark.lit x y = false) ∧
      List.Chain' oneTileMove [(0, 0), (1, 1), (2, 0)] ∧
      ∀ o ∈ [((0 : Int), (0 : Int)), (1, 1), (2, 0)], InRange o.1 o.2 3) ∧
    ∃ log, refreshLog (fun _ _ => false) (2 * 3 : Int).toNat corridor 3 Grid.dark
        [(0, 0), (1, 1), (2, 0)] = some log ∧
      [(0, 0), (1, 1), (2, 0)].map
          (fun p => CalcVisibility (fun _ _ => false) (2 * 3 : Int).toNat corridor p.1 p.2 3) =
        log.map (fun e => some e.2) ∧
      ∀ e ∈ log, ∀ x y, e.1.lit x y = true ↔ Call.Lit x y ∈ e.2 :=
  have h1 : ∀ x y, Grid.dark.lit x y = false := fun _ _ => rfl
  have h2 : List.Chain' oneTileMove [(0, 0), (1, 1), (2, 0)] := by
    simp [oneTileMove, abs_le]
  have h3 : ∀ o ∈ [((0 : Int), (0 : Int)), (1, 1), (2, 0)], InRange o.1 o.2 3 := by
    decide
  ⟨⟨h1, h2, h3⟩,
    no_stale_light_one_tile (fun _ _ => false) corridor Grid.dark 3 [(0, 0), (1, 1), (2, 0)]
      h1 h2 h3⟩

/-- C17, counterexample: on `leftEdge` the refresh at origin `(2^63 - 1, 0)` with
radius 2 returns, and its ray to the wrapped target `(-2^63, -1)` queries `OOB`
on `(2^63 - 3, -2)`, a tile with `(x-px)^2 + (y-py)^2 = 8`, not less than
`2^2`. -/
theorem footprint_in_circle_counterexample :
    ∃ t, (∀ fl, CalcVisibility fl 3 leftEdge maxInt 0 2 = some t) ∧
      Call.OOB 9223372036854775805 (-2) ∈ t ∧
      ¬ ((9223372036854775805 - maxInt) ^ 2 + (-2 - 0) ^ 2 < (2 : Int) ^ 2) :=
  ⟨(CalcVisibility (fun _ _ => false) 3 leftEdge maxInt 0 2).getD [], fun _ => rfl,
    by decide, by decide⟩

/-- C17, amended (footprint inside the circle): for an origin within `2^62` of
the axes and a radius from `0` to `2^23`, the walk of every ray with observer
within `2^62` of the axes and target within `2^23` of it stays in the rectangle
spanned by observer and target; `CalcVisibility` returns within fuel `2r`, and
every call of its trace other than the `UnLit` calls of the reset, so every
`Lit`, `Discover`, `Activate`, `OOB` and `CantSeeThrough`, is on a tile with
`(x-px)^2 + (y-py)^2 < r^2`. -/
theorem footprint_in_circle (fl : Int → Int → Bool) (m : Map) (px py r : Int)
    (hr : InRange px py r) :
    (∀ x0 y0 x1 y1, RayInRange x0 y0 x1 y1 →
      ∃ w, walk fl ((x1 - x0).natAbs + (y1 - y0).natAbs) x0 y0 x1 y1 = some w ∧
        ∀ p ∈ w, min x0 x1 ≤ p.1 ∧ p.1 ≤ max x0 x1 ∧ min y0 y1 ≤ p.2 ∧ p.2 ≤ max y0 y1) ∧
    ∃ t, CalcVisibility fl (2 * r).toNat m px py r = some t ∧
      ∀ c ∈ t, (∀ a b, c ≠ Call.UnLit a b) →
        (c.tile.1 - px) ^ 2 + (c.tile.2 - py) ^ 2 < r ^ 2 := by
  obtain ⟨hrect, t, ht, hall⟩ := Los.footprint_in_circle_exact m px py r
  refine ⟨?_, t, ?_, hall⟩
  · intro x0 y0 x1 y1 hq
    obtain ⟨w, hw, hin⟩ := hrect x0 y0 x1 y1
    refine ⟨w, ?_, hin⟩
    rw [walk_inRange fl _ x0 y0 x1 y1 hq (le_refl _)]
    exact hw
  · rw [CalcVisibility_exact fl m px py r hr]
    exact ht

/-- Witness of C17: the corridor, origin `(0, 0)`, radius 4. -/
theorem footprint_in_circle_witness :
    InRange 0 0 4 ∧
    ((∀ x0 y0 x1 y1, RayInRange x0 y0 x1 y1 →
      ∃ w, walk (fun _ _ => false) ((x1 - x0).natAbs + (y1 - y0).natAbs) x0 y0 x1 y1 = some w ∧
        ∀ p ∈ w, min x0 x1 ≤ p.1 ∧ p.1 ≤ max x0 x1 ∧ min y0 y1 ≤ p.2 ∧ p.2 ≤ max y0 y1) ∧
    ∃ t, CalcVisibility (fun _ _ => false) (2 * 4 : Int).toNat corridor 0 0 4 = some t ∧
      ∀ c ∈ t, (∀ a b, c ≠ Call.UnLit a b) →
        (c.tile.1 - 0) ^ 2 + (c.tile.2 - 0) ^ 2 < (4 : Int) ^ 2) :=
  ⟨by decide, footprint_in_circle (fun _ _ => false) corridor 0 0 4 (by decide)⟩

/-- C18, counterexample: on `holeMap` the ray from `(0, 0)` to `(2^32, 0)`
queries `OOB` on `(1, -1)`, the second tile of its walk, whose deviation from
the line is `2^32`: `dx*dx` wraps to `0`, so both single-axis tests fail and
the first step is diagonal. -/
theorem deviation_bound_counterexample :
    ((0 : Int) ≠ 4294967296 ∨ (0 : Int) ≠ 0) ∧
    ∃ t, (∀ fl, los fl 2 holeMap 0 0 4294967296 0 = some t) ∧
      Call.OOB 1 (-1) ∈ t ∧
      ¬ (4 * ((0 - 0) * (1 - 0) - (4294967296 - 0) * (-1 - 0)) ^ 2 <
        ((4294967296 : Int) - 0) ^ 2 + (0 - 0) ^ 2) :=
  ⟨Or.inl (by decide), (los (fun _ _ => false) 2 holeMap 0 0 4294967296 0).getD [],
    fun _ => rfl, by decide, by decide⟩

/-- C18, amended (deviation bound): for an observer within `2^62` of the axes
and a different target within `2^23` of it in each coordinate, the walk of `los`
ends within `|dx| + |dy|` iterations, and each of its tiles, the target included
and whichever step led to it, satisfies
`4*(dy*(x-x0) - dx*(y-y0))^2 < dx^2 + dy^2`. -/
theorem deviation_bound (fl : Int → Int → Bool) (x0 y0 x1 y1 : Int)
    (hr : RayInRange x0 y0 x1 y1) (hne : x0 ≠ x1 ∨ y0 ≠ y1) :
    ∃ w, walk fl ((x1 - x0).natAbs + (y1 - y0).natAbs) x0 y0 x1 y1 = some w ∧
      ∀ p ∈ w ++ [(x1, y1)],
        4 * ((y1 - y0) * (p.1 - x0) - (x1 - x0) * (p.2 - y0)) ^ 2 <
          (x1 - x0) ^ 2 + (y1 - y0) ^ 2 := by
  obtain ⟨w, hw, hall⟩ := Los.deviation_bound_exact x0 y0 x1 y1 hne
  refine ⟨w, ?_, hall⟩
  rw [walk_inRange fl _ x0 y0 x1 y1 hr (le_refl _)]
  exact hw

/-- Witness of C18: the ray from `(0, 0)` to `(3, 2)`. -/
theorem deviation_bound_witness :
    (RayInRange 0 0 3 2 ∧ ((0 : Int) ≠ 3 ∨ (0 : Int) ≠ 2)) ∧
    ∃ w, walk (fun _ _ => false) ((3 - 0 : Int).natAbs + (2 - 0 : Int).natAbs) 0 0 3 2
        = some w ∧
      ∀ p ∈ w ++ [(3, 2)],
        4 * ((2 - 0) * (p.1 - 0) - (3 - 0) * (p.2 - 0)) ^ 2 < (3 - 0) ^ 2 + (2 - 0) ^ 2 :=
  ⟨⟨by decide, Or.inl (by decide)⟩,
    deviation_bound (fun _ _ => false) 0 0 3 2 (by decide) (Or.inl (by decide))⟩

/-- C19, counterexample: on `pillarMap` the horizontal ray from `(0, 0)` to
`(2^32, 0)` calls `Discover` on the obstacle `(1, -1)`, a tile outside the row
`y = 0`: `dx*dx` wraps to `0` and the `y` step with sign `-1` is applied. -/
theorem axis_aligned_straight_counterexample :
    ∃ t, (∀ fl, los fl 2 pillarMap 0 0 4294967296 0 = some t) ∧
      Call.Discover 1 (-1) ∈ t ∧ (-1 : Int) ≠ 0 :=
  ⟨(los (fun _ _ => false) 2 pillarMap 0 0 4294967296 0).getD [], fun _ => rfl,
    by decide, by decide⟩

/-- C19, amended (axis-aligned rays walk straight): for an observer within
`2^62` of the axes and a target within `2^23` of it in each coordinate, the walk
of a ray with `x0 = x1` is the column `(x0, y0), (x0, y0 ± 1), ...` and the walk
of a ray with `y0 = y1` is the row `(x0, y0), (x0 ± 1, y0), ...`, in order, each
ending one step short of the target, which is the next tile of the column or
row; the coincident coordinate never changes, so its step sign `-1` is never
applied. -/
theorem axis_aligned_straight (fl : Int → Int → Bool) (x0 y0 x1 y1 : Int)
    (hr : RayInRange x0 y0 x1 y1) :
    (walk fl (y1 - y0).natAbs x0 y0 x0 y1 =
        some ((List.range (y1 - y0).natAbs).map fun (k : Nat) =>
          (x0, y0 + (if y0 < y1 then 1 else -1) * (k : Int))) ∧
      y0 + (if y0 < y1 then 1 else -1) * ((y1 - y0).natAbs : Int) = y1) ∧
    (walk fl (x1 - x0).natAbs x0 y0 x1 y0 =
        some ((List.range (x1 - x0).natAbs).map fun (k : Nat) =>
          (x0 + (if x0 < x1 then 1 else -1) * (k : Int), y0)) ∧
      x0 + (if x0 < x1 then 1 else -1) * ((x1 - x0).natAbs : Int) = x1) := by
  obtain ⟨⟨hv, hv'⟩, hh, hh'⟩ := Los.axis_aligned_straight_exact x0 y0 x1 y1
  obtain ⟨a1, a2, a3, a4, a5, a6, a7, a8⟩ := hr
  refine ⟨⟨?_, hv'⟩, ?_, hh'⟩
  · rw [walk_inRange fl _ x0 y0 x0 y1 ⟨a1, a2, a3, a4, by omega, by omega, a7, a8⟩
      (by simp)]
    exact hv
  · rw [walk_inRange fl _ x0 y0 x1 y0 ⟨a1, a2, a3, a4, a5, a6, by omega, by omega⟩
      (by simp)]
    exact hh

/-- Witness of C19: the column from `(2, 5)` to `(2, 1)` and the row from
`(2, 5)` to `(-1, 5)`. -/
theorem axis_aligned_straight_witness :
    RayInRange 2 5 (-1) 1 ∧
    ((walk (fun _ _ => false) (1 - 5 : Int).natAbs 2 5 2 1 =
        some ((List.range (1 - 5 : Int).natAbs).map fun (k : Nat) =>
          (2, 5 + (if (5 : Int) < 1 then 1 else -1) * (k : Int))) ∧
      5 + (if (5 : Int) < 1 then 1 else -1) * (((1 - 5 : Int).natAbs : Nat) : Int) = 1) ∧
    (walk (fun _ _ => false) (-1 - 2 : Int).natAbs 2 5 (-1) 5 =
        some ((List.range (-1 - 2 : Int).natAbs).map fun (k : Nat) =>
          (2 + (if (2 : Int) < -1 then 1 else -1) * (k : Int), 5)) ∧
      2 + (if (2 : Int) < -1 then 1 else -1) * (((-1 - 2 : Int).natAbs : Nat) : Int) = -1)) :=
  ⟨by decide, axis_aligned_straight (fun _ _ => false) 2 5 (-1) 1 (by decide)⟩

/-- C20, counterexample: `openMap` and `blockAll` have the same `OOB` and every
tile blocking sight on `openMap` blocks sight on `blockAll`; at origin
`(-2^63, 0)` with radius 2 the refresh on `blockAll` returns and calls `Lit` on
the origin, while the refresh on `openMap` never returns, so the origin is lit
on the map with more obstacles and not on the other. -/
theorem blockers_shrink_light_counterexample :
    (∀ x y, openMap.OOB x y = blockAll.OOB x y) ∧
    (∀ x y, openMap.CantSeeThrough x y = true → blockAll.CantSeeThrough x y = true) ∧
    (∃ t2, (∀ fl, CalcVisibility fl 1 blockAll minInt 0 2 = some t2) ∧
      Call.Lit minInt 0 ∈ t2) ∧
    ∀ fl fuel, CalcVisibility fl fuel openMap minInt 0 2 = none :=
  ⟨fun _ _ => rfl, fun _ _ _ => rfl,
    ⟨(CalcVisibility (fun _ _ => false) 1 blockAll minInt 0 2).getD [], fun _ => rfl,
      by decide⟩,
    fun fl fuel => CalcVisibility_wrapped_target fl fuel⟩

/-- C20, amended (blockers only shrink the light): for an observer within `2^62`
of the axes and a target within `2^23` of it, the walk of a ray is the same on
every map; for an origin within `2^62` of the axes, a radius from `0` to `2^23`
and two maps with the same `OOB` where every tile blocking sight in `m1` blocks
sight in `m2`, both refreshes return within fuel `2r`, every tile on which the
one on `m2` calls `Lit` receives `Lit` on `m1`, and from a common grid every
tile lit after the refresh on `m2` is lit after the refresh on `m1`. -/
theorem blockers_shrink_light (fl : Int → Int → Bool) (m1 m2 : Map) (g : Grid)
    (px py r : Int) (hr : InRange px py r)
    (hoob : ∀ x y, m1.OOB x y = m2.OOB x y)
    (hcst : ∀ x y, m1.CantSeeThrough x y = true → m2.CantSeeThrough x y = true) :
    (∀ x0 y0 x1 y1, RayInRange x0 y0 x1 y1 →
      ∃ w, walk fl ((x1 - x0).natAbs + (y1 - y0).natAbs) x0 y0 x1 y1 = some w ∧
        los fl ((x1 - x0).natAbs + (y1 - y0).natAbs) m1 x0 y0 x1 y1 =
          some (losAlong m1 x1 y1 w) ∧
        los fl ((x1 - x0).natAbs + (y1 - y0).natAbs) m2 x0 y0 x1 y1 =
          some (losAlong m2 x1 y1 w)) ∧
    ∃ t1 t2, CalcVisibility fl (2 * r).toNat m1 px py r = some t1 ∧
      CalcVisibility fl (2 * r).toNat m2 px py r = some t2 ∧
      (∀ x y, Call.Lit x y ∈ t2 → Call.Lit x y ∈ t1) ∧
      ∀ x y, (g.run t2).lit x y = true → (g.run t1).lit x y = true := by
  obtain ⟨hw, t1, t2, h1, h2, rest⟩ := Los.blockers_shrink_light_exact m1 m2 g px py r hoob hcst
  refine ⟨?_, t1, t2, ?_, ?_, rest⟩
  · intro x0 y0 x1 y1 hq
    obtain ⟨w, e, e1, e2⟩ := hw x0 y0 x1 y1
    refine ⟨w, ?_, ?_, ?_⟩
    · rw [walk_inRange fl _ x0 y0 x1 y1 hq (le_refl _)]
      exact e
    · rw [los_inRange fl _ m1 x0 y0 x1 y1 hq (le_refl _), ← e1, Los.los_eq_rayTrace]
    · rw [los_inRange fl _ m2 x0 y0 x1 y1 hq (le_refl _), ← e2, Los.los_eq_rayTrace]
  · rw [CalcVisibility_exact fl m1 px py r hr]
    exact h1
  · rw [CalcVisibility_exact fl m2 px py r hr]
    exact h2

/-- Witness of C20: the map without obstacles and the corridor. -/
theorem blockers_shrink_light_witness :
    (InRange 0 0 5 ∧ (∀ x y, openMap.OOB x y = corridor.OOB x y) ∧
      ∀ x y, openMap.CantSeeThrough x y = true → corridor.CantSeeThrough x y = true) ∧
    ((∀ x0 y0 x1 y1, RayInRange x0 y0 x1 y1 →
      ∃ w, walk (fun _ _ => false) ((x1 - x0).natAbs + (y1 - y0).natAbs) x0 y0 x1 y1 = some w ∧
        los (fun _ _ => false) ((x1 - x0).natAbs + (y1 - y0).natAbs) openMap x0 y0 x1 y1 =
          some (losAlong openMap x1 y1 w) ∧
        los (fun _ _ => false) ((x1 - x0).natAbs + (y1 - y0).natAbs) corridor x0 y0 x1 y1 =
          some (losAlong corridor x1 y1 w)) ∧
    ∃ t1 t2, CalcVisibility (fun _ _ => false) (2 * 5 : Int).toNat openMap 0 0 5 = some t1 ∧
      CalcVisibility (fun _ _ => false) (2 * 5 : Int).toNat corridor 0 0 5 = some t2 ∧
      (∀ x y, Call.Lit x y ∈ t2 → Call.Lit x y ∈ t1) ∧
      ∀ x y, (Grid.dark.run t2).lit x y = true → (Grid.dark.run t1).lit x y = true) :=
  have h1 : ∀ x y, openMap.OOB x y = corridor.OOB x y := fun _ _ => rfl
  have h2 : ∀ x y, openMap.CantSeeThrough x y = true → corridor.CantSeeThrough x y = true :=
    fun _ _ h => by cases h
  ⟨⟨by decide, h1, h2⟩,
    blockers_shrink_light (fun _ _ => false) openMap corridor Grid.dark 0 0 5 (by decide) h1 h2⟩

end Go

end Los
